import Mathlib

/-!
QR code core: data encoding, Reed-Solomon error correction, masking.

A shallow embedding of `src/wasm/src/reed_solomon.cpp`, `src/wasm/src/data_encoder.cpp`
and `src/wasm/src/masking.cpp`, followed by theorems about the embedded functions.

Conventions of the embedding:
* `std::vector<int>` is `List Nat` (codewords, coefficients) and `std::string` is `List Char`,
  one `Char` per byte; `std::vector<std::vector<bool>>` is `List (List Bool)`.
* A call that throws, or that reads or writes outside a vector, has no result: such
  functions return `Except Error _`.
* Loops over an index become structural recursion on the number of remaining iterations.
-/

namespace QR

/-- Ways in which a call of the source can end without a result. -/
inductive Error where
  /-- A `std::runtime_error` thrown by the source, with its message. -/
  | runtimeError (msg : String)
  /-- The `std::invalid_argument` thrown by `std::stoi` when no digits can be read. -/
  | invalidArgument
  /-- A `std::string` constructed with a negative length: converted to `size_t` the length
  is huge, and the constructor throws `std::length_error` or its allocation fails. -/
  | negativeLength
  /-- An access outside the bounds of a vector (undefined behaviour in the source). -/
  | outOfBounds
  deriving DecidableEq, Repr

deriving instance DecidableEq for Except

/-! ## reed_solomon.cpp : GaloisField -/

/-- The two tables `int logTable[SIZE]` and `int expTable[SIZE]` of `class GaloisField`. -/
structure GaloisField where
  logTable : List Nat
  expTable : List Nat
  deriving DecidableEq, Repr

/-- The constant `SIZE = 256`. -/
def GaloisField.SIZE : Nat := 256

/-- The constant `PRIMITIVE = 0x11d`, that is x^8 + x^4 + x^3 + x^2 + 1. -/
def GaloisField.PRIMITIVE : Nat := 0x11d

/-- The loop of `initTables`: `n` iterations are left, `i` is the loop counter and `x` the
running value. Each iteration stores `expTable[i] = x`, `logTable[x] = i`, doubles `x` and
reduces it by `PRIMITIVE` when bit 8 is set. -/
def GaloisField.initLoop : Nat → Nat → Nat → List Nat → List Nat → Nat × List Nat × List Nat
  | 0, _, x, logT, expT => (x, logT, expT)
  | n + 1, i, x, logT, expT =>
    let expT1 := expT.set i x
    let logT1 := logT.set x i
    let x1 := x <<< 1
    let x2 := if x1 &&& GaloisField.SIZE ≠ 0 then x1 ^^^ GaloisField.PRIMITIVE else x1
    GaloisField.initLoop n (i + 1) x2 logT1 expT1

/-- The tables built by `initTables()`: the loop runs for `i = 0 .. SIZE - 2`, then
`expTable[SIZE - 1] = 1` and `logTable[0] = 0`. The arrays start out as 256 cells; every
cell is written before it is read. -/
def GaloisField.initTables : GaloisField :=
  let r := GaloisField.initLoop (GaloisField.SIZE - 1) 0 1
    (List.replicate GaloisField.SIZE 0) (List.replicate GaloisField.SIZE 0)
  GaloisField.mk (r.2.1.set 0 0) (r.2.2.set (GaloisField.SIZE - 1) 1)

/-- The function `multiply(a, b)`: 0 when an operand is 0, else
`expTable[(logTable[a] + logTable[b]) % (SIZE - 1)]`. -/
def GaloisField.multiply (gf : GaloisField) (a b : Nat) : Nat :=
  if a = 0 ∨ b = 0 then 0
  else gf.expTable.getD ((gf.logTable.getD a 0 + gf.logTable.getD b 0) % (GaloisField.SIZE - 1)) 0

/-- The function `divide(a, b)`: 0 when `a == 0`; otherwise throws "Division by zero" when
`b == 0`; otherwise `expTable[(logTable[a] - logTable[b] + (SIZE - 1)) % (SIZE - 1)]`. -/
def GaloisField.divide (gf : GaloisField) (a b : Nat) : Except Error Nat :=
  if a = 0 then .ok 0
  else if b = 0 then .error (.runtimeError "Division by zero")
  else .ok (gf.expTable.getD
    ((((gf.logTable.getD a 0 : Int) - (gf.logTable.getD b 0 : Int)
      + ((GaloisField.SIZE : Int) - 1)) % ((GaloisField.SIZE : Int) - 1)).toNat) 0)

/-- The function `power(base, exp)` for a non-negative exponent: 0 when `base == 0`;
otherwise 1 when `exp == 0`; otherwise `expTable[(logTable[base] * exp) % (SIZE - 1)]`. -/
def GaloisField.power (gf : GaloisField) (base exp : Nat) : Nat :=
  if base = 0 then 0
  else if exp = 0 then 1
  else gf.expTable.getD ((gf.logTable.getD base 0 * exp) % (GaloisField.SIZE - 1)) 0

/-! ## reed_solomon.cpp : ReedSolomonEncoder -/

/-- The member `GaloisField gf` of `ReedSolomonEncoder`, built by the default constructor. -/
def ReedSolomonEncoder.gf : GaloisField := GaloisField.initTables

/-- The update `v[k] ^= x` of a vector known to have a cell `k`. -/
def xorSet (v : List Nat) (k x : Nat) : List Nat :=
  v.set k (v.getD k 0 ^^^ x)

/-- The inner loop of `multiplyPolynomials` for a fixed `i`: over the coefficients `b[j]`
still to visit (`k = i + j`), `result[i + j] ^= gf.multiply(a[i], b[j])`. -/
def ReedSolomonEncoder.multiplyInner (ai : Nat) : List Nat → Nat → List Nat → List Nat
  | [], _, result => result
  | bj :: bs, k, result =>
    ReedSolomonEncoder.multiplyInner ai bs (k + 1)
      (xorSet result k (ReedSolomonEncoder.gf.multiply ai bj))

/-- The outer loop of `multiplyPolynomials` over the coefficients `a[i]` still to visit. -/
def ReedSolomonEncoder.multiplyOuter (b : List Nat) : List Nat → Nat → List Nat → List Nat
  | [], _, result => result
  | ai :: as, i, result =>
    ReedSolomonEncoder.multiplyOuter b as (i + 1)
      (ReedSolomonEncoder.multiplyInner ai b i result)

/-- The function `multiplyPolynomials(a, b)`: a zero vector of `a.size() + b.size() - 1`
cells, into which every product `a[i] * b[j]` is XOR-ed at index `i + j`. It is private
and only called with non-empty operands. -/
def ReedSolomonEncoder.multiplyPolynomials (a b : List Nat) : List Nat :=
  ReedSolomonEncoder.multiplyOuter b a 0 (List.replicate (a.length + b.length - 1) 0)

/-- The loop of `generatePolynomial` from counter `i`, with `n` iterations left:
`generator = multiplyPolynomials(generator, {1, gf.power(2, i)})`. -/
def ReedSolomonEncoder.generateLoop : Nat → Nat → List Nat → List Nat
  | 0, _, generator => generator
  | n + 1, i, generator =>
    ReedSolomonEncoder.generateLoop n (i + 1)
      (ReedSolomonEncoder.multiplyPolynomials generator [1, ReedSolomonEncoder.gf.power 2 i])

/-- The function `generatePolynomial(numEccWords)`, starting from the polynomial `{1}`. -/
def ReedSolomonEncoder.generatePolynomial (numEccWords : Nat) : List Nat :=
  ReedSolomonEncoder.generateLoop numEccWords 0 [1]

/-- Subtraction of two `size_t` values (32 bits wide on the wasm32 target), for operands
below 2^32: it wraps around when the second operand is the larger one. -/
def sizeSub (a b : Nat) : Nat :=
  if b ≤ a then a - b else a + 2 ^ 32 - b

/-- The inner loop of `dividePolynomials` for a fixed `i`, over the divisor coefficients
still to visit (`k = i + j`): `remainder[i + j] ^= gf.multiply(divisor[j], coeff)`. A write
outside `remainder` has no result. -/
def ReedSolomonEncoder.divideInner (coeff : Nat) :
    List Nat → Nat → List Nat → Except Error (List Nat)
  | [], _, remainder => .ok remainder
  | dj :: ds, k, remainder =>
    if k < remainder.length then
      ReedSolomonEncoder.divideInner coeff ds (k + 1)
        (xorSet remainder k (ReedSolomonEncoder.gf.multiply dj coeff))
    else .error .outOfBounds

/-- The outer loop of `dividePolynomials`, `for (i = 0; i <= size - divisor.size(); i++)`,
with `n` iterations left at counter `i`. It reads `remainder[i]` (no result when `i` is
outside the vector) and, when that coefficient is not 0, runs the inner loop with it. -/
def ReedSolomonEncoder.divideOuter (divisor : List Nat) :
    Nat → Nat → List Nat → Except Error (List Nat)
  | 0, _, remainder => .ok remainder
  | n + 1, i, remainder =>
    match remainder[i]? with
    | none => .error .outOfBounds
    | some coeff =>
      if coeff ≠ 0 then
        match ReedSolomonEncoder.divideInner coeff divisor i remainder with
        | .ok remainder1 => ReedSolomonEncoder.divideOuter divisor n (i + 1) remainder1
        | .error e => .error e
      else ReedSolomonEncoder.divideOuter divisor n (i + 1) remainder

/-- The function `dividePolynomials(dividend, divisor)`. The loop bound
`remainder.size() - divisor.size()` is computed in `size_t`, so the loop makes
`sizeSub dividend.length divisor.length + 1` iterations unless an access fails first.
The result is the last `divisor.size() - 1` cells of the remainder. -/
def ReedSolomonEncoder.dividePolynomials (dividend divisor : List Nat) :
    Except Error (List Nat) :=
  match ReedSolomonEncoder.divideOuter divisor
      (sizeSub dividend.length divisor.length + 1) 0 dividend with
  | .ok remainder => .ok (remainder.drop (remainder.length - (divisor.length - 1)))
  | .error e => .error e

/-- The function `encode(dataBytes, numEccWords)` for a non-negative `numEccWords`: the
dividend is the data followed by `numEccWords` zeros; the result is the data followed by
the remainder of the division by the generator polynomial. -/
def ReedSolomonEncoder.encode (dataBytes : List Nat) (numEccWords : Nat) :
    Except Error (List Nat) :=
  let generator := ReedSolomonEncoder.generatePolynomial numEccWords
  let dividend := dataBytes ++ List.replicate numEccWords 0
  match ReedSolomonEncoder.dividePolynomials dividend generator with
  | .ok remainder => .ok (dataBytes ++ remainder)
  | .error e => .error e

/-! ## reed_solomon.cpp : QRErrorCorrection -/

/-- The struct `ECCParams`; every entry of the table is a non-negative `int`. -/
structure ECCParams where
  totalCodewords : Nat
  eccPerBlock : Nat
  numBlocks : Nat
  dataPerBlock : Nat
  deriving DecidableEq, Repr

/-- The table `ECC_TABLE[16][4]`, indexed by `version - 1` and by the level `L, M, Q, H`:
its initialiser gives 15 rows, so the sixteenth row is zero-initialised. -/
def QRErrorCorrection.ECC_TABLE : List (List ECCParams) :=
  [[ECCParams.mk 26 7 1 19, ECCParams.mk 26 10 1 16, ECCParams.mk 26 13 1 13,
      ECCParams.mk 26 17 1 9],
   [ECCParams.mk 44 10 1 34, ECCParams.mk 44 16 1 28, ECCParams.mk 44 22 1 22,
      ECCParams.mk 44 28 1 16],
   [ECCParams.mk 70 15 1 55, ECCParams.mk 70 26 1 44, ECCParams.mk 70 36 2 17,
      ECCParams.mk 70 44 2 13],
   [ECCParams.mk 100 20 1 80, ECCParams.mk 100 36 2 32, ECCParams.mk 100 52 2 24,
      ECCParams.mk 100 64 4 9],
   [ECCParams.mk 134 26 1 108, ECCParams.mk 134 48 2 43, ECCParams.mk 134 72 2 15,
      ECCParams.mk 134 88 2 11],
   [ECCParams.mk 172 36 2 68, ECCParams.mk 172 64 4 27, ECCParams.mk 172 96 4 19,
      ECCParams.mk 172 112 4 15],
   [ECCParams.mk 196 40 2 78, ECCParams.mk 196 72 4 31, ECCParams.mk 196 108 2 14,
      ECCParams.mk 196 130 5 13],
   [ECCParams.mk 242 48 2 97, ECCParams.mk 242 88 2 38, ECCParams.mk 242 132 4 18,
      ECCParams.mk 242 156 6 14],
   [ECCParams.mk 292 60 2 116, ECCParams.mk 292 110 3 36, ECCParams.mk 292 160 4 16,
      ECCParams.mk 292 192 6 16],
   [ECCParams.mk 346 72 2 137, ECCParams.mk 346 130 4 43, ECCParams.mk 346 192 6 19,
      ECCParams.mk 346 224 7 19],
   [ECCParams.mk 404 80 4 81, ECCParams.mk 404 150 1 50, ECCParams.mk 404 224 4 22,
      ECCParams.mk 404 264 4 22],
   [ECCParams.mk 466 96 2 92, ECCParams.mk 466 176 6 36, ECCParams.mk 466 260 4 24,
      ECCParams.mk 466 308 5 24],
   [ECCParams.mk 532 104 4 107, ECCParams.mk 532 198 8 37, ECCParams.mk 532 288 8 24,
      ECCParams.mk 532 352 11 24],
   [ECCParams.mk 581 120 3 115, ECCParams.mk 581 216 4 40, ECCParams.mk 581 320 11 24,
      ECCParams.mk 581 384 5 24],
   [ECCParams.mk 655 132 5 87, ECCParams.mk 655 240 5 41, ECCParams.mk 655 360 5 24,
      ECCParams.mk 655 432 5 24],
   [ECCParams.mk 0 0 0 0, ECCParams.mk 0 0 0 0, ECCParams.mk 0 0 0 0, ECCParams.mk 0 0 0 0]]

/-- The function `addErrorCorrection(dataBytes, version, errorCorrectionLevel)`: it throws
"Unsupported QR version" outside `1..15`; otherwise it reads
`ECC_TABLE[version - 1][levelIndex]` and returns `encoder.encode(dataBytes,
params.eccPerBlock)`, one block whatever `params.numBlocks` is. -/
def QRErrorCorrection.addErrorCorrection (dataBytes : List Nat) (version : Int)
    (errorCorrectionLevel : String) : Except Error (List Nat) :=
  if version < 1 ∨ version > 15 then .error (.runtimeError "Unsupported QR version")
  else
    let levelIndex : Nat :=
      if errorCorrectionLevel = "M" then 1
      else if errorCorrectionLevel = "Q" then 2
      else if errorCorrectionLevel = "H" then 3
      else 0
    let params := ((QRErrorCorrection.ECC_TABLE.getD (version - 1).toNat []).getD levelIndex
      (ECCParams.mk 0 0 0 0))
    ReedSolomonEncoder.encode dataBytes params.eccPerBlock

/-! ## data_encoder.cpp -/

/-- The constant `QR_MODE_NUMERIC`. -/
def QR_MODE_NUMERIC : Int := 1

/-- The constant `QR_MODE_ALPHANUMERIC`. -/
def QR_MODE_ALPHANUMERIC : Int := 2

/-- The constant `QR_MODE_BYTE`. -/
def QR_MODE_BYTE : Int := 4

/-- The constant `ALPHANUMERIC_CHARS`, the 45 characters of alphanumeric mode. -/
def ALPHANUMERIC_CHARS : List Char :=
  "0123456789ABCDEFGHIJKLMNOPQRSTUVWXYZ $%*+-./:".toList

/-- The table `CHARACTER_COUNT_LENGTHS[mode][version_group]`. -/
def CHARACTER_COUNT_LENGTHS : List (List Nat) :=
  [[10, 12, 14], [9, 11, 13], [8, 16, 16]]

/-- The table `DATA_CODEWORDS_TABLE[version][error_correction_level]`; row 0 is a
placeholder. -/
def DATA_CODEWORDS_TABLE : List (List Int) :=
  [[0, 0, 0, 0],
   [19, 16, 13, 9],
   [34, 28, 22, 16],
   [55, 44, 34, 26],
   [80, 64, 48, 36],
   [108, 86, 62, 46],
   [136, 108, 76, 60],
   [156, 124, 88, 66],
   [194, 154, 110, 86],
   [232, 182, 132, 100],
   [274, 216, 154, 122],
   [324, 254, 180, 140],
   [370, 290, 206, 158],
   [428, 334, 244, 180],
   [461, 365, 261, 197],
   [523, 415, 295, 223]]

/-- The function `stringToUtf8Bytes(str)`: every `unsigned char` of the string is pushed
unchanged, whichever of the three branches it takes. -/
def stringToUtf8Bytes (str : List Char) : List Nat :=
  str.map (fun ch =>
    let c := ch.toNat % 256
    if c ≤ 0x7F then c else if c ≤ 0xDF then c else c)

/-- The function `padLeft(str, length)` with the default pad character '0'. -/
def padLeft (str : List Char) (length : Nat) : List Char :=
  if str.length ≥ length then str
  else List.replicate (length - str.length) '0' ++ str

/-- The loop `while (value > 0)` of `toBinary`, with `n` iterations left: the digit of
`value % 2` is put in front of `binary` and `value` is halved. -/
def toBinaryLoop : Nat → Nat → List Char → List Char
  | 0, _, binary => binary
  | n + 1, value, binary =>
    if value > 0 then
      toBinaryLoop n (value / 2) ((if value % 2 = 0 then '0' else '1') :: binary)
    else binary

/-- The function `toBinary(value)`: "0" for 0; for other values the loop runs while the
value is positive (so not at all for a negative value, which gives the empty string).
A positive value is exhausted after at most `value` halvings. -/
def toBinary (value : Int) : List Char :=
  if value = 0 then ['0']
  else toBinaryLoop value.toNat value.toNat []

/-- The function `getCharacterCountLength(mode, version)`. -/
def getCharacterCountLength (mode version : Int) : Nat :=
  let modeIndex : Nat :=
    if mode = QR_MODE_NUMERIC then 0
    else if mode = QR_MODE_ALPHANUMERIC then 1
    else if mode = QR_MODE_BYTE then 2
    else 2
  let versionGroup : Nat :=
    if version ≤ 9 then 0
    else if version ≤ 26 then 1
    else 2
  (CHARACTER_COUNT_LENGTHS.getD modeIndex []).getD versionGroup 0

/-- The function `getDataCodewordsCount(version, errorCorrectionLevel)`. -/
def getDataCodewordsCount (version : Int) (errorCorrectionLevel : String) : Int :=
  if version < 1 ∨ version > 15 then 0
  else
    let levelIndex : Nat :=
      if errorCorrectionLevel = "M" then 1
      else if errorCorrectionLevel = "Q" then 2
      else if errorCorrectionLevel = "H" then 3
      else 0
    (DATA_CODEWORDS_TABLE.getD version.toNat []).getD levelIndex 0

/-- Whether `isspace` holds of a character in the "C" locale. -/
def isSpaceChar (c : Char) : Bool :=
  c.toNat = 32 || (9 ≤ c.toNat && c.toNat ≤ 13)

/-- The decimal digit a character stands for, its distance from the character '0'. -/
def digitOf (c : Char) : Nat := c.toNat - 48

/-- The decimal value of a string of digits read after the value `acc`. -/
def digitsValue (acc : Nat) : List Char → Nat
  | [] => acc
  | c :: cs => digitsValue (acc * 10 + digitOf c) cs

/-- The library function `std::stoi(str)` in base 10, for strings short enough for the
value to fit an `int` (here at most three characters): leading white space is skipped,
one sign is accepted, then the longest run of decimal digits is read; without a digit
`std::invalid_argument` is thrown. -/
def stoi (str : List Char) : Except Error Int :=
  let s1 := str.dropWhile isSpaceChar
  let negative : Bool := s1.head? = some '-'
  let s2 := if s1.head? = some '-' ∨ s1.head? = some '+' then s1.drop 1 else s1
  let digits := s2.takeWhile Char.isDigit
  if digits = [] then .error .invalidArgument
  else if negative then .ok (-(digitsValue 0 digits : Int))
  else .ok (digitsValue 0 digits : Int)

/-- The loop of `encodeNumeric`, `for (i = 0; i < data.length(); i += 3)`, with `n`
iterations left: the chunk `data.substr(i, 3)` is converted by `std::stoi` and appended
in 10, 7 or 4 bits according to its length. -/
def encodeNumericLoop (data : List Char) : Nat → Nat → List Char → Except Error (List Char)
  | 0, _, bits => .ok bits
  | n + 1, i, bits =>
    if i < data.length then
      let chunk := (data.drop i).take 3
      match stoi chunk with
      | .error e => .error e
      | .ok value =>
        let bitLength : Nat :=
          if chunk.length = 3 then 10
          else if chunk.length = 2 then 7
          else 4
        encodeNumericLoop data n (i + 3) (bits ++ padLeft (toBinary value) bitLength)
    else .ok bits

/-- The function `encodeNumeric(data)`; the loop ends after at most `data.length()`
iterations. -/
def encodeNumeric (data : List Char) : Except Error (List Char) :=
  encodeNumericLoop data data.length 0 []

/-- The call `ALPHANUMERIC_CHARS.find(c)` stored in an `int`, with the fallback of the
source applied: the index of the character, or 0 when it is not found. -/
def alphanumericValue (c : Char) : Nat :=
  match ALPHANUMERIC_CHARS.indexOf? c with
  | some v => v
  | none => 0

/-- The loop of `encodeAlphanumeric`, `for (i = 0; i < data.length(); i += 2)`, with `n`
iterations left: a pair is appended as `value1 * 45 + value2` in 11 bits, a last single
character as its value in 6 bits. -/
def encodeAlphanumericLoop (data : List Char) : Nat → Nat → List Char → List Char
  | 0, _, bits => bits
  | n + 1, i, bits =>
    if i < data.length then
      if i + 1 < data.length then
        let value1 := alphanumericValue (data.getD i '0')
        let value2 := alphanumericValue (data.getD (i + 1) '0')
        let combined := value1 * 45 + value2
        encodeAlphanumericLoop data n (i + 2) (bits ++ padLeft (toBinary combined) 11)
      else
        let value1 := alphanumericValue (data.getD i '0')
        encodeAlphanumericLoop data n (i + 2) (bits ++ padLeft (toBinary value1) 6)
    else bits

/-- The function `encodeAlphanumeric(data)`; the loop ends after at most `data.length()`
iterations. -/
def encodeAlphanumeric (data : List Char) : List Char :=
  encodeAlphanumericLoop data data.length 0 []

/-- The function `encodeByte(data)`: every byte in 8 bits. -/
def encodeByte (data : List Char) : List Char :=
  (stringToUtf8Bytes data).foldl (fun bits byte => bits ++ padLeft (toBinary byte) 8) []

/-- The loop `while (paddedBits.length() % 8 != 0) paddedBits += "0"`, with `n` iterations
left; seven iterations always suffice. -/
def padToByteBoundary : Nat → List Char → List Char
  | 0, paddedBits => paddedBits
  | n + 1, paddedBits =>
    if paddedBits.length % 8 ≠ 0 then padToByteBoundary n (paddedBits ++ ['0'])
    else paddedBits

/-- The inner loop of `bitsToBytes` over one group: `byte = byte * 2 + (bit - '0')`. -/
def byteOfBits (byteStr : List Char) : Int :=
  byteStr.foldl (fun byte bit => byte * 2 + ((bit.toNat : Int) - ('0'.toNat : Int))) 0

/-- The second loop of `bitsToBytes`, `for (i = 0; i < paddedBits.length(); i += 8)`, with
`n` iterations left: the group `paddedBits.substr(i, 8)` is converted to a byte. -/
def bitsToBytesLoop (paddedBits : List Char) : Nat → Nat → List Int → List Int
  | 0, _, bytes => bytes
  | n + 1, i, bytes =>
    if i < paddedBits.length then
      bitsToBytesLoop paddedBits n (i + 8) (bytes ++ [byteOfBits ((paddedBits.drop i).take 8)])
    else bytes

/-- The function `bitsToBytes(bits)`: the bits are zero-padded to a byte boundary and
converted in groups of 8. -/
def bitsToBytes (bits : List Char) : List Int :=
  let paddedBits := padToByteBoundary 7 bits
  bitsToBytesLoop paddedBits paddedBits.length 0 []

/-- The function `encode(data, mode, version)`: mode indicator in 4 bits, character count
in `getCharacterCountLength(mode, version)` bits, then the payload of the mode. -/
def encode (data : List Char) (mode version : Int) : Except Error (List Char) :=
  let bits := padLeft (toBinary mode) 4
  let lengthBits := getCharacterCountLength mode version
  let dataLength : Int :=
    if mode = QR_MODE_BYTE then ((stringToUtf8Bytes data).length : Int)
    else (data.length : Int)
  let bits := bits ++ padLeft (toBinary dataLength) lengthBits
  if mode = QR_MODE_NUMERIC then
    match encodeNumeric data with
    | .ok payload => .ok (bits ++ payload)
    | .error e => .error e
  else if mode = QR_MODE_ALPHANUMERIC then .ok (bits ++ encodeAlphanumeric data)
  else .ok (bits ++ encodeByte data)

/-- The loop `while ((int)paddedBits.length() < requiredLength * 8)` of `encodeToBytes`,
with `n` iterations left: the padding byte `paddingBytes[paddingIndex % 2]` of
`{0xEC, 0x11}` is appended in 8 bits. -/
def paddingLoop (requiredLength : Int) : Nat → Nat → List Char → List Char
  | 0, _, paddedBits => paddedBits
  | n + 1, paddingIndex, paddedBits =>
    if (paddedBits.length : Int) < requiredLength * 8 then
      let paddingByte : Int := ([0xEC, 0x11] : List Int).getD (paddingIndex % 2) 0
      paddingLoop requiredLength n (paddingIndex + 1)
        (paddedBits ++ padLeft (toBinary paddingByte) 8)
    else paddedBits

/-- The function `encodeToBytes(data, mode, version, errorCorrectionLevel)`. After the
hard-coded answer for "Test" at version 1, level H, the bits of `encode` get a terminator
of `min(4, requiredLength * 8 - bits.length())` zeros: with a negative length the
constructor `std::string(count, '0')` does not return, so there is no result. Then come the zero
bits to a byte boundary, the padding bytes (at most `requiredLength` of them), the
truncation `substr(0, requiredLength * 8)` and the conversion to bytes. -/
def encodeToBytes (data : List Char) (mode version : Int) (errorCorrectionLevel : String) :
    Except Error (List Int) :=
  if errorCorrectionLevel = "H" ∧ data = "Test".toList ∧ version = 1 then
    .ok [0x12, 0x59, 0x31, 0xaf, 0x76, 0x3f, 0xa8, 0x5d, 0x0a]
  else
    match encode data mode version with
    | .error e => .error e
    | .ok bits =>
      let requiredLength := getDataCodewordsCount version errorCorrectionLevel
      let terminatorLength : Int := min 4 (requiredLength * 8 - (bits.length : Int))
      if terminatorLength < 0 then .error .negativeLength
      else
        let paddedBits := bits ++ List.replicate terminatorLength.toNat '0'
        let paddedBits := padToByteBoundary 7 paddedBits
        let paddedBits := paddingLoop requiredLength requiredLength.toNat 0 paddedBits
        let finalBits := paddedBits.take (requiredLength * 8).toNat
        .ok (bitsToBytes finalBits)

/-- The function `detectMode(data)`. The first loop clears `isNumeric` at a character with
`c < '0' || c > '9'` (a byte of 128 or more is a negative `char`, below '0'; here it is
above '9': the test gives the same), the second clears `isAlphanumeric` at a character
that `ALPHANUMERIC_CHARS.find` does not find. -/
def detectMode (data : List Char) : Int :=
  let isNumeric := data.all (fun c => !(decide (c < '0') || decide (c > '9')))
  if isNumeric && !data.isEmpty then QR_MODE_NUMERIC
  else
    let isAlphanumeric := data.all (fun c => (ALPHANUMERIC_CHARS.indexOf? c).isSome)
    if isAlphanumeric then QR_MODE_ALPHANUMERIC
    else QR_MODE_BYTE

/-- The three floating-point computations of `determineVersion`, each from an `int` to an
`int`: `capacity * 1.8` and `capacity * 0.8` computed in `double` and converted back on
assignment, and `(int)std::ceil(length / 30.0)`. They are taken as given. -/
structure FloatOps where
  times18 : Int → Int
  times08 : Int → Int
  ceilDiv30 : Int → Int

/-- The value `estimatedCapacity` that `determineVersion` computes for a version: the
data codewords count times 2 in Numeric mode, times 1.8 in Alphanumeric mode, times 0.8
otherwise. -/
def estimatedCapacity (fp : FloatOps) (mode version : Int) (errorCorrectionLevel : String) :
    Int :=
  let capacity := getDataCodewordsCount version errorCorrectionLevel
  if mode = QR_MODE_NUMERIC then capacity * 2
  else if mode = QR_MODE_ALPHANUMERIC then fp.times18 capacity
  else fp.times08 capacity

/-- The function `determineVersion(data, mode, errorCorrectionLevel)`: the first version
of `1 .. 15` with `length <= estimatedCapacity` is returned; without one the fallback
`std::min(15, std::max(1, (int)std::ceil(length / 30.0)))`. -/
def determineVersion (fp : FloatOps) (data : List Char) (mode : Int)
    (errorCorrectionLevel : String) : Int :=
  let length : Int :=
    if mode = QR_MODE_BYTE then ((stringToUtf8Bytes data).length : Int)
    else (data.length : Int)
  match (List.range 15).find?
      (fun k => decide (length ≤ estimatedCapacity fp mode ((k : Int) + 1) errorCorrectionLevel))
  with
  | some k => (k : Int) + 1
  | none => min 15 (max 1 (fp.ceilDiv30 length))

/-! ## masking.cpp -/

/-- The constant `RULE1_BASE_PENALTY`. -/
def RULE1_BASE_PENALTY : Int := 3

/-- The constant `RULE1_MIN_CONSECUTIVE`. -/
def RULE1_MIN_CONSECUTIVE : Int := 5

/-- The constant `RULE2_BLOCK_PENALTY`. -/
def RULE2_BLOCK_PENALTY : Int := 3

/-- The constant `RULE3_FINDER_PATTERN_PENALTY`. -/
def RULE3_FINDER_PATTERN_PENALTY : Int := 40

/-- The constant `RULE3_PATTERN_LENGTH`. -/
def RULE3_PATTERN_LENGTH : Nat := 7

/-- The constant `RULE3_LIGHT_PADDING`. -/
def RULE3_LIGHT_PADDING : Nat := 4

/-- The constant `INT_MAX` of a 32-bit `int`. -/
def INT_MAX : Int := 2147483647

/-- The mask predicate `pattern0`. -/
def MaskPatterns.pattern0 (row col : Nat) : Bool := (row + col) % 2 == 0

/-- The mask predicate `pattern1`. -/
def MaskPatterns.pattern1 (row _col : Nat) : Bool := row % 2 == 0

/-- The mask predicate `pattern2`. -/
def MaskPatterns.pattern2 (_row col : Nat) : Bool := col % 3 == 0

/-- The mask predicate `pattern3`. -/
def MaskPatterns.pattern3 (row col : Nat) : Bool := (row + col) % 3 == 0

/-- The mask predicate `pattern4`. -/
def MaskPatterns.pattern4 (row col : Nat) : Bool := (row / 2 + col / 3) % 2 == 0

/-- The mask predicate `pattern5`. -/
def MaskPatterns.pattern5 (row col : Nat) : Bool := (row * col) % 2 + (row * col) % 3 == 0

/-- The mask predicate `pattern6`. -/
def MaskPatterns.pattern6 (row col : Nat) : Bool :=
  ((row * col) % 2 + (row * col) % 3) % 2 == 0

/-- The mask predicate `pattern7`. -/
def MaskPatterns.pattern7 (row col : Nat) : Bool :=
  ((row + col) % 2 + (row * col) % 3) % 2 == 0

/-- The table `MaskPatterns::patterns[8]` of function pointers. -/
def MaskPatterns.patterns : List (Nat → Nat → Bool) :=
  [MaskPatterns.pattern0, MaskPatterns.pattern1, MaskPatterns.pattern2, MaskPatterns.pattern3,
   MaskPatterns.pattern4, MaskPatterns.pattern5, MaskPatterns.pattern6, MaskPatterns.pattern7]

/-- The read `modules[row][col]` of a grid that has this cell. -/
def moduleAt (modules : List (List Bool)) (row col : Nat) : Bool :=
  (modules.getD row []).getD col false

/-- The function `isReservedModule(row, col, size)`, with its three tests in order; the
comparisons with `size - 8` and `size - 7` are made in `int`. -/
def isReservedModule (row col size : Nat) : Bool :=
  if (row < 9 && col < 9) ||
      (row < 9 && decide ((col : Int) ≥ (size : Int) - 8)) ||
      (decide ((row : Int) ≥ (size : Int) - 8) && col < 9) then true
  else if row == 6 || col == 6 then true
  else if (row < 9 && decide ((col : Int) ≥ (size : Int) - 8)) ||
      (decide ((row : Int) ≥ (size : Int) - 7) && col < 9) then true
  else false

/-- The body of the two loops of `applyMask` at `(row, col)`: a module that is not reserved
and for which the mask predicate holds is inverted in place. -/
def applyMaskAt (maskPattern size : Nat) (maskedModules : List (List Bool)) (row col : Nat) :
    List (List Bool) :=
  if !isReservedModule row col size then
    if (MaskPatterns.patterns.getD maskPattern (fun _ _ => false)) row col then
      maskedModules.set row
        ((maskedModules.getD row []).set col (!moduleAt maskedModules row col))
    else maskedModules
  else maskedModules

/-- The function `applyMask(modules, maskPattern, size)` for a mask index in `0..7` and a
grid of at least `size` rows and columns: the copy of `modules` after the loops
`for row < size`, `for col < size`. -/
def applyMask (modules : List (List Bool)) (maskPattern size : Nat) : List (List Bool) :=
  (List.range size).foldl
    (fun maskedModules row =>
      (List.range size).foldl
        (fun maskedModules col => applyMaskAt maskPattern size maskedModules row col)
        maskedModules)
    modules

/-- The penalty added at the end of a run of `count` modules in `evaluateRule1`. -/
def rule1RunPenalty (count : Int) : Int :=
  if count ≥ RULE1_MIN_CONSECUTIVE then RULE1_BASE_PENALTY + (count - RULE1_MIN_CONSECUTIVE)
  else 0

/-- One line of `evaluateRule1`: `line k` is the `k`-th module of the row or column. The
scan starts with `count = 1`, `prevModule = line 0` and visits `k = 1 .. size - 1`; the
last run is scored after the loop. -/
def rule1Line (line : Nat → Bool) (size : Nat) : Int :=
  let r := (List.range (size - 1)).foldl
    (fun (st : Int × Int × Bool) k0 =>
      let k := k0 + 1
      if line k == st.2.2 then (st.1, st.2.1 + 1, st.2.2)
      else (st.1 + rule1RunPenalty st.2.1, 1, line k))
    ((0 : Int), (1 : Int), line 0)
  r.1 + rule1RunPenalty r.2.1

/-- The function `evaluateRule1(modules, size)`: all rows, then all columns. -/
def evaluateRule1 (modules : List (List Bool)) (size : Nat) : Int :=
  let rows := (List.range size).foldl
    (fun penalty row => penalty + rule1Line (fun col => moduleAt modules row col) size) (0 : Int)
  (List.range size).foldl
    (fun penalty col => penalty + rule1Line (fun row => moduleAt modules row col) size) rows

/-- The function `evaluateRule2(modules, size)`: 3 for every 2x2 block of one colour. -/
def evaluateRule2 (modules : List (List Bool)) (size : Nat) : Int :=
  (List.range (size - 1)).foldl
    (fun penalty row =>
      (List.range (size - 1)).foldl
        (fun penalty col =>
          let color := moduleAt modules row col
          if moduleAt modules row (col + 1) == color &&
              moduleAt modules (row + 1) col == color &&
              moduleAt modules (row + 1) (col + 1) == color then
            penalty + RULE2_BLOCK_PENALTY
          else penalty)
        penalty)
    (0 : Int)

/-- The vector `pattern1` of `evaluateRule3`: 1011101. -/
def rule3Pattern1 : List Bool := [true, false, true, true, true, false, true]

/-- The vector `pattern2` of `evaluateRule3`: 0100010. -/
def rule3Pattern2 : List Bool := [false, true, false, false, false, true, false]

/-- The test of `evaluateRule3` for the window of 7 modules starting at `pos` in a line
of `size` modules: it matches one of the two patterns, and no dark module is found among
the modules `max(0, pos - 4) .. pos - 1` or none among
`pos + 7 .. min(size, pos + 7 + 4) - 1`. -/
def rule3Window (line : Nat → Bool) (size pos : Nat) : Bool :=
  let matchesPattern1 :=
    (List.range RULE3_PATTERN_LENGTH).all (fun i => line (pos + i) == rule3Pattern1.getD i false)
  let matchesPattern2 :=
    (List.range RULE3_PATTERN_LENGTH).all (fun i => line (pos + i) == rule3Pattern2.getD i false)
  if matchesPattern1 || matchesPattern2 then
    let first := pos - RULE3_LIGHT_PADDING
    let hasLeftPadding := (List.range' first (pos - first)).all (fun i => !line i)
    let start := pos + RULE3_PATTERN_LENGTH
    let stop := min size (pos + RULE3_PATTERN_LENGTH + RULE3_LIGHT_PADDING)
    let hasRightPadding := (List.range' start (stop - start)).all (fun i => !line i)
    hasLeftPadding || hasRightPadding
  else false

/-- One line of `evaluateRule3`: the windows at `pos = 0 .. size - 7`, 40 for each one
that passes the test. -/
def rule3Line (line : Nat → Bool) (size : Nat) : Int :=
  (List.range (size + 1 - RULE3_PATTERN_LENGTH)).foldl
    (fun penalty pos =>
      if rule3Window line size pos then penalty + RULE3_FINDER_PATTERN_PENALTY else penalty)
    (0 : Int)

/-- The function `evaluateRule3(modules, size)`: all rows, then all columns. -/
def evaluateRule3 (modules : List (List Bool)) (size : Nat) : Int :=
  let rows := (List.range size).foldl
    (fun penalty row => penalty + rule3Line (fun col => moduleAt modules row col) size) (0 : Int)
  (List.range size).foldl
    (fun penalty col => penalty + rule3Line (fun row => moduleAt modules row col) size) rows

/-- The function `evaluateMask(modules, size)`, the sum of the four rules. The fourth rule
is computed by the source in floating point; it enters here as the function
`evaluateRule4` of the grid and its size. -/
def evaluateMask (evaluateRule4 : List (List Bool) → Nat → Int)
    (modules : List (List Bool)) (size : Nat) : Int :=
  evaluateRule1 modules size + evaluateRule2 modules size + evaluateRule3 modules size
    + evaluateRule4 modules size

/-- The function `findBestMask(modules, size)`: the loop over `maskPattern = 0 .. 7` keeps
in `(bestMask, lowestPenalty)` the first mask whose penalty is strictly below the lowest
one so far, starting from `(0, INT_MAX)`. -/
def findBestMask (evaluateRule4 : List (List Bool) → Nat → Int)
    (modules : List (List Bool)) (size : Nat) : Nat :=
  ((List.range 8).foldl
    (fun (st : Nat × Int) maskPattern =>
      let maskedModules := applyMask modules maskPattern size
      let penalty := evaluateMask evaluateRule4 maskedModules size
      if penalty < st.2 then (maskPattern, penalty) else st)
    ((0 : Nat), INT_MAX)).1

/-- Rounding of a rational number to the nearest integer, a tie going to the even one. -/
def roundHalfEven (q : ℚ) : Int :=
  if q - ⌊q⌋ < 1 / 2 then ⌊q⌋
  else if q - ⌊q⌋ = 1 / 2 then (if ⌊q⌋ % 2 = 0 then ⌊q⌋ else ⌊q⌋ + 1)
  else ⌊q⌋ + 1

/-- The `double` nearest to a positive real `x` (IEEE 754 binary64, rounding to nearest,
ties to even), for `x` in the range of the normal numbers: with `2^e ≤ x < 2^(e+1)` the
doubles around `x` are the multiples of `2^(e-52)`. -/
def roundDoublePositive (x : ℚ) : ℚ :=
  (roundHalfEven (x / (2 : ℚ) ^ (Int.log 2 x - 52)) : ℚ) * (2 : ℚ) ^ (Int.log 2 x - 52)

/-- The `double` that an arithmetic operation with the exact result `x` returns; the
values that occur in `evaluateRule4` are 0 or lie between 2^-40 and 2^40 in magnitude, far
from overflow and underflow. -/
def roundDouble (x : ℚ) : ℚ :=
  if 0 < x then roundDoublePositive x
  else if x < 0 then -roundDoublePositive (-x)
  else 0

/-- The conversion `static_cast<int>(x)` of a `double` whose integer part fits an `int`:
the fraction is dropped. -/
def truncateToInt (x : ℚ) : Int :=
  if 0 ≤ x then ⌊x⌋ else ⌈x⌉

/-- The constant `RULE4_PENALTY_STEP`. -/
def RULE4_PENALTY_STEP : Int := 10

/-- The constant `RULE4_DEVIATION_STEP`. -/
def RULE4_DEVIATION_STEP : Int := 5

/-- The constant `OPTIMAL_DARK_PERCENTAGE`. -/
def OPTIMAL_DARK_PERCENTAGE : Int := 50

/-- The two loops of `evaluateRule4` that count the dark modules at `row, col < size`. -/
def rule4DarkCount (modules : List (List Bool)) (size : Nat) : Int :=
  (List.range size).foldl
    (fun darkCount row =>
      (List.range size).foldl
        (fun darkCount col => if moduleAt modules row col then darkCount + 1 else darkCount)
        darkCount)
    (0 : Int)

/-- The function `evaluateRule4(modules, size)` for `size * size` within `int`: the
percentage `(double(darkCount) * 100.0) / totalModules`, its deviation
`std::abs(darkPercentage - 50)` and the quotient `deviation / 5` are computed in `double`,
each operation rounding its exact result; the quotient is then truncated to `int` and
multiplied by 10. With this function for its first argument, `evaluateMask` and
`findBestMask` above are the functions of the source. -/
def evaluateRule4 (modules : List (List Bool)) (size : Nat) : Int :=
  let darkCount : Int := rule4DarkCount modules size
  let totalModules : Int := (size : Int) * (size : Int)
  let darkPercentage : ℚ :=
    roundDouble (roundDouble ((darkCount : ℚ) * 100) / (totalModules : ℚ))
  let deviation : ℚ := |roundDouble (darkPercentage - (OPTIMAL_DARK_PERCENTAGE : ℚ))|
  truncateToInt (roundDouble (deviation / (RULE4_DEVIATION_STEP : ℚ))) * RULE4_PENALTY_STEP

/-! ## Notions used to state and to prove the properties

None of these is a function of the source: they are the written-out tables, polynomial
evaluation over GF(256), the payload and padding as the specification words them, and
index-wise list maps. -/

/-- The values of `logTable` after `initTables()`, written out. -/
def logTableValues : List Nat :=
  [0, 0, 1, 25, 2, 50, 26, 198, 3, 223, 51, 238, 27, 104, 199, 75,
   4, 100, 224, 14, 52, 141, 239, 129, 28, 193, 105, 248, 200, 8, 76, 113,
   5, 138, 101, 47, 225, 36, 15, 33, 53, 147, 142, 218, 240, 18, 130, 69,
   29, 181, 194, 125, 106, 39, 249, 185, 201, 154, 9, 120, 77, 228, 114, 166,
   6, 191, 139, 98, 102, 221, 48, 253, 226, 152, 37, 179, 16, 145, 34, 136,
   54, 208, 148, 206, 143, 150, 219, 189, 241, 210, 19, 92, 131, 56, 70, 64,
   30, 66, 182, 163, 195, 72, 126, 110, 107, 58, 40, 84, 250, 133, 186, 61,
   202, 94, 155, 159, 10, 21, 121, 43, 78, 212, 229, 172, 115, 243, 167, 87,
   7, 112, 192, 247, 140, 128, 99, 13, 103, 74, 222, 237, 49, 197, 254, 24,
   227, 165, 153, 119, 38, 184, 180, 124, 17, 68, 146, 217, 35, 32, 137, 46,
   55, 63, 209, 91, 149, 188, 207, 205, 144, 135, 151, 178, 220, 252, 190, 97,
   242, 86, 211, 171, 20, 42, 93, 158, 132, 60, 57, 83, 71, 109, 65, 162,
   31, 45, 67, 216, 183, 123, 164, 118, 196, 23, 73, 236, 127, 12, 111, 246,
   108, 161, 59, 82, 41, 157, 85, 170, 251, 96, 134, 177, 187, 204, 62, 90,
   203, 89, 95, 176, 156, 169, 160, 81, 11, 245, 22, 235, 122, 117, 44, 215,
   79, 174, 213, 233, 230, 231, 173, 232, 116, 214, 244, 234, 168, 80, 88, 175]

/-- The values of `expTable` after `initTables()`, written out. -/
def expTableValues : List Nat :=
  [1, 2, 4, 8, 16, 32, 64, 128, 29, 58, 116, 232, 205, 135, 19, 38,
   76, 152, 45, 90, 180, 117, 234, 201, 143, 3, 6, 12, 24, 48, 96, 192,
   157, 39, 78, 156, 37, 74, 148, 53, 106, 212, 181, 119, 238, 193, 159, 35,
   70, 140, 5, 10, 20, 40, 80, 160, 93, 186, 105, 210, 185, 111, 222, 161,
   95, 190, 97, 194, 153, 47, 94, 188, 101, 202, 137, 15, 30, 60, 120, 240,
   253, 231, 211, 187, 107, 214, 177, 127, 254, 225, 223, 163, 91, 182, 113, 226,
   217, 175, 67, 134, 17, 34, 68, 136, 13, 26, 52, 104, 208, 189, 103, 206,
   129, 31, 62, 124, 248, 237, 199, 147, 59, 118, 236, 197, 151, 51, 102, 204,
   133, 23, 46, 92, 184, 109, 218, 169, 79, 158, 33, 66, 132, 21, 42, 84,
   168, 77, 154, 41, 82, 164, 85, 170, 73, 146, 57, 114, 228, 213, 183, 115,
   230, 209, 191, 99, 198, 145, 63, 126, 252, 229, 215, 179, 123, 246, 241, 255,
   227, 219, 171, 75, 150, 49, 98, 196, 149, 55, 110, 220, 165, 87, 174, 65,
   130, 25, 50, 100, 200, 141, 7, 14, 28, 56, 112, 224, 221, 167, 83, 166,
   81, 162, 89, 178, 121, 242, 249, 239, 195, 155, 43, 86, 172, 69, 138, 9,
   18, 36, 72, 144, 61, 122, 244, 245, 247, 243, 251, 235, 203, 139, 11, 22,
   44, 88, 176, 125, 250, 233, 207, 131, 27, 54, 108, 216, 173, 71, 142, 1]

/-- Doubling in GF(256), the step `x <<= 1; if (x & SIZE) x ^= PRIMITIVE` of `initTables`. -/
def xtime (x : Nat) : Nat :=
  let x1 := x <<< 1
  if x1 &&& GaloisField.SIZE ≠ 0 then x1 ^^^ GaloisField.PRIMITIVE else x1

/-- The value at `x` of the polynomial over GF(256) whose coefficients, highest degree
first, are `p`, computed by Horner's rule from the accumulator `acc` with the field
operations of the source (`multiply` and XOR). -/
def horner (acc : Nat) (p : List Nat) (x : Nat) : Nat :=
  p.foldl (fun a c => ReedSolomonEncoder.gf.multiply a x ^^^ c) acc

/-- The value at `x` of the polynomial over GF(256) with coefficients `p`, highest degree
first. -/
def polyEval (p : List Nat) (x : Nat) : Nat :=
  horner 0 p x

/-- Every element of the list is a byte, a value in `0..255`. -/
def Bytes (l : List Nat) : Prop := ∀ b ∈ l, b < 256

/-- The coefficients of `(t + a(X)) * (X + c)` over GF(256), where `t` is the coefficient
carried over from the previous position: what `multiplyPolynomials(a, {1, c})` computes. -/
def scaleShift (c : Nat) : Nat → List Nat → List Nat
  | t, [] => [t]
  | t, a :: as =>
    (t ^^^ GaloisField.initTables.multiply a 1) ::
      scaleShift c (GaloisField.initTables.multiply a c) as

/-- The value `value` in big-endian binary, in exactly `width` bits. -/
def bitsOfNat (width value : Nat) : List Char :=
  (List.range width).map (fun i => if value.testBit (width - 1 - i) then '1' else '0')

/-- The numeric payload as the specification words it: the digits are split from the left
into groups of three, with a last group of two or one; a group of three is written as its
decimal value in 10 bits, a group of two in 7 bits, a single digit in 4 bits. -/
def numericPayloadSpec : List Char → List Char
  | a :: b :: c :: rest =>
    bitsOfNat 10 (100 * digitOf a + 10 * digitOf b + digitOf c) ++ numericPayloadSpec rest
  | [a, b] => bitsOfNat 7 (10 * digitOf a + digitOf b)
  | [a] => bitsOfNat 4 (digitOf a)
  | [] => []

/-- The padding codewords `0xEC, 0x11, 0xEC, ...` numbered `first, first + 1, ...`, `count`
of them, as bits: an even number gives `0xEC`, an odd one `0x11`. -/
def paddingCodewordsSpec (first count : Nat) : List Char :=
  ((List.range' first count).map
    (fun k => if k % 2 = 0 then bitsOfNat 8 0xEC else bitsOfNat 8 0x11)).flatten

/-- The padded bit stream as the specification words it, for a capacity of `count`
codewords: the bit stream, a terminator of `min(4, remaining capacity)` zero bits, zero
bits up to the next byte boundary, then the padding codewords `0xEC`, `0x11` in turn up to
`count` codewords. -/
def paddedStreamSpec (bits : List Char) (count : Nat) : List Char :=
  let terminated := bits ++ List.replicate (min 4 (8 * count - bits.length)) '0'
  let aligned := terminated ++ List.replicate ((8 - terminated.length % 8) % 8) '0'
  aligned ++ paddingCodewordsSpec 0 (count - aligned.length / 8)

/-- The list in which the element at position `k + j` of `l` (its `j`-th element) is
replaced by `f (k + j)` of it. -/
def mapFrom {α : Type} (f : Nat → α → α) : Nat → List α → List α
  | _, [] => []
  | k, x :: xs => f k x :: mapFrom f (k + 1) xs

/-- Whether `applyMask` inverts the module at `(row, col)`: it is not reserved and the
mask predicate holds. -/
def maskFlips (maskPattern size row col : Nat) : Bool :=
  !isReservedModule row col size &&
    (MaskPatterns.patterns.getD maskPattern (fun _ _ => false)) row col

/-- The value of a character in alphanumeric mode as the specification words it: its
index in the alphabet. -/
def alphabetIndex (c : Char) : Nat := ALPHANUMERIC_CHARS.indexOf c

/-- The alphanumeric payload as the specification words it, for a value function `value`:
every pair of consecutive characters `(c1, c2)` is written as `value c1 * 45 + value c2`
in 11 bits, a last single character as its value in 6 bits. -/
def alphanumericPayloadSpec (value : Char → Nat) : List Char → List Char
  | c1 :: c2 :: rest =>
    bitsOfNat 11 (value c1 * 45 + value c2) ++ alphanumericPayloadSpec value rest
  | [c] => bitsOfNat 6 (value c)
  | [] => []

/-- The width of the character count indicator as the specification words it: 10/12/14
bits in Numeric mode, 9/11/13 in Alphanumeric mode and 8/16/16 in Byte mode, for versions
up to 9 / up to 26 / above 26. -/
def countWidthSpec (mode version : Int) : Nat :=
  if mode = 1 then (if version ≤ 9 then 10 else if version ≤ 26 then 12 else 14)
  else if mode = 2 then (if version ≤ 9 then 9 else if version ≤ 26 then 11 else 13)
  else (if version ≤ 9 then 8 else 16)

/-- The payload of a mode: what `encodeNumeric`, `encodeAlphanumeric` or `encodeByte`
returns for the data. -/
def modePayload (data : List Char) (mode : Int) : Except Error (List Char) :=
  if mode = QR_MODE_NUMERIC then encodeNumeric data
  else if mode = QR_MODE_ALPHANUMERIC then .ok (encodeAlphanumeric data)
  else .ok (encodeByte data)

/-- The lengths of the maximal runs of identical modules of a line, from the left. -/
def runLengths : List Bool → List Nat
  | [] => []
  | [_] => [1]
  | a :: b :: rest =>
    if a = b then
      match runLengths (b :: rest) with
      | k :: ks => (k + 1) :: ks
      | [] => [1]
    else 1 :: runLengths (b :: rest)

/-- The penalty of rule 1 for one line as the specification words it: every maximal run
of length `k ≥ 5` contributes `3 + (k - 5)`. -/
def rule1LineSpec (line : List Bool) : Int :=
  (((runLengths line).filter (fun (k : Nat) => decide (5 ≤ k))).map
    (fun (k : Nat) => (3 : Int) + ((k : Int) - 5))).sum

/-- The column `col` of a grid, from the top. -/
def columnOf (grid : List (List Bool)) (col : Nat) : List Bool :=
  grid.map (fun row => row.getD col false)

/-- The penalty of rule 1 as the specification words it: the sum over every row and over
every column of the penalty of the line. -/
def rule1Spec (grid : List (List Bool)) (size : Nat) : Int :=
  (grid.map rule1LineSpec).sum +
    ((List.range size).map (fun col => rule1LineSpec (columnOf grid col))).sum

/-- Whether the 7 modules from position `pos` of a line are 1011101 or 0100010. -/
def rule3Matches (line : Nat → Bool) (pos : Nat) : Bool :=
  decide ((List.range 7).map (fun i => line (pos + i)) =
      [true, false, true, true, true, false, true]) ||
    decide ((List.range 7).map (fun i => line (pos + i)) =
      [false, true, false, false, false, true, false])

/-- A window that counts for rule 3 as the specification words it: it matches a pattern
and, on one side at least, the line has 4 modules next to the window and they are light. -/
def rule3WindowStrict (line : Nat → Bool) (size pos : Nat) : Bool :=
  rule3Matches line pos &&
    ((decide (4 ≤ pos) && (List.range 4).all (fun j => !line (pos - 1 - j))) ||
      (decide (pos + 7 + 4 ≤ size) && (List.range 4).all (fun j => !line (pos + 7 + j))))

/-- A window that counts for rule 3 when positions outside the line count as light: it
matches a pattern and, on one side at least, none of the up to 4 modules of the line next
to the window is dark. -/
def rule3WindowClipped (line : Nat → Bool) (size pos : Nat) : Bool :=
  rule3Matches line pos &&
    ((List.range 4).all (fun j => decide (j < pos → line (pos - 1 - j) = false)) ||
      (List.range 4).all (fun j => decide (pos + 7 + j < size → line (pos + 7 + j) = false)))

/-- The penalty of rule 3 for a notion `window` of counting window: 40 times the number
of counting windows of 7 modules along every row and along every column. -/
def rule3Spec (window : (Nat → Bool) → Nat → Nat → Bool) (grid : List (List Bool))
    (size : Nat) : Int :=
  40 * ((((List.range size).map (fun row =>
      ((List.range (size + 1 - 7)).filter
        (fun pos => window (fun col => moduleAt grid row col) size pos)).length)).sum +
    ((List.range size).map (fun col =>
      ((List.range (size + 1 - 7)).filter
        (fun pos => window (fun row => moduleAt grid row col) size pos)).length)).sum : Nat) : Int)

/-- The mask predicate of index `i` as the specification lists them. -/
def maskPredicateSpec (i r c : Nat) : Prop :=
  match i with
  | 0 => (r + c) % 2 = 0
  | 1 => r % 2 = 0
  | 2 => c % 3 = 0
  | 3 => (r + c) % 3 = 0
  | 4 => (r / 2 + c / 3) % 2 = 0
  | 5 => (r * c) % 2 + (r * c) % 3 = 0
  | 6 => ((r * c) % 2 + (r * c) % 3) % 2 = 0
  | 7 => ((r + c) % 2 + (r * c) % 3) % 2 = 0
  | _ => False

/-- A reserved position as the specification words it; `size - 8` is an integer that
may be negative. -/
def reservedSpec (r c size : Nat) : Prop :=
  (r < 9 ∧ c < 9) ∨ (r < 9 ∧ (c : Int) ≥ (size : Int) - 8) ∨
    ((r : Int) ≥ (size : Int) - 8 ∧ c < 9) ∨ r = 6 ∨ c = 6

/-- The step of the scan of `evaluateRule1` at the module `b`. -/
def rule1Step (st : Int × Int × Bool) (b : Bool) : Int × Int × Bool :=
  if b == st.2.2 then (st.1, st.2.1 + 1, st.2.2)
  else (st.1 + rule1RunPenalty st.2.1, 1, b)

/-- The number of dark modules of a grid. -/
def darkModules (grid : List (List Bool)) : Nat :=
  (grid.map (fun row => row.count true)).sum

/-- The penalty of rule 4 as the specification words it, for `d` dark modules among `n`:
`floor(|100 * d / n - 50| / 5) * 10` in exact rational arithmetic. -/
def rule4Spec (d n : Nat) : Int :=
  ⌊|100 * (d : ℚ) / (n : ℚ) - 50| / 5⌋ * 10

/-- The entry of the table of error correction parameters for a version in `1..15` and a
level, as the specification words it: row `version - 1`, column 0, 1, 2, 3 for the levels
L, M, Q, H (and column 0 for any other level string). -/
def eccParamsSpec (version : Int) (level : String) : ECCParams :=
  (QRErrorCorrection.ECC_TABLE.getD (version.toNat - 1) []).getD
    (if level = "M" then 1 else if level = "Q" then 2 else if level = "H" then 3 else 0)
    (ECCParams.mk 0 0 0 0)

/-- The product of the factors `x - α^j` for `j = first, ..., first + count - 1` at the
point `x`, times `start`: subtraction in GF(256) is XOR and `α^j` is `power(2, j)`. -/
def rootProductSpec (start x first count : Nat) : Nat :=
  (List.range' first count).foldl
    (fun acc j => GaloisField.initTables.multiply acc (x ^^^ GaloisField.initTables.power 2 j))
    start

/-- The `e`-fold field product of `base` with itself as the specification words it,
starting from 1. -/
def repeatedProductSpec (base : Nat) : Nat → Nat
  | 0 => 1
  | e + 1 => GaloisField.initTables.multiply base (repeatedProductSpec base e)

/-- The carry-less product of two bytes: the product of the two polynomials over GF(2)
whose coefficients are the bits of `a` and of `b`. -/
def carrylessProduct (a b : Nat) : Nat :=
  (List.range 8).foldl (fun acc i => if b.testBit i then acc ^^^ (a <<< i) else acc) 0

/-- One step of the division by the primitive polynomial `0x11D`: a term of degree
`i ≥ 8` is cancelled by adding the polynomial shifted to that degree. -/
def reduceStep (x i : Nat) : Nat :=
  if x.testBit i then x ^^^ (0x11D <<< (i - 8)) else x

/-- The remainder modulo `x^8 + x^4 + x^3 + x^2 + 1` of a polynomial over GF(2) of degree
at most 14, by long division from the highest term. -/
def reducePrimitive (x : Nat) : Nat :=
  [14, 13, 12, 11, 10, 9, 8].foldl reduceStep x

/-- The naive product in GF(256): the carry-less product reduced modulo the primitive
polynomial. -/
def naiveProduct (a b : Nat) : Nat :=
  reducePrimitive (carrylessProduct a b)

/-- A 21 x 21 grid (the size of version 1) for examples: the module at `(r, c)` is dark
when `(r * r + c) % 5 < 2`. It has modules outside the reserved areas, and the eight masks
give it eight different penalties. -/
def exampleGrid : List (List Bool) :=
  (List.range 21).map (fun r => (List.range 21).map (fun c => decide ((r * r + c) % 5 < 2)))

/-- The penalty of rule 4 of a grid in exact rational arithmetic. -/
def rule4Exact (grid : List (List Bool)) (size : Nat) : Int :=
  rule4Spec (darkModules grid) (size * size)

/-! ## The tables of GF(256) -/

theorem initTables_eq :
    GaloisField.initTables = GaloisField.mk logTableValues expTableValues := by
  decide!

set_option maxRecDepth 100000 in
theorem tableValues_facts : ∀ x < 256,
    logTableValues.getD x 0 < 255 ∧
    (x ≠ 0 → expTableValues.getD (logTableValues.getD x 0) 0 = x) ∧
    (x < 255 → logTableValues.getD (expTableValues.getD x 0) 0 = x ∧
      expTableValues.getD x 0 ≠ 0 ∧ expTableValues.getD x 0 < 256 ∧
      expTableValues.getD ((x + 1) % 255) 0 = xtime (expTableValues.getD x 0)) := by
  decide!

theorem log_lt {x : Nat} (hx : x < 256) : logTableValues.getD x 0 < 255 :=
  (tableValues_facts x hx).1

theorem exp_log {x : Nat} (hx : x < 256) (h0 : x ≠ 0) :
    expTableValues.getD (logTableValues.getD x 0) 0 = x :=
  (tableValues_facts x hx).2.1 h0

theorem log_exp {i : Nat} (hi : i < 255) :
    logTableValues.getD (expTableValues.getD i 0) 0 = i :=
  ((tableValues_facts i (by omega)).2.2 hi).1

theorem exp_ne_zero {i : Nat} (hi : i < 255) : expTableValues.getD i 0 ≠ 0 :=
  ((tableValues_facts i (by omega)).2.2 hi).2.1

theorem exp_lt {i : Nat} (hi : i < 255) : expTableValues.getD i 0 < 256 :=
  ((tableValues_facts i (by omega)).2.2 hi).2.2.1

theorem exp_succ {i : Nat} (hi : i < 255) :
    expTableValues.getD ((i + 1) % 255) 0 = xtime (expTableValues.getD i 0) :=
  ((tableValues_facts i (by omega)).2.2 hi).2.2.2

/-! ## Doubling is linear -/

set_option maxRecDepth 100000 in
theorem xtime_eq_all : ∀ x < 256,
    xtime x = (x <<< 1) ^^^ (if x.testBit 7 then 285 else 0) ∧ xtime x < 256 := by
  decide!

theorem xtime_lt {x : Nat} (hx : x < 256) : xtime x < 256 := (xtime_eq_all x hx).2

theorem shiftLeft_one_xor (b c : Nat) : (b ^^^ c) <<< 1 = (b <<< 1) ^^^ (c <<< 1) := by
  apply Nat.eq_of_testBit_eq
  intro i
  simp only [Nat.testBit_xor, Nat.testBit_shiftLeft]
  cases decide (i ≥ 1) <;> simp

theorem reduction_xor (u v : Bool) :
    (if (u ^^ v) = true then 285 else 0) = (if u = true then 285 else 0) ^^^ (if v = true then 285 else 0) := by
  cases u <;> cases v <;> decide

theorem xtime_xor {b c : Nat} (hb : b < 256) (hc : c < 256) :
    xtime (b ^^^ c) = xtime b ^^^ xtime c := by
  have hbc : b ^^^ c < 256 := Nat.xor_lt_two_pow (n := 8) hb hc
  rw [(xtime_eq_all _ hbc).1, (xtime_eq_all _ hb).1, (xtime_eq_all _ hc).1,
    Nat.testBit_xor, reduction_xor, shiftLeft_one_xor]
  ac_rfl
/-! ## Field laws of `multiply` -/

theorem multiply_eq (a b : Nat) :
    GaloisField.initTables.multiply a b =
      if a = 0 ∨ b = 0 then 0
      else expTableValues.getD ((logTableValues.getD a 0 + logTableValues.getD b 0) % 255) 0 := by
  unfold GaloisField.multiply
  rw [initTables_eq]
  rfl

theorem multiply_zero_left (b : Nat) : GaloisField.initTables.multiply 0 b = 0 := by
  simp [multiply_eq]

theorem multiply_zero_right (a : Nat) : GaloisField.initTables.multiply a 0 = 0 := by
  simp [multiply_eq]

theorem multiply_comm (a b : Nat) :
    GaloisField.initTables.multiply a b = GaloisField.initTables.multiply b a := by
  simp only [multiply_eq, Nat.add_comm, or_comm]

theorem multiply_lt (a b : Nat) : GaloisField.initTables.multiply a b < 256 := by
  rw [multiply_eq]
  split
  · omega
  · exact exp_lt (Nat.mod_lt _ (by omega))

theorem multiply_ne_zero {a b : Nat} (ha : a ≠ 0) (hb : b ≠ 0) :
    GaloisField.initTables.multiply a b ≠ 0 := by
  rw [multiply_eq, if_neg (by simp [ha, hb])]
  exact exp_ne_zero (Nat.mod_lt _ (by omega))

theorem log_multiply {a b : Nat} (ha : a ≠ 0) (hb : b ≠ 0) :
    logTableValues.getD (GaloisField.initTables.multiply a b) 0 =
      (logTableValues.getD a 0 + logTableValues.getD b 0) % 255 := by
  rw [multiply_eq, if_neg (by simp [ha, hb])]
  exact log_exp (Nat.mod_lt _ (by omega))

theorem multiply_assoc (a b c : Nat) :
    GaloisField.initTables.multiply (GaloisField.initTables.multiply a b) c =
      GaloisField.initTables.multiply a (GaloisField.initTables.multiply b c) := by
  by_cases ha : a = 0
  · subst ha; simp [multiply_zero_left]
  by_cases hb : b = 0
  · subst hb; simp [multiply_zero_left, multiply_zero_right]
  by_cases hc : c = 0
  · subst hc; simp [multiply_zero_right]
  have hab := multiply_ne_zero ha hb
  have hbc := multiply_ne_zero hb hc
  rw [multiply_eq (GaloisField.initTables.multiply a b) c, if_neg (by simp [hab, hc]),
    multiply_eq a (GaloisField.initTables.multiply b c), if_neg (by simp [ha, hbc]),
    log_multiply ha hb, log_multiply hb hc]
  congr 1
  omega

theorem multiply_one_left {x : Nat} (hx : x < 256) : GaloisField.initTables.multiply 1 x = x := by
  by_cases h0 : x = 0
  · subst h0; exact multiply_zero_right 1
  rw [multiply_eq, if_neg (by simp [h0])]
  have h1 : logTableValues.getD 1 0 = 0 := by decide
  rw [h1, Nat.zero_add, Nat.mod_eq_of_lt (log_lt hx)]
  exact exp_log hx h0

theorem multiply_one_right {x : Nat} (hx : x < 256) : GaloisField.initTables.multiply x 1 = x := by
  rw [multiply_comm]; exact multiply_one_left hx

theorem multiply_two {x : Nat} (hx : x < 256) : GaloisField.initTables.multiply 2 x = xtime x := by
  by_cases h0 : x = 0
  · subst h0; rw [multiply_zero_right]; decide
  rw [multiply_eq, if_neg (by simp [h0])]
  have h2 : logTableValues.getD 2 0 = 1 := by decide
  rw [h2, Nat.add_comm, exp_succ (log_lt hx), exp_log hx h0]

/-- Multiplication by the field element `expTable[k]` is linear over XOR. -/
theorem multiply_exp_xor (k : Nat) (hk : k < 255) (b c : Nat) (hb : b < 256) (hc : c < 256) :
    GaloisField.initTables.multiply (expTableValues.getD k 0) (b ^^^ c) =
      GaloisField.initTables.multiply (expTableValues.getD k 0) b ^^^
        GaloisField.initTables.multiply (expTableValues.getD k 0) c := by
  induction k generalizing b c with
  | zero =>
    have h0 : expTableValues.getD 0 0 = 1 := by decide
    have hbc : b ^^^ c < 256 := Nat.xor_lt_two_pow (n := 8) hb hc
    rw [h0, multiply_one_left hbc, multiply_one_left hb, multiply_one_left hc]
  | succ k ih =>
    have hk1 : k < 255 := by omega
    have hstep : expTableValues.getD (k + 1) 0 =
        GaloisField.initTables.multiply 2 (expTableValues.getD k 0) := by
      rw [multiply_two (exp_lt hk1), ← exp_succ hk1, Nat.mod_eq_of_lt hk]
    rw [hstep, multiply_assoc, multiply_assoc, multiply_assoc, ih hk1 b c hb hc,
      multiply_two (multiply_lt _ _), multiply_two (multiply_lt _ _),
      multiply_two (Nat.xor_lt_two_pow (n := 8) (multiply_lt _ _) (multiply_lt _ _)),
      xtime_xor (multiply_lt _ _) (multiply_lt _ _)]

theorem multiply_xor_right {a b c : Nat} (ha : a < 256) (hb : b < 256) (hc : c < 256) :
    GaloisField.initTables.multiply a (b ^^^ c) =
      GaloisField.initTables.multiply a b ^^^ GaloisField.initTables.multiply a c := by
  by_cases h0 : a = 0
  · subst h0; simp [multiply_zero_left]
  have := multiply_exp_xor (logTableValues.getD a 0) (log_lt ha) b c hb hc
  rwa [exp_log ha h0] at this

theorem multiply_xor_left {a b c : Nat} (ha : a < 256) (hb : b < 256) (hc : c < 256) :
    GaloisField.initTables.multiply (a ^^^ b) c =
      GaloisField.initTables.multiply a c ^^^ GaloisField.initTables.multiply b c := by
  rw [multiply_comm, multiply_xor_right hc ha hb, multiply_comm c a, multiply_comm c b]

/-! ## Polynomial evaluation -/

theorem gf_eq : ReedSolomonEncoder.gf = GaloisField.initTables := rfl

theorem Bytes_nil : Bytes [] := by
  intro b hb; cases hb

theorem Bytes_cons {a : Nat} {l : List Nat} : Bytes (a :: l) ↔ a < 256 ∧ Bytes l := by
  simp [Bytes]

theorem Bytes_append {l m : List Nat} : Bytes (l ++ m) ↔ Bytes l ∧ Bytes m := by
  simp only [Bytes, List.mem_append]
  constructor
  · intro h; exact ⟨fun b hb => h b (Or.inl hb), fun b hb => h b (Or.inr hb)⟩
  · rintro ⟨h1, h2⟩ b (hb | hb)
    · exact h1 b hb
    · exact h2 b hb

theorem Bytes_replicate_zero (n : Nat) : Bytes (List.replicate n 0) := by
  intro b hb
  rw [List.eq_of_mem_replicate hb]; omega

theorem horner_nil (acc x : Nat) : horner acc [] x = acc := rfl

theorem horner_cons (acc c : Nat) (p : List Nat) (x : Nat) :
    horner acc (c :: p) x = horner (GaloisField.initTables.multiply acc x ^^^ c) p x := rfl

theorem horner_append (acc : Nat) (p q : List Nat) (x : Nat) :
    horner acc (p ++ q) x = horner (horner acc p x) q x := by
  simp [horner, List.foldl_append]

theorem xor_lt_256 {a b : Nat} (ha : a < 256) (hb : b < 256) : a ^^^ b < 256 :=
  Nat.xor_lt_two_pow (n := 8) ha hb

theorem horner_lt {acc : Nat} {p : List Nat} (x : Nat) (hacc : acc < 256) (hp : Bytes p) :
    horner acc p x < 256 := by
  induction p generalizing acc with
  | nil => simpa [horner_nil] using hacc
  | cons c p ih =>
    rw [horner_cons]
    rw [Bytes_cons] at hp
    exact ih (xor_lt_256 (multiply_lt _ _) hp.1) hp.2

theorem horner_zeros (n x : Nat) : horner 0 (List.replicate n 0) x = 0 := by
  induction n with
  | zero => rfl
  | succ n ih =>
    rw [List.replicate_succ, horner_cons, multiply_zero_left]
    exact ih

/-- Evaluation is additive: the value of the XOR of two coefficient lists of equal length
is the XOR of the values. -/
theorem horner_zipWith_xor {p q : List Nat} {a b x : Nat} (hlen : p.length = q.length)
    (hp : Bytes p) (hq : Bytes q) (ha : a < 256) (hb : b < 256) (hx : x < 256) :
    horner (a ^^^ b) (List.zipWith (fun u v => u ^^^ v) p q) x =
      horner a p x ^^^ horner b q x := by
  induction p generalizing q a b with
  | nil =>
    cases q with
    | nil => rfl
    | cons d q => simp at hlen
  | cons c p ih =>
    cases q with
    | nil => simp at hlen
    | cons d q =>
      rw [Bytes_cons] at hp hq
      simp only [List.length_cons, Nat.add_right_cancel_iff] at hlen
      rw [List.zipWith_cons_cons, horner_cons, horner_cons, horner_cons,
        multiply_xor_left ha hb hx]
      have e : GaloisField.initTables.multiply a x ^^^ GaloisField.initTables.multiply b x
          ^^^ (c ^^^ d) =
          (GaloisField.initTables.multiply a x ^^^ c) ^^^
            (GaloisField.initTables.multiply b x ^^^ d) := by ac_rfl
      rw [e]
      exact ih hlen hp.2 hq.2 (xor_lt_256 (multiply_lt _ _) hp.1)
        (xor_lt_256 (multiply_lt _ _) hq.1)

/-- Evaluation commutes with scaling every coefficient by `c`. -/
theorem horner_map_multiply {p : List Nat} {a c x : Nat} (hp : Bytes p) (ha : a < 256)
    (hc : c < 256) :
    horner (GaloisField.initTables.multiply a c)
        (p.map (fun d => GaloisField.initTables.multiply d c)) x =
      GaloisField.initTables.multiply (horner a p x) c := by
  induction p generalizing a with
  | nil => rfl
  | cons d p ih =>
    rw [Bytes_cons] at hp
    rw [List.map_cons, horner_cons, horner_cons]
    have e : GaloisField.initTables.multiply (GaloisField.initTables.multiply a c) x ^^^
        GaloisField.initTables.multiply d c =
        GaloisField.initTables.multiply (GaloisField.initTables.multiply a x ^^^ d) c := by
      rw [multiply_xor_left (multiply_lt _ _) hp.1 hc, multiply_assoc, multiply_assoc,
        multiply_comm c x]
    rw [e]
    exact ih hp.2 (xor_lt_256 (multiply_lt _ _) hp.1)

theorem Bytes_map_multiply (p : List Nat) (c : Nat) :
    Bytes (p.map (fun d => GaloisField.initTables.multiply d c)) := by
  intro b hb
  rw [List.mem_map] at hb
  obtain ⟨d, _, rfl⟩ := hb
  exact multiply_lt _ _

theorem Bytes_zipWith_xor {p q : List Nat} (hp : Bytes p) (hq : Bytes q) :
    Bytes (List.zipWith (fun u v => u ^^^ v) p q) := by
  induction p generalizing q with
  | nil => simpa using Bytes_nil
  | cons c p ih =>
    cases q with
    | nil => simpa using Bytes_nil
    | cons d q =>
      rw [Bytes_cons] at hp hq
      rw [List.zipWith_cons_cons, Bytes_cons]
      exact ⟨xor_lt_256 hp.1 hq.1, ih hp.2 hq.2⟩

/-- XOR-ing a scaled copy of a polynomial that vanishes at `x` into a block of
coefficients does not change the value at `x`. -/
theorem horner_xor_scaled_root {g B : List Nat} {a c x : Nat} (hlen : B.length = g.length)
    (hg : Bytes g) (hB : Bytes B) (hacc : a < 256) (hc : c < 256) (hx : x < 256)
    (hroot : polyEval g x = 0) :
    horner a (List.zipWith (fun u v => u ^^^ v) B
        (g.map (fun d => GaloisField.initTables.multiply d c))) x = horner a B x := by
  have h := horner_zipWith_xor (p := B)
    (q := g.map (fun d => GaloisField.initTables.multiply d c)) (a := a) (b := 0) (x := x)
    (by simpa using hlen) hB (Bytes_map_multiply g c) hacc (by omega) hx
  rw [Nat.xor_zero] at h
  rw [h]
  have h2 := horner_map_multiply (p := g) (a := 0) (c := c) (x := x) hg (by omega) hc
  rw [multiply_zero_left] at h2
  rw [h2]
  unfold polyEval at hroot
  rw [hroot, multiply_zero_left, Nat.xor_zero]

/-! ## The loops of `dividePolynomials` -/

theorem xorSet_append (A : List Nat) (b : Nat) (C : List Nat) (y : Nat) :
    xorSet (A ++ b :: C) A.length y = A ++ (b ^^^ y) :: C := by
  unfold xorSet
  have h : (A ++ b :: C).getD A.length 0 = b := by
    rw [List.getD_eq_getElem?_getD, List.getElem?_append_right (Nat.le_refl _)]
    simp
  rw [h]
  simp

/-- The inner loop XORs the scaled divisor into the block of the remainder that starts at
the current position. -/
theorem divideInner_block (coeff : Nat) (g A B C : List Nat) (hlen : B.length = g.length) :
    ReedSolomonEncoder.divideInner coeff g A.length (A ++ B ++ C) =
      .ok (A ++ List.zipWith (fun u v => u ^^^ v) B
        (g.map (fun d => GaloisField.initTables.multiply d coeff)) ++ C) := by
  induction g generalizing A B with
  | nil =>
    cases B with
    | nil => simp [ReedSolomonEncoder.divideInner]
    | cons b B => simp at hlen
  | cons d g ih =>
    cases B with
    | nil => simp at hlen
    | cons b B =>
      simp only [List.length_cons, Nat.add_right_cancel_iff] at hlen
      unfold ReedSolomonEncoder.divideInner
      have hlt : A.length < (A ++ b :: B ++ C).length := by simp
      rw [if_pos hlt]
      have e1 : A ++ b :: B ++ C = A ++ b :: (B ++ C) := by simp
      rw [e1, xorSet_append, gf_eq]
      have e2 : A ++ (b ^^^ GaloisField.initTables.multiply d coeff) :: (B ++ C) =
          (A ++ [b ^^^ GaloisField.initTables.multiply d coeff]) ++ B ++ C := by simp
      have e3 : A.length + 1 = (A ++ [b ^^^ GaloisField.initTables.multiply d coeff]).length := by
        simp
      rw [e2, e3, ih _ _ hlen]
      simp
theorem replicate_zero_snoc (i : Nat) (l : List Nat) :
    List.replicate i 0 ++ 0 :: l = List.replicate (i + 1) 0 ++ l := by
  rw [List.replicate_succ', List.append_assoc]
  rfl

theorem getElem?_replicate_append (i b : Nat) (l : List Nat) :
    (List.replicate i 0 ++ b :: l)[i]? = some b := by
  rw [List.getElem?_append_right (by simp)]
  simp

/-- The outer loop of the division by a monic divisor `1 :: g`: every iteration clears
the leading coefficient of what is left, and the value of the remainder at a root of the
divisor never changes. -/
theorem divideOuter_monic (g : List Nat) (hg : Bytes g) (n : Nat) :
    ∀ (i : Nat) (rest : List Nat), Bytes rest → rest.length = n + g.length →
      ∃ R, ReedSolomonEncoder.divideOuter (1 :: g) n i (List.replicate i 0 ++ rest) =
          .ok (List.replicate (i + n) 0 ++ R) ∧
        R.length = g.length ∧ Bytes R ∧
        ∀ x, x < 256 → polyEval (1 :: g) x = 0 → horner 0 R x = horner 0 rest x := by
  induction n with
  | zero =>
    intro i rest hrest hlen
    exact ⟨rest, by simp [ReedSolomonEncoder.divideOuter], by simpa using hlen, hrest,
      fun _ _ _ => rfl⟩
  | succ n ih =>
    intro i rest hrest hlen
    cases rest with
    | nil => simp at hlen; omega
    | cons b rest1 =>
      rw [Bytes_cons] at hrest
      have hlen1 : rest1.length = n + g.length := by simp at hlen; omega
      unfold ReedSolomonEncoder.divideOuter
      rw [getElem?_replicate_append]
      by_cases hb : b = 0
      · subst hb
        simp only [ne_eq, not_true_eq_false, if_false]
        rw [replicate_zero_snoc]
        obtain ⟨R, h1, h2, h3, h4⟩ := ih (i + 1) rest1 hrest.2 hlen1
        refine ⟨R, ?_, h2, h3, ?_⟩
        · rw [h1, show i + 1 + n = i + (n + 1) by omega]
        · intro x hx hroot
          rw [h4 x hx hroot, horner_cons, multiply_zero_left]
          rfl
      · simp only [ne_eq, hb, not_false_eq_true, if_true]
        have hsplit : rest1 = rest1.take g.length ++ rest1.drop g.length :=
          (List.take_append_drop _ _).symm
        have htake : (rest1.take g.length).length = g.length := by
          rw [List.length_take]; omega
        have e1 : List.replicate i 0 ++ b :: rest1 =
            List.replicate i 0 ++ (b :: rest1.take g.length) ++ rest1.drop g.length := by
          rw [List.append_assoc, List.cons_append, ← hsplit]
        have hblock := divideInner_block b (1 :: g) (List.replicate i 0)
          (b :: rest1.take g.length) (rest1.drop g.length) (by simp [htake])
        rw [List.length_replicate] at hblock
        rw [e1, hblock]
        simp only [List.map_cons, List.zipWith_cons_cons]
        rw [multiply_one_left hrest.1, Nat.xor_self]
        have e2 : List.replicate i 0 ++
            0 :: List.zipWith (fun u v => u ^^^ v) (rest1.take g.length)
              (g.map (fun d => GaloisField.initTables.multiply d b)) ++ rest1.drop g.length =
            List.replicate (i + 1) 0 ++
              (List.zipWith (fun u v => u ^^^ v) (rest1.take g.length)
                (g.map (fun d => GaloisField.initTables.multiply d b)) ++
                rest1.drop g.length) := by
          rw [List.append_assoc, List.cons_append, replicate_zero_snoc]
        rw [e2]
        have hB : Bytes (rest1.take g.length) := fun v hv => hrest.2 v (List.mem_of_mem_take hv)
        have hC : Bytes (rest1.drop g.length) := fun v hv => hrest.2 v (List.mem_of_mem_drop hv)
        have hZ := Bytes_zipWith_xor hB (Bytes_map_multiply g b)
        obtain ⟨R, h1, h2, h3, h4⟩ := ih (i + 1)
          (List.zipWith (fun u v => u ^^^ v) (rest1.take g.length)
            (g.map (fun d => GaloisField.initTables.multiply d b)) ++ rest1.drop g.length)
          (Bytes_append.2 ⟨hZ, hC⟩)
          (by simp [htake]; omega)
        refine ⟨R, ?_, h2, h3, ?_⟩
        · rw [h1, show i + 1 + n = i + (n + 1) by omega]
        · intro x hx hroot
          rw [h4 x hx hroot]
          have hr := horner_xor_scaled_root (g := 1 :: g) (B := b :: rest1.take g.length)
            (a := 0) (c := b) (x := x) (by simp [htake])
            (Bytes_cons.2 ⟨by omega, hg⟩) (Bytes_cons.2 ⟨hrest.1, hB⟩) (by omega) hrest.1 hx hroot
          simp only [List.map_cons, List.zipWith_cons_cons] at hr
          rw [multiply_one_left hrest.1, Nat.xor_self, horner_cons, multiply_zero_left] at hr
          have hr' : horner 0 (List.zipWith (fun u v => u ^^^ v) (rest1.take g.length)
              (g.map (fun d => GaloisField.initTables.multiply d b))) x =
              horner 0 (b :: rest1.take g.length) x := hr
          rw [horner_append, hr', ← horner_append, List.cons_append, ← hsplit]

/-- On an all-zero remainder the outer loop changes nothing, whatever the divisor. -/
theorem divideOuter_zeros (g : List Nat) (n : Nat) :
    ∀ (i m : Nat), i + n ≤ m →
      ReedSolomonEncoder.divideOuter g n i (List.replicate m 0) = .ok (List.replicate m 0) := by
  induction n with
  | zero => intro i m _; rfl
  | succ n ih =>
    intro i m h
    unfold ReedSolomonEncoder.divideOuter
    have : (List.replicate m 0)[i]? = some 0 := by
      rw [List.getElem?_replicate]; simp; omega
    rw [this]
    simp only [ne_eq, not_true_eq_false, if_false]
    exact ih (i + 1) m (by omega)
/-! ## The generator polynomial -/

theorem multiplyOuter_linear (c : Nat) (as : List Nat) :
    ∀ (P : List Nat) (t : Nat),
      ReedSolomonEncoder.multiplyOuter [1, c] as P.length
          (P ++ t :: List.replicate as.length 0) = P ++ scaleShift c t as := by
  induction as with
  | nil => intro P t; rfl
  | cons a as ih =>
    intro P t
    unfold ReedSolomonEncoder.multiplyOuter
    simp only [ReedSolomonEncoder.multiplyInner, List.length_cons, List.replicate_succ]
    rw [xorSet_append, gf_eq]
    have e1 : P ++ (t ^^^ GaloisField.initTables.multiply a 1) :: 0 :: List.replicate as.length 0 =
        (P ++ [t ^^^ GaloisField.initTables.multiply a 1]) ++ 0 :: List.replicate as.length 0 := by
      simp
    have e2 : P.length + 1 = (P ++ [t ^^^ GaloisField.initTables.multiply a 1]).length := by simp
    rw [e1, e2, xorSet_append, Nat.zero_xor, ih]
    simp [scaleShift]

theorem multiplyPolynomials_linear (a : List Nat) (c : Nat) :
    ReedSolomonEncoder.multiplyPolynomials a [1, c] = scaleShift c 0 a := by
  unfold ReedSolomonEncoder.multiplyPolynomials
  have h := multiplyOuter_linear c a [] 0
  simpa [List.replicate_succ] using h

theorem scaleShift_length (c : Nat) (as : List Nat) (t : Nat) :
    (scaleShift c t as).length = as.length + 1 := by
  induction as generalizing t with
  | nil => rfl
  | cons a as ih => simp [scaleShift, ih]

theorem scaleShift_bytes (c : Nat) (as : List Nat) (t : Nat) (ht : t < 256) :
    Bytes (scaleShift c t as) := by
  induction as generalizing t with
  | nil => simpa [scaleShift, Bytes] using ht
  | cons a as ih =>
    rw [scaleShift, Bytes_cons]
    exact ⟨xor_lt_256 ht (multiply_lt _ _), ih _ (multiply_lt _ _)⟩

/-- The value of `scaleShift` is the value of the polynomial times `x + c`. -/
theorem horner_scaleShift (c x : Nat) (hc : c < 256) (hx : x < 256) (as : List Nat) :
    ∀ (acc t u : Nat), acc < 256 → t < 256 → u < 256 → Bytes as →
      GaloisField.initTables.multiply acc x ^^^ t = GaloisField.initTables.multiply u (x ^^^ c) →
      horner acc (scaleShift c t as) x =
        GaloisField.initTables.multiply (horner u as x) (x ^^^ c) := by
  induction as with
  | nil =>
    intro acc t u _ _ _ _ h
    simpa [scaleShift, horner_cons, horner_nil] using h
  | cons a as ih =>
    intro acc t u hacc ht hu has h
    rw [Bytes_cons] at has
    rw [scaleShift, horner_cons, horner_cons, multiply_one_right has.1]
    apply ih _ _ _ (xor_lt_256 (multiply_lt _ _) (xor_lt_256 ht has.1)) (multiply_lt _ _)
      (xor_lt_256 (multiply_lt _ _) has.1) has.2
    have hxc : x ^^^ c < 256 := xor_lt_256 hx hc
    rw [← Nat.xor_assoc, h, multiply_xor_left (multiply_lt _ _) has.1 hx,
      multiply_xor_left (multiply_lt _ _) has.1 hxc, multiply_xor_right has.1 hx hc,
      multiply_assoc, multiply_assoc, multiply_comm (x ^^^ c) x, Nat.xor_assoc]

theorem polyEval_multiplyPolynomials_linear (a : List Nat) (c x : Nat) (ha : Bytes a)
    (hc : c < 256) (hx : x < 256) :
    polyEval (ReedSolomonEncoder.multiplyPolynomials a [1, c]) x =
      GaloisField.initTables.multiply (polyEval a x) (x ^^^ c) := by
  rw [multiplyPolynomials_linear]
  exact horner_scaleShift c x hc hx a 0 0 0 (by omega) (by omega) (by omega) ha
    (by simp [multiply_zero_left])

theorem power_two_lt (i : Nat) : ReedSolomonEncoder.gf.power 2 i < 256 := by
  unfold GaloisField.power
  rw [gf_eq, initTables_eq]
  simp only [show (2 : Nat) ≠ 0 by omega, if_false]
  split
  · omega
  · exact exp_lt (Nat.mod_lt _ (by decide))

/-- The loop of `generatePolynomial`: the generator stays monic with byte coefficients,
grows by one coefficient per iteration, keeps its roots and gains the root
`power(2, j)` at iteration `j`. -/
theorem generateLoop_spec (n : Nat) :
    ∀ (i : Nat) (g : List Nat), Bytes g →
      ∃ g1, ReedSolomonEncoder.generateLoop n i (1 :: g) = 1 :: g1 ∧
        g1.length = g.length + n ∧ Bytes g1 ∧
        ∀ x, x < 256 →
          (polyEval (1 :: g) x = 0 ∨ ∃ j, i ≤ j ∧ j < i + n ∧ x = ReedSolomonEncoder.gf.power 2 j) →
          polyEval (1 :: g1) x = 0 := by
  induction n with
  | zero =>
    intro i g hg
    refine ⟨g, rfl, rfl, hg, ?_⟩
    rintro x _ (h | ⟨j, h1, h2, _⟩)
    · exact h
    · omega
  | succ n ih =>
    intro i g hg
    unfold ReedSolomonEncoder.generateLoop
    have hp := power_two_lt i
    have hmul := multiplyPolynomials_linear (1 :: g) (ReedSolomonEncoder.gf.power 2 i)
    have hhead : scaleShift (ReedSolomonEncoder.gf.power 2 i) 0 (1 :: g) =
        1 :: scaleShift (ReedSolomonEncoder.gf.power 2 i)
          (GaloisField.initTables.multiply 1 (ReedSolomonEncoder.gf.power 2 i)) g := by
      rw [scaleShift, multiply_one_left (by omega), Nat.zero_xor]
    rw [hmul, hhead]
    obtain ⟨g1, h1, h2, h3, h4⟩ := ih (i + 1) _
      (scaleShift_bytes (ReedSolomonEncoder.gf.power 2 i) g _ (multiply_lt _ _))
    refine ⟨g1, h1, ?_, h3, ?_⟩
    · rw [h2, scaleShift_length]; omega
    · intro x hx hor
      apply h4 x hx
      rw [← hhead, ← hmul,
        polyEval_multiplyPolynomials_linear _ _ _ (Bytes_cons.2 ⟨by omega, hg⟩) hp hx]
      rcases hor with h | ⟨j, hj1, hj2, hj3⟩
      · left; rw [h, multiply_zero_left]
      · by_cases hji : j = i
        · left; rw [hj3, hji, Nat.xor_self, multiply_zero_right]
        · right; exact ⟨j, by omega, by omega, hj3⟩

theorem generatePolynomial_spec (n : Nat) :
    ∃ g, ReedSolomonEncoder.generatePolynomial n = 1 :: g ∧ g.length = n ∧ Bytes g ∧
      ∀ j, j < n → polyEval (1 :: g) (ReedSolomonEncoder.gf.power 2 j) = 0 := by
  obtain ⟨g, h1, h2, h3, h4⟩ := generateLoop_spec n 0 [] Bytes_nil
  refine ⟨g, h1, by simpa using h2, h3, ?_⟩
  intro j hj
  exact h4 _ (power_two_lt j) (Or.inr ⟨j, by omega, by omega, rfl⟩)
/-! ## `encode` -/

theorem zipWith_xor_zeros (R : List Nat) :
    List.zipWith (fun u v => u ^^^ v) (List.replicate R.length 0) R = R := by
  induction R with
  | nil => rfl
  | cons r R ih => simp [List.replicate_succ, ih]

theorem sizeSub_succ (a n : Nat) (ha : 1 ≤ a) : sizeSub (a + n) (n + 1) + 1 = a := by
  unfold sizeSub
  rw [if_pos (by omega)]
  omega

/-- What `encode` does on non-empty data: the data followed by a remainder of
`numEccWords` bytes, and the whole vanishes at every root of the generator. -/
theorem encode_spec (data : List Nat) (n : Nat) (hdata : data ≠ []) (hbytes : Bytes data) :
    ∃ r, ReedSolomonEncoder.encode data n = .ok (data ++ r) ∧ r.length = n ∧ Bytes r ∧
      ∀ i, i < n → polyEval (data ++ r) (ReedSolomonEncoder.gf.power 2 i) = 0 := by
  obtain ⟨g, hg1, hg2, hg3, hg4⟩ := generatePolynomial_spec n
  have hlen : 1 ≤ data.length := by
    cases data with
    | nil => exact absurd rfl hdata
    | cons d ds => simp
  obtain ⟨R, h1, h2, h3, h4⟩ := divideOuter_monic g hg3 data.length 0
    (data ++ List.replicate n 0) (Bytes_append.2 ⟨hbytes, Bytes_replicate_zero n⟩)
    (by simp [hg2])
  refine ⟨R, ?_, by omega, h3, ?_⟩
  · unfold ReedSolomonEncoder.encode ReedSolomonEncoder.dividePolynomials
    simp only [hg1, List.length_append, List.length_replicate, List.length_cons, hg2,
      sizeSub_succ _ _ hlen]
    simp only [List.replicate_zero, List.nil_append, Nat.zero_add] at h1
    rw [h1]
    simp only [List.length_append, List.length_replicate, h2, hg2, Nat.add_sub_cancel]
    rw [List.drop_left' (by simp)]
  · intro i hi
    have hx := power_two_lt i
    have hroot := hg4 i hi
    have hA : horner 0 data (ReedSolomonEncoder.gf.power 2 i) < 256 :=
      horner_lt _ (by omega) hbytes
    have hz := horner_zipWith_xor (p := List.replicate R.length 0) (q := R)
      (a := horner 0 data (ReedSolomonEncoder.gf.power 2 i)) (b := 0)
      (x := ReedSolomonEncoder.gf.power 2 i) (by simp) (Bytes_replicate_zero _) h3 hA
      (by omega) hx
    rw [Nat.xor_zero, zipWith_xor_zeros, h4 _ hx hroot, h2, hg2,
      horner_append 0 data (List.replicate n 0), Nat.xor_self] at hz
    unfold polyEval
    rw [horner_append]
    exact hz

/-- What `encode` does on all-zero data. -/
theorem encode_zeros_spec (k n : Nat) (hk : 1 ≤ k) :
    ReedSolomonEncoder.encode (List.replicate k 0) n = .ok (List.replicate (k + n) 0) := by
  obtain ⟨g, hg1, hg2, _, _⟩ := generatePolynomial_spec n
  unfold ReedSolomonEncoder.encode ReedSolomonEncoder.dividePolynomials
  simp only [hg1, List.length_append, List.length_replicate, List.length_cons, hg2,
    sizeSub_succ _ _ hk, ← List.replicate_add]
  rw [divideOuter_zeros _ _ _ _ (by omega)]
  simp only [List.length_replicate, Nat.add_sub_cancel, List.drop_replicate,
    ← List.replicate_add]
  congr 2
  omega

/-! ## The quotient of the division -/

theorem multiplyInner_block (ai : Nat) (b A B C : List Nat) (hlen : B.length = b.length) :
    ReedSolomonEncoder.multiplyInner ai b A.length (A ++ B ++ C) =
      A ++ List.zipWith (fun u v => u ^^^ v) B
        (b.map (fun d => GaloisField.initTables.multiply ai d)) ++ C := by
  induction b generalizing A B with
  | nil =>
    cases B with
    | nil => simp [ReedSolomonEncoder.multiplyInner]
    | cons x B => simp at hlen
  | cons d b ih =>
    cases B with
    | nil => simp at hlen
    | cons x B =>
      simp only [List.length_cons, Nat.add_right_cancel_iff] at hlen
      unfold ReedSolomonEncoder.multiplyInner
      have e1 : A ++ x :: B ++ C = A ++ x :: (B ++ C) := by simp
      rw [e1, xorSet_append, gf_eq]
      have e2 : A ++ (x ^^^ GaloisField.initTables.multiply ai d) :: (B ++ C) =
          (A ++ [x ^^^ GaloisField.initTables.multiply ai d]) ++ B ++ C := by simp
      have e3 : A.length + 1 = (A ++ [x ^^^ GaloisField.initTables.multiply ai d]).length := by
        simp
      rw [e2, e3, ih _ _ hlen]
      simp

theorem zipWith_xor_cancel (A B U X : List Nat) (h1 : A.length = B.length)
    (h2 : B.length = U.length) (h3 : U.length = X.length) :
    List.zipWith (fun u v => u ^^^ v) (List.zipWith (fun u v => u ^^^ v) A U)
        (List.zipWith (fun u v => u ^^^ v) (List.zipWith (fun u v => u ^^^ v) B U) X) =
      List.zipWith (fun u v => u ^^^ v) A (List.zipWith (fun u v => u ^^^ v) B X) := by
  induction A generalizing B U X with
  | nil => simp
  | cons a A ih =>
    match B, U, X, h1, h2, h3 with
    | b :: B, u :: U, x :: X, h1, h2, h3 =>
      simp only [List.length_cons, Nat.add_right_cancel_iff] at h1 h2 h3
      simp only [List.zipWith_cons_cons]
      rw [ih B U X h1 h2 h3]
      congr 1
      have e : a ^^^ u ^^^ (b ^^^ u ^^^ x) = a ^^^ (b ^^^ (u ^^^ u ^^^ x)) := by ac_rfl
      rw [e, Nat.xor_self, Nat.zero_xor]

theorem zipWith_xor_append (A1 A2 B1 B2 : List Nat) (h : A1.length = B1.length) :
    List.zipWith (fun u v => u ^^^ v) (A1 ++ A2) (B1 ++ B2) =
      List.zipWith (fun u v => u ^^^ v) A1 B1 ++ List.zipWith (fun u v => u ^^^ v) A2 B2 :=
  List.zipWith_append _ _ _ _ _ h

theorem zipWith_xor_zeros_right (A : List Nat) :
    List.zipWith (fun u v => u ^^^ v) A (List.replicate A.length 0) = A := by
  induction A with
  | nil => rfl
  | cons a A ih => simp [List.replicate_succ, ih]

theorem map_multiply_comm (g : List Nat) (c : Nat) :
    g.map (fun d => GaloisField.initTables.multiply c d) =
      g.map (fun d => GaloisField.initTables.multiply d c) := by
  apply List.map_congr_left
  intro d _
  exact multiply_comm c d

theorem map_multiply_zero (g : List Nat) :
    g.map (fun d => GaloisField.initTables.multiply 0 d) = List.replicate g.length 0 := by
  induction g with
  | nil => rfl
  | cons d g ih => simp [multiply_zero_left, List.replicate_succ, ih]

theorem zipWith_xor_self (A : List Nat) :
    List.zipWith (fun u v => u ^^^ v) A A = List.replicate A.length 0 := by
  induction A with
  | nil => rfl
  | cons a A ih => simp [List.replicate_succ, ih]

theorem zipWith_xor_block (l u : List Nat) (h : u.length ≤ l.length) :
    List.zipWith (fun u v => u ^^^ v) (l.take u.length) u ++ l.drop u.length =
      List.zipWith (fun u v => u ^^^ v) l (u ++ List.replicate (l.length - u.length) 0) := by
  have hsplit : l = l.take u.length ++ l.drop u.length := (List.take_append_drop _ _).symm
  have htake : (l.take u.length).length = u.length := by
    rw [List.length_take]; omega
  have hdrop : (l.drop u.length).length = l.length - u.length := List.length_drop _ _
  have e : List.zipWith (fun u v => u ^^^ v) l (u ++ List.replicate (l.length - u.length) 0) =
      List.zipWith (fun u v => u ^^^ v) (l.take u.length ++ l.drop u.length)
        (u ++ List.replicate (l.drop u.length).length 0) := by
    rw [hdrop, ← hsplit]
  rw [e, zipWith_xor_append _ _ _ _ htake, zipWith_xor_zeros_right]

/-- The division by a monic divisor `1 :: g` has a quotient: the leading coefficients
`q` that the loop reads one after the other. Multiplying the divisor by `q` with the loops
of `multiplyPolynomials` adds exactly what the division removed from the remainder. -/
theorem divideOuter_quotient (g : List Nat) (n : Nat) :
    ∀ (i : Nat) (rest : List Nat), Bytes rest → rest.length = n + g.length →
      ∃ q R, ReedSolomonEncoder.divideOuter (1 :: g) n i (List.replicate i 0 ++ rest) =
          .ok (List.replicate (i + n) 0 ++ R) ∧
        q.length = n ∧ Bytes q ∧ R.length = g.length ∧
        ∀ (P Z : List Nat), P.length = i → Z.length = rest.length →
          ReedSolomonEncoder.multiplyOuter (1 :: g) q i (P ++ Z) =
            P ++ List.zipWith (fun u v => u ^^^ v) Z
              (List.zipWith (fun u v => u ^^^ v) rest (List.replicate n 0 ++ R)) := by
  induction n with
  | zero =>
    intro i rest _ hlen
    refine ⟨[], rest, by simp [ReedSolomonEncoder.divideOuter], rfl, Bytes_nil,
      by simpa using hlen, ?_⟩
    intro P Z _ hZ
    simp only [ReedSolomonEncoder.multiplyOuter, List.replicate_zero, List.nil_append]
    rw [zipWith_xor_self, ← hZ, zipWith_xor_zeros_right]
  | succ n ih =>
    intro i rest hrest hlen
    cases rest with
    | nil => simp at hlen; omega
    | cons b rest1 =>
      rw [Bytes_cons] at hrest
      have hlen1 : rest1.length = n + g.length := by simp at hlen; omega
      have hB : Bytes (rest1.take g.length) := fun v hv => hrest.2 v (List.mem_of_mem_take hv)
      have hC : Bytes (rest1.drop g.length) := fun v hv => hrest.2 v (List.mem_of_mem_drop hv)
      have hsplit : rest1 = rest1.take g.length ++ rest1.drop g.length :=
        (List.take_append_drop _ _).symm
      have htake : (rest1.take g.length).length = g.length := by
        rw [List.length_take]; omega
      -- the state of the division after this iteration
      have hstep : ∀ fuel, ReedSolomonEncoder.divideOuter (1 :: g) (fuel + 1) i
          (List.replicate i 0 ++ b :: rest1) =
          ReedSolomonEncoder.divideOuter (1 :: g) fuel (i + 1)
            (List.replicate (i + 1) 0 ++
              (List.zipWith (fun u v => u ^^^ v) (rest1.take g.length)
                (g.map (fun d => GaloisField.initTables.multiply d b)) ++
                rest1.drop g.length)) := by
        intro fuel
        rw [ReedSolomonEncoder.divideOuter, getElem?_replicate_append]
        by_cases hb : b = 0
        · subst hb
          simp only [ne_eq, not_true_eq_false, if_false]
          have hz : g.map (fun d => GaloisField.initTables.multiply d 0) =
              List.replicate (rest1.take g.length).length 0 := by
            rw [htake, ← map_multiply_comm, map_multiply_zero]
          rw [replicate_zero_snoc, hz, zipWith_xor_zeros_right, ← hsplit]
        · simp only [ne_eq, hb, not_false_eq_true, if_true]
          have e1 : List.replicate i 0 ++ b :: rest1 =
              List.replicate i 0 ++ (b :: rest1.take g.length) ++ rest1.drop g.length := by
            rw [List.append_assoc, List.cons_append, ← hsplit]
          have hblock := divideInner_block b (1 :: g) (List.replicate i 0)
            (b :: rest1.take g.length) (rest1.drop g.length) (by simp [htake])
          rw [List.length_replicate] at hblock
          rw [e1, hblock]
          simp only [List.map_cons, List.zipWith_cons_cons]
          rw [multiply_one_left hrest.1, Nat.xor_self, List.append_assoc, List.cons_append,
            replicate_zero_snoc]
      obtain ⟨q, R, h1, h2, h3, h4, h5⟩ := ih (i + 1)
        (List.zipWith (fun u v => u ^^^ v) (rest1.take g.length)
          (g.map (fun d => GaloisField.initTables.multiply d b)) ++ rest1.drop g.length)
        (Bytes_append.2 ⟨Bytes_zipWith_xor hB (Bytes_map_multiply g b), hC⟩)
        (by simp [htake]; omega)
      refine ⟨b :: q, R, ?_, by simp [h2], Bytes_cons.2 ⟨hrest.1, h3⟩, h4, ?_⟩
      · rw [hstep, h1, show i + 1 + n = i + (n + 1) by omega]
      · intro P Z hP hZ
        cases Z with
        | nil => simp at hZ
        | cons z0 Z1 =>
          have hZ1 : Z1.length = rest1.length := by simpa using hZ
          have hZsplit : Z1 = Z1.take g.length ++ Z1.drop g.length :=
            (List.take_append_drop _ _).symm
          have hZtake : (Z1.take g.length).length = g.length := by
            rw [List.length_take]; omega
          rw [ReedSolomonEncoder.multiplyOuter]
          have e1 : P ++ z0 :: Z1 = P ++ (z0 :: Z1.take g.length) ++ Z1.drop g.length := by
            rw [List.append_assoc, List.cons_append, ← hZsplit]
          have hblock := multiplyInner_block b (1 :: g) P (z0 :: Z1.take g.length)
            (Z1.drop g.length) (by simp [hZtake])
          rw [hP] at hblock
          rw [e1, hblock]
          simp only [List.map_cons, List.zipWith_cons_cons]
          rw [multiply_one_right hrest.1, map_multiply_comm]
          have e2 : P ++ (z0 ^^^ b) :: List.zipWith (fun u v => u ^^^ v) (Z1.take g.length)
                (g.map (fun d => GaloisField.initTables.multiply d b)) ++ Z1.drop g.length =
              (P ++ [z0 ^^^ b]) ++
                (List.zipWith (fun u v => u ^^^ v) (Z1.take g.length)
                  (g.map (fun d => GaloisField.initTables.multiply d b)) ++
                  Z1.drop g.length) := by simp
          rw [e2, h5 (P ++ [z0 ^^^ b]) _ (by simp [hP])
            (by simp [htake, hZtake, hZ1])]
          have hU : (g.map (fun d => GaloisField.initTables.multiply d b)).length ≤
              rest1.length := by simp; omega
          have hmaplen : (g.map (fun d => GaloisField.initTables.multiply d b)).length =
              g.length := by simp
          have hr := zipWith_xor_block rest1
            (g.map (fun d => GaloisField.initTables.multiply d b)) hU
          have hz := zipWith_xor_block Z1
            (g.map (fun d => GaloisField.initTables.multiply d b)) (by rw [hZ1]; exact hU)
          rw [hmaplen] at hr hz
          rw [hr, hz, hZ1, zipWith_xor_cancel Z1 rest1 _ _ hZ1 (by simp; omega)
            (by simp [h4]; omega)]
          simp [List.replicate_succ]

/-- The codeword returned by `encode` on non-empty data is the product, computed by
`multiplyPolynomials`, of a quotient `q` and the generator polynomial. -/
theorem encode_divisible (data : List Nat) (n : Nat) (hdata : data ≠ []) (hbytes : Bytes data) :
    ∃ q r, ReedSolomonEncoder.encode data n = .ok (data ++ r) ∧ q.length = data.length ∧
      Bytes q ∧
      ReedSolomonEncoder.multiplyPolynomials q (ReedSolomonEncoder.generatePolynomial n) =
        data ++ r := by
  obtain ⟨g, hg1, hg2, _, _⟩ := generatePolynomial_spec n
  have hlen : 1 ≤ data.length := by
    cases data with
    | nil => exact absurd rfl hdata
    | cons d ds => simp
  obtain ⟨q, R, h1, h2, h3, h4, h5⟩ := divideOuter_quotient g data.length 0
    (data ++ List.replicate n 0) (Bytes_append.2 ⟨hbytes, Bytes_replicate_zero n⟩)
    (by simp [hg2])
  refine ⟨q, R, ?_, h2, h3, ?_⟩
  · unfold ReedSolomonEncoder.encode ReedSolomonEncoder.dividePolynomials
    simp only [hg1, List.length_append, List.length_replicate, List.length_cons, hg2,
      sizeSub_succ _ _ hlen]
    simp only [List.replicate_zero, List.nil_append, Nat.zero_add] at h1
    rw [h1]
    simp only [List.length_append, List.length_replicate, h4, hg2, Nat.add_sub_cancel]
    rw [List.drop_left' (by simp)]
  · have hmul := h5 [] (List.replicate (data ++ List.replicate n 0).length 0) rfl (by simp)
    rw [List.nil_append, List.nil_append] at hmul
    unfold ReedSolomonEncoder.multiplyPolynomials
    have e : q.length + (ReedSolomonEncoder.generatePolynomial n).length - 1 =
        (data ++ List.replicate n 0).length := by
      rw [hg1]; simp [h2, hg2]
    rw [e, hg1, hmul]
    have hz : (List.zipWith (fun u v => u ^^^ v) (data ++ List.replicate n 0)
        (List.replicate data.length 0 ++ R)).length = (data ++ List.replicate n 0).length := by
      simp [h4, hg2]
    rw [← hz, zipWith_xor_zeros, zipWith_xor_append _ _ _ _ (by simp),
      zipWith_xor_zeros_right]
    congr 1
    have hR : n = R.length := by omega
    rw [hR, zipWith_xor_zeros]
/-! ## Binary strings -/

theorem bitsOfNat_length (w v : Nat) : (bitsOfNat w v).length = w := by
  simp [bitsOfNat]

theorem bitsOfNat_succ (m v : Nat) :
    bitsOfNat (m + 1) v = bitsOfNat m (v / 2) ++ [if v % 2 = 0 then '0' else '1'] := by
  unfold bitsOfNat
  rw [List.range_succ, List.map_append]
  congr 1
  · apply List.map_congr_left
    intro i hi
    rw [List.mem_range] at hi
    have e : m + 1 - 1 - i = (m - 1 - i) + 1 := by omega
    rw [e, Nat.testBit_succ]
  · simp only [List.map_cons, List.map_nil, Nat.add_sub_cancel, Nat.sub_self]
    rw [Nat.testBit_zero]
    have h := Nat.mod_two_eq_zero_or_one v
    rcases h with h | h <;> simp [h]

theorem bitsOfNat_zero_value (w : Nat) : bitsOfNat w 0 = List.replicate w '0' := by
  induction w with
  | zero => rfl
  | succ w ih =>
    rw [bitsOfNat_succ, Nat.zero_div, ih, List.replicate_succ']
    rfl

/-- Widening a binary string puts zeros in front. -/
theorem bitsOfNat_widen (m v : Nat) (hv : v < 2 ^ m) (k : Nat) :
    bitsOfNat (k + m) v = List.replicate k '0' ++ bitsOfNat m v := by
  induction m generalizing v with
  | zero =>
    have : v = 0 := by simpa using hv
    subst this
    simp [bitsOfNat_zero_value]
  | succ m ih =>
    have hv2 : v / 2 < 2 ^ m := by
      rw [Nat.div_lt_iff_lt_mul (by omega)]
      rw [Nat.pow_succ] at hv
      exact hv
    rw [← Nat.add_assoc, bitsOfNat_succ, ih _ hv2, bitsOfNat_succ, List.append_assoc]

/-- The loop of `toBinary` puts the significant bits of `value` in front of `binary`. -/
theorem toBinaryLoop_spec (fuel : Nat) :
    ∀ (v : Nat) (acc : List Char), v < 2 ^ fuel →
      ∃ m, toBinaryLoop fuel v acc = bitsOfNat m v ++ acc ∧ v < 2 ^ m ∧
        ∀ w, v < 2 ^ w → m ≤ w := by
  induction fuel with
  | zero =>
    intro v acc hv
    exact ⟨0, rfl, hv, fun _ _ => Nat.zero_le _⟩
  | succ fuel ih =>
    intro v acc hv
    unfold toBinaryLoop
    by_cases h0 : v > 0
    · rw [if_pos h0]
      have hv2 : v / 2 < 2 ^ fuel := by
        rw [Nat.div_lt_iff_lt_mul (by omega)]
        rw [Nat.pow_succ] at hv
        exact hv
      obtain ⟨m, h1, h2, h3⟩ := ih (v / 2) ((if v % 2 = 0 then '0' else '1') :: acc) hv2
      refine ⟨m + 1, ?_, ?_, ?_⟩
      · rw [h1, bitsOfNat_succ, List.append_assoc]
        rfl
      · rw [Nat.pow_succ]
        omega
      · intro w hw
        cases w with
        | zero => simp at hw; omega
        | succ w =>
          have : v / 2 < 2 ^ w := by
            rw [Nat.div_lt_iff_lt_mul (by omega)]
            rw [Nat.pow_succ] at hw
            exact hw
          have := h3 w this
          omega
    · rw [if_neg h0]
      exact ⟨0, rfl, by simp; omega, fun _ _ => Nat.zero_le _⟩

/-- The string `toBinary(value)` of a positive value: its binary digits without leading
zeros. -/
theorem toBinary_pos (v : Nat) (h0 : v ≠ 0) :
    ∃ m, toBinary (v : Int) = bitsOfNat m v ∧ v < 2 ^ m ∧ ∀ w, v < 2 ^ w → m ≤ w := by
  obtain ⟨m, h1, h2, h3⟩ := toBinaryLoop_spec v v [] (Nat.lt_two_pow v)
  refine ⟨m, ?_, h2, h3⟩
  unfold toBinary
  rw [if_neg (by exact_mod_cast h0), Int.toNat_ofNat, h1, List.append_nil]

/-- For a value below `2 ^ w` (and `w ≥ 1`), `padLeft(toBinary(value), w)` is the value in
big-endian binary in exactly `w` bits. -/
theorem padLeft_toBinary (w v : Nat) (hw : 1 ≤ w) (hv : v < 2 ^ w) :
    padLeft (toBinary (v : Int)) w = bitsOfNat w v := by
  by_cases h0 : v = 0
  · subst h0
    have e : toBinary ((0 : Nat) : Int) = bitsOfNat 1 0 := rfl
    have e2 : w = (w - 1) + 1 := by omega
    rw [e]
    unfold padLeft
    rw [bitsOfNat_length]
    by_cases h1 : 1 ≥ w
    · rw [if_pos h1]
      have : w = 1 := by omega
      rw [this]
    · rw [if_neg h1]
      conv_rhs => rw [e2, bitsOfNat_widen 1 0 (by omega) (w - 1)]
  · obtain ⟨m, h1, h2, h3⟩ := toBinary_pos v h0
    have hm := h3 w hv
    rw [h1]
    unfold padLeft
    rw [bitsOfNat_length]
    by_cases hmw : m ≥ w
    · rw [if_pos hmw]
      have : m = w := by omega
      rw [this]
    · rw [if_neg hmw]
      have e : w = (w - m) + m := by omega
      conv_rhs => rw [e, bitsOfNat_widen m v h2 (w - m)]
/-! ## Numeric payload -/

theorem isDigit_bounds {c : Char} (h : c.isDigit = true) : 48 ≤ c.toNat ∧ c.toNat ≤ 57 := by
  simp only [Char.isDigit, Bool.and_eq_true, decide_eq_true_eq] at h
  exact ⟨h.1, h.2⟩

theorem isSpaceChar_of_isDigit {c : Char} (h : c.isDigit = true) : isSpaceChar c = false := by
  have hb := isDigit_bounds h
  unfold isSpaceChar
  simp
  omega

theorem ne_sign_of_isDigit {c : Char} (h : c.isDigit = true) : c ≠ '-' ∧ c ≠ '+' := by
  have hb := isDigit_bounds h
  constructor
  · rintro rfl; revert hb; decide
  · rintro rfl; revert hb; decide

/-- On a non-empty string of digits `std::stoi` returns its decimal value. -/
theorem stoi_digits (a : Char) (t : List Char) (h : ∀ c ∈ a :: t, c.isDigit = true) :
    stoi (a :: t) = .ok (digitsValue 0 (a :: t) : Int) := by
  have ha := h a (List.mem_cons_self _ _)
  have hs := isSpaceChar_of_isDigit ha
  have hsign := ne_sign_of_isDigit ha
  have htake : (a :: t).takeWhile Char.isDigit = a :: t := by
    rw [List.takeWhile_eq_self_iff]
    exact h
  unfold stoi
  simp only [List.dropWhile_cons, hs, Bool.false_eq_true, if_false, List.head?_cons,
    Option.some.injEq, hsign.1, hsign.2, or_self, htake, decide_False]
  simp

theorem digitOf_le {c : Char} (h : c.isDigit = true) : digitOf c ≤ 9 := by
  have hb := isDigit_bounds h
  unfold digitOf
  omega

theorem encodeNumericLoop_done (data : List Char) (n i : Nat) (bits : List Char)
    (h : data.length ≤ i) : encodeNumericLoop data n i bits = .ok bits := by
  cases n with
  | zero => rfl
  | succ n =>
    unfold encodeNumericLoop
    rw [if_neg (by omega)]

theorem drop_length_append (pre rest : List Char) : (pre ++ rest).drop pre.length = rest := by
  simp

theorem encodeNumericLoop_step (data : List Char) (n i : Nat) (bits chunk : List Char)
    (value : Int) (w : Nat) (hi : i < data.length) (hchunk : (data.drop i).take 3 = chunk)
    (hst : stoi chunk = .ok value)
    (hw : (if chunk.length = 3 then 10 else if chunk.length = 2 then 7 else 4) = w) :
    encodeNumericLoop data (n + 1) i bits =
      encodeNumericLoop data n (i + 3) (bits ++ padLeft (toBinary value) w) := by
  rw [encodeNumericLoop, if_pos hi]
  simp only [hchunk, hst, hw]

theorem digitsValue_one (a : Char) : digitsValue 0 [a] = digitOf a := by
  show 0 * 10 + digitOf a = digitOf a
  omega

theorem digitsValue_two (a b : Char) : digitsValue 0 [a, b] = 10 * digitOf a + digitOf b := by
  show (0 * 10 + digitOf a) * 10 + digitOf b = 10 * digitOf a + digitOf b
  omega

theorem digitsValue_three (a b c : Char) :
    digitsValue 0 [a, b, c] = 100 * digitOf a + 10 * digitOf b + digitOf c := by
  show ((0 * 10 + digitOf a) * 10 + digitOf b) * 10 + digitOf c =
    100 * digitOf a + 10 * digitOf b + digitOf c
  omega

/-- The loop of `encodeNumeric`, started behind the prefix `pre` of a string whose rest
is made of digits, appends the payload of the rest. -/
theorem encodeNumericLoop_spec (fuel : Nat) :
    ∀ (pre rest bits : List Char), (∀ c ∈ rest, c.isDigit = true) → rest.length ≤ fuel →
      encodeNumericLoop (pre ++ rest) fuel pre.length bits =
        .ok (bits ++ numericPayloadSpec rest) := by
  induction fuel with
  | zero =>
    intro pre rest bits _ hlen
    have : rest = [] := List.length_eq_zero.1 (by omega)
    subst this
    simp [encodeNumericLoop, numericPayloadSpec]
  | succ fuel ih =>
    intro pre rest bits hdig hlen
    match rest, hdig, hlen with
    | [], _, _ =>
      rw [encodeNumericLoop_done _ _ _ _ (by simp)]
      simp [numericPayloadSpec]
    | [a], hdig, _ =>
      have ha := digitOf_le (hdig a (by simp))
      rw [encodeNumericLoop_step (pre ++ [a]) fuel pre.length bits [a] _ 4 (by simp)
        (by rw [drop_length_append]; rfl) (stoi_digits a [] hdig) rfl,
        encodeNumericLoop_done _ _ _ _ (by simp), digitsValue_one,
        padLeft_toBinary 4 _ (by omega) (by omega)]
      rfl
    | [a, b], hdig, _ =>
      have ha := digitOf_le (hdig a (by simp))
      have hb := digitOf_le (hdig b (by simp))
      rw [encodeNumericLoop_step (pre ++ [a, b]) fuel pre.length bits [a, b] _ 7 (by simp)
        (by rw [drop_length_append]; rfl) (stoi_digits a [b] hdig) rfl,
        encodeNumericLoop_done _ _ _ _ (by simp), digitsValue_two,
        padLeft_toBinary 7 _ (by omega) (by omega)]
      rfl
    | a :: b :: c :: rest1, hdig, hlen =>
      have ha := digitOf_le (hdig a (by simp))
      have hb := digitOf_le (hdig b (by simp))
      have hc := digitOf_le (hdig c (by simp))
      have hchunk : ∀ x ∈ [a, b, c], x.isDigit = true := by
        intro x hx
        apply hdig
        simp at hx ⊢
        tauto
      have e1 : pre ++ a :: b :: c :: rest1 = (pre ++ [a, b, c]) ++ rest1 := by simp
      have e2 : pre.length + 3 = (pre ++ [a, b, c]).length := by simp
      rw [encodeNumericLoop_step (pre ++ a :: b :: c :: rest1) fuel pre.length bits [a, b, c] _ 10
        (by simp) (by rw [drop_length_append]; rfl) (stoi_digits a [b, c] hchunk) rfl,
        e1, e2, ih _ _ _ (fun x hx => hdig x (by simp [hx])) (by simp at hlen; omega),
        digitsValue_three, padLeft_toBinary 10 _ (by omega) (by omega), List.append_assoc]
      rfl

theorem encodeNumeric_eq_spec (data : List Char) (h : ∀ c ∈ data, c.isDigit = true) :
    encodeNumeric data = .ok (numericPayloadSpec data) := by
  have := encodeNumericLoop_spec data.length [] data [] h (Nat.le_refl _)
  simpa [encodeNumeric] using this
/-! ## Padding to the codeword capacity -/

/-- The loop that pads to a byte boundary appends exactly the missing zero bits. -/
theorem padToByteBoundary_spec (n : Nat) :
    ∀ (s : List Char), (8 - s.length % 8) % 8 ≤ n →
      padToByteBoundary n s = s ++ List.replicate ((8 - s.length % 8) % 8) '0' := by
  induction n with
  | zero =>
    intro s h
    have : (8 - s.length % 8) % 8 = 0 := by omega
    rw [this]
    simp [padToByteBoundary]
  | succ n ih =>
    intro s h
    unfold padToByteBoundary
    by_cases h8 : s.length % 8 ≠ 0
    · rw [if_pos h8, ih (s ++ ['0']) (by simp only [List.length_append, List.length_singleton]; omega)]
      have e : (8 - s.length % 8) % 8 = (8 - (s ++ ['0']).length % 8) % 8 + 1 := by
        simp only [List.length_append, List.length_singleton]; omega
      rw [e, List.replicate_succ, List.append_assoc]
      rfl
    · rw [if_neg h8]
      have : (8 - s.length % 8) % 8 = 0 := by omega
      rw [this]
      simp

theorem padToByteBoundary_seven (s : List Char) :
    padToByteBoundary 7 s = s ++ List.replicate ((8 - s.length % 8) % 8) '0' :=
  padToByteBoundary_spec 7 s (by omega)

theorem paddingCodewordsSpec_length (first count : Nat) :
    (paddingCodewordsSpec first count).length = 8 * count := by
  induction count generalizing first with
  | zero => rfl
  | succ count ih =>
    unfold paddingCodewordsSpec at ih ⊢
    rw [List.range'_succ, List.map_cons, List.flatten_cons, List.length_append, ih]
    split <;> simp [bitsOfNat_length] <;> omega

theorem paddingCodewordsSpec_succ (first count : Nat) :
    paddingCodewordsSpec first (count + 1) =
      (if first % 2 = 0 then bitsOfNat 8 0xEC else bitsOfNat 8 0x11) ++
        paddingCodewordsSpec (first + 1) count := by
  unfold paddingCodewordsSpec
  rw [List.range'_succ, List.map_cons, List.flatten_cons]

/-- The loop that appends padding bytes, started on a byte boundary below the capacity,
appends the padding codewords `0xEC`, `0x11` in turn up to the capacity. -/
theorem paddingLoop_spec (required : Nat) (n : Nat) :
    ∀ (index : Nat) (s : List Char), s.length % 8 = 0 → s.length ≤ 8 * required →
      required - s.length / 8 ≤ n →
      paddingLoop (required : Int) n index s =
        s ++ paddingCodewordsSpec index (required - s.length / 8) := by
  induction n with
  | zero =>
    intro index s _ _ h
    have : required - s.length / 8 = 0 := by omega
    rw [this]
    simp [paddingLoop, paddingCodewordsSpec]
  | succ n ih =>
    intro index s h8 hle h
    unfold paddingLoop
    by_cases hlt : (s.length : Int) < (required : Int) * 8
    · rw [if_pos hlt]
      have hlt' : s.length < required * 8 := by exact_mod_cast hlt
      have hbyte : padLeft (toBinary (([0xEC, 0x11] : List Int).getD (index % 2) 0)) 8 =
          (if index % 2 = 0 then bitsOfNat 8 0xEC else bitsOfNat 8 0x11) := by
        rcases Nat.mod_two_eq_zero_or_one index with h0 | h1
        · rw [h0]; decide
        · rw [h1]; decide
      have hlen : (s ++ padLeft (toBinary (([0xEC, 0x11] : List Int).getD (index % 2) 0)) 8).length
          = s.length + 8 := by
        rw [hbyte, List.length_append]
        split <;> simp [bitsOfNat_length]
      simp only []
      rw [ih (index + 1) _ (by rw [hlen]; omega) (by rw [hlen]; omega) (by rw [hlen]; omega),
        hlen, hbyte, List.append_assoc]
      have e : required - s.length / 8 = (required - (s.length + 8) / 8) + 1 := by omega
      rw [e, paddingCodewordsSpec_succ]
    · rw [if_neg hlt]
      have hge : required * 8 ≤ s.length := by
        have := Int.not_lt.1 hlt
        exact_mod_cast this
      have : required - s.length / 8 = 0 := by omega
      rw [this]
      simp [paddingCodewordsSpec]

theorem getDataCodewordsCount_nonneg (version : Int) (level : String) :
    0 ≤ getDataCodewordsCount version level := by
  unfold getDataCodewordsCount
  split
  · omega
  · rename_i h
    have h1 : 1 ≤ version := by omega
    have h2 : version ≤ 15 := by omega
    have hv : version.toNat < 16 := by omega
    generalize version.toNat = v at hv
    simp only []
    split
    · interval_cases v <;> decide
    · split
      · interval_cases v <;> decide
      · split
        · interval_cases v <;> decide
        · interval_cases v <;> decide

theorem paddedStreamSpec_length (bits : List Char) (count : Nat)
    (hfit : bits.length ≤ 8 * count) : (paddedStreamSpec bits count).length = 8 * count := by
  unfold paddedStreamSpec
  simp only [List.length_append, List.length_replicate, paddingCodewordsSpec_length]
  omega

/-- Outside the hard-coded case, when `encode` returns a bit stream within the capacity,
`encodeToBytes` converts the padded stream of the specification. -/
theorem encodeToBytes_general (data : List Char) (mode version : Int) (level : String)
    (bits : List Char)
    (hspecial : ¬(level = "H" ∧ data = "Test".toList ∧ version = 1))
    (henc : encode data mode version = .ok bits)
    (hfit : (bits.length : Int) ≤ 8 * getDataCodewordsCount version level) :
    encodeToBytes data mode version level =
      .ok (bitsToBytes (paddedStreamSpec bits (getDataCodewordsCount version level).toNat)) := by
  have hnn := getDataCodewordsCount_nonneg version level
  obtain ⟨c, hc⟩ := Int.eq_ofNat_of_zero_le hnn
  rw [hc] at hfit
  have hfit' : bits.length ≤ 8 * c := by exact_mod_cast hfit
  unfold encodeToBytes
  rw [if_neg hspecial]
  simp only [henc, hc, Int.toNat_ofNat]
  have hterm : ¬ (min (4 : Int) ((c : Int) * 8 - (bits.length : Int)) < 0) := by omega
  rw [if_neg hterm]
  have htn : (min (4 : Int) ((c : Int) * 8 - (bits.length : Int))).toNat =
      min 4 (8 * c - bits.length) := by omega
  rw [htn, padToByteBoundary_seven]
  rw [paddingLoop_spec c c 0 _ (by simp only [List.length_append, List.length_replicate]; omega)
    (by simp only [List.length_append, List.length_replicate]; omega)
    (by omega)]
  have htake : ((c : Int) * 8).toNat = 8 * c := by omega
  rw [htake]
  have hspec := paddedStreamSpec_length bits c hfit'
  unfold paddedStreamSpec at hspec ⊢
  simp only [] at hspec ⊢
  rw [List.take_of_length_le (by rw [hspec])]
/-! ## Best mask search -/

/-- The loop of `findBestMask` over the first `n` masks, for the penalties `p`. -/
theorem bestMask_fold (p : Nat → Int) (n : Nat) :
    let st := (List.range n).foldl
      (fun (st : Nat × Int) k => if p k < st.2 then (k, p k) else st) ((0 : Nat), INT_MAX)
    (∀ j, j < n → st.2 ≤ p j) ∧
      ((st.1 = 0 ∧ st.2 = INT_MAX) ∨ (st.1 < n ∧ st.2 = p st.1 ∧ ∀ j, j < st.1 → st.2 < p j)) := by
  induction n with
  | zero =>
    refine ⟨fun j hj => by omega, Or.inl ⟨rfl, rfl⟩⟩
  | succ n ih =>
    simp only [List.range_succ, List.foldl_append, List.foldl_cons, List.foldl_nil] at ih ⊢
    obtain ⟨h1, h2⟩ := ih
    by_cases hlt : p n < ((List.range n).foldl
        (fun (st : Nat × Int) k => if p k < st.2 then (k, p k) else st) ((0 : Nat), INT_MAX)).2
    · rw [if_pos hlt]
      refine ⟨fun j hj => ?_, Or.inr ⟨by simp, rfl, fun j hj => ?_⟩⟩
      · by_cases hjn : j = n
        · subst hjn; exact Int.le_refl _
        · have := h1 j (by omega)
          simp only []
          omega
      · have := h1 j hj
        simp only [] at hj ⊢
        omega
    · rw [if_neg hlt]
      refine ⟨fun j hj => ?_, ?_⟩
      · by_cases hjn : j = n
        · subst hjn; omega
        · exact h1 j (by omega)
      · rcases h2 with h | ⟨ha, hb, hc⟩
        · exact Or.inl h
        · exact Or.inr ⟨by omega, hb, hc⟩

/-- With penalties that are `int` values, `findBestMask` returns the first index of a
lowest penalty. -/
theorem findBestMask_spec (evaluateRule4 : List (List Bool) → Nat → Int)
    (modules : List (List Bool)) (size : Nat)
    (hint : ∀ j, j < 8 →
      evaluateMask evaluateRule4 (applyMask modules j size) size ≤ INT_MAX) :
    findBestMask evaluateRule4 modules size < 8 ∧
      (∀ j, j < 8 →
        evaluateMask evaluateRule4
            (applyMask modules (findBestMask evaluateRule4 modules size) size) size ≤
          evaluateMask evaluateRule4 (applyMask modules j size) size) ∧
      (∀ j, j < findBestMask evaluateRule4 modules size →
        evaluateMask evaluateRule4
            (applyMask modules (findBestMask evaluateRule4 modules size) size) size <
          evaluateMask evaluateRule4 (applyMask modules j size) size) := by
  have key := bestMask_fold
    (fun j => evaluateMask evaluateRule4 (applyMask modules j size) size) 8
  have hm : findBestMask evaluateRule4 modules size = ((List.range 8).foldl
      (fun (st : Nat × Int) maskPattern =>
        if evaluateMask evaluateRule4 (applyMask modules maskPattern size) size < st.2
        then (maskPattern, evaluateMask evaluateRule4 (applyMask modules maskPattern size) size)
        else st) ((0 : Nat), INT_MAX)).1 := rfl
  simp only [] at key
  obtain ⟨h1, h2⟩ := key
  rw [← hm] at h2
  generalize hst : ((List.range 8).foldl
      (fun (st : Nat × Int) maskPattern =>
        if evaluateMask evaluateRule4 (applyMask modules maskPattern size) size < st.2
        then (maskPattern, evaluateMask evaluateRule4 (applyMask modules maskPattern size) size)
        else st) ((0 : Nat), INT_MAX)).2 = low at h1 h2
  rcases h2 with ⟨ha, hb⟩ | ⟨ha, hb, hc⟩
  · rw [ha]
    refine ⟨by omega, fun j hj => ?_, fun j hj => by omega⟩
    have := h1 j hj
    have h0 := hint 0 (by omega)
    omega
  · refine ⟨ha, fun j hj => ?_, fun j hj => ?_⟩
    · have := h1 j hj
      omega
    · have := hc j hj
      omega
/-! ## `applyMask` module by module -/

theorem mapFrom_length {α : Type} (f : Nat → α → α) (k : Nat) (l : List α) :
    (mapFrom f k l).length = l.length := by
  induction l generalizing k with
  | nil => rfl
  | cons x xs ih => simp [mapFrom, ih]

theorem mapFrom_congr {α : Type} (f g : Nat → α → α) (k : Nat) (l : List α)
    (h : ∀ r, k ≤ r → ∀ x, f r x = g r x) : mapFrom f k l = mapFrom g k l := by
  induction l generalizing k with
  | nil => rfl
  | cons x xs ih =>
    simp only [mapFrom]
    rw [h k (Nat.le_refl _), ih (k + 1) (fun r hr x => h r (by omega) x)]

theorem mapFrom_id {α : Type} (f : Nat → α → α) (k : Nat) (l : List α)
    (h : ∀ r, k ≤ r → ∀ x, f r x = x) : mapFrom f k l = l := by
  induction l generalizing k with
  | nil => rfl
  | cons x xs ih =>
    simp only [mapFrom]
    rw [h k (Nat.le_refl _), ih (k + 1) (fun r hr x => h r (by omega) x)]

theorem mapFrom_involutive {α : Type} (f : Nat → α → α) (k : Nat) (l : List α)
    (h : ∀ r x, f r (f r x) = x) : mapFrom f k (mapFrom f k l) = l := by
  induction l generalizing k with
  | nil => rfl
  | cons x xs ih => simp only [mapFrom, h, ih]

/-- One more in-place update `l[j] = f (k + j) l[j]` extends the part of the list that has
been mapped. -/
theorem mapFrom_set_step {α : Type} (f : Nat → α → α) (d : α) (l : List α) :
    ∀ (k j : Nat),
      (mapFrom (fun r x => if r < k + j then f r x else x) k l).set j
          (f (k + j) ((mapFrom (fun r x => if r < k + j then f r x else x) k l).getD j d)) =
        mapFrom (fun r x => if r < k + j + 1 then f r x else x) k l := by
  induction l with
  | nil => intro k j; rfl
  | cons x xs ih =>
    intro k j
    cases j with
    | zero =>
      simp only [mapFrom, Nat.add_zero, Nat.lt_irrefl, if_false, List.set_cons_zero,
        List.getD_cons_zero, Nat.lt_succ_self, if_true]
      congr 1
      rw [mapFrom_id _ _ _ (fun r hr x => by rw [if_neg (by omega)]),
        mapFrom_id _ _ _ (fun r hr x => by rw [if_neg (by omega)])]
    | succ j =>
      have e : k + (j + 1) = k + 1 + j := by omega
      simp only [mapFrom, List.set_cons_succ, List.getD_cons_succ, e]
      rw [ih (k + 1) j, if_pos (by omega), if_pos (by omega)]

/-- A loop `for (j = 0; j < n; j++) l[j] = f(j, l[j])` maps the first `n` elements. -/
theorem foldl_range_set {α : Type} (f : Nat → α → α) (d : α) (n : Nat) (l : List α) :
    (List.range n).foldl (fun m j => m.set j (f j (m.getD j d))) l =
      mapFrom (fun r x => if r < n then f r x else x) 0 l := by
  induction n with
  | zero =>
    simp only [List.range_zero, List.foldl_nil]
    exact (mapFrom_id _ _ _ (fun r _ x => by simp)).symm
  | succ n ih =>
    rw [List.range_succ, List.foldl_append, ih]
    simp only [List.foldl_cons, List.foldl_nil]
    have := mapFrom_set_step f d l 0 n
    simp only [Nat.zero_add] at this
    exact this

theorem set_getD_self {α : Type} (l : List α) (j : Nat) (d : α) : l.set j (l.getD j d) = l := by
  induction l generalizing j with
  | nil => rfl
  | cons x xs ih =>
    cases j with
    | zero => rfl
    | succ j => simp only [List.set_cons_succ, List.getD_cons_succ, ih]

/-- The inner loop of `applyMask` rewrites row `row` only. -/
theorem applyMask_row (maskPattern size row n : Nat) (g : List (List Bool)) :
    (List.range n).foldl (fun m col => applyMaskAt maskPattern size m row col) g =
      g.set row ((List.range n).foldl
        (fun rw col => rw.set col
          ((fun c b => if maskFlips maskPattern size row c then !b else b) col
            (rw.getD col false)))
        (g.getD row [])) := by
  induction n with
  | zero =>
    simp only [List.range_zero, List.foldl_nil]
    exact (set_getD_self g row []).symm
  | succ n ih =>
    rw [List.range_succ, List.foldl_append, List.foldl_append, ih]
    simp only [List.foldl_cons, List.foldl_nil]
    generalize (List.range n).foldl
      (fun rw col => rw.set col
        ((fun c b => if maskFlips maskPattern size row c then !b else b) col
          (rw.getD col false))) (g.getD row []) = R
    unfold applyMaskAt moduleAt
    have hflip : (!isReservedModule row n size) = true ∧
        (MaskPatterns.patterns.getD maskPattern (fun _ _ => false)) row n = true ↔
        maskFlips maskPattern size row n = true := by
      simp [maskFlips]
    by_cases hr : row < g.length
    · have hget : (g.set row R).getD row [] = R := by
        rw [List.getD_eq_getElem?_getD, List.getElem?_set_self (by simpa using hr)]
        rfl
      rw [hget, List.set_set]
      by_cases hf : maskFlips maskPattern size row n = true
      · have := hflip.2 hf
        simp only [this.1, this.2, hf, if_true]
      · have hf' : maskFlips maskPattern size row n = false := by simpa using hf
        simp only [hf', Bool.false_eq_true, if_false]
        rw [set_getD_self]
        by_cases h1 : (!isReservedModule row n size) = true
        · rw [if_pos h1]
          have h2 : ¬ (MaskPatterns.patterns.getD maskPattern (fun _ _ => false)) row n = true :=
            fun h2 => hf (hflip.1 ⟨h1, h2⟩)
          rw [if_neg h2]
        · rw [if_neg h1]
    · have hset : ∀ X : List Bool, g.set row X = g := fun X =>
        List.set_eq_of_length_le (by omega)
      simp only [hset]
      split <;> [split; skip] <;> rfl

/-- The grid `applyMask(modules, maskPattern, size)`: the module at `(row, col)` with
`row, col < size` is inverted when `maskFlips` holds there, and all else is unchanged. -/
theorem applyMask_eq_mapFrom (modules : List (List Bool)) (maskPattern size : Nat) :
    applyMask modules maskPattern size =
      mapFrom (fun r rw => if r < size then
          mapFrom (fun c b => if c < size then
            (if maskFlips maskPattern size r c then !b else b) else b) 0 rw
        else rw) 0 modules := by
  unfold applyMask
  have hinner : (fun (maskedModules : List (List Bool)) (row : Nat) =>
      (List.range size).foldl
        (fun maskedModules col => applyMaskAt maskPattern size maskedModules row col)
        maskedModules) =
      (fun maskedModules row => maskedModules.set row
        ((fun r rw => mapFrom (fun c b => if c < size then
            (if maskFlips maskPattern size r c then !b else b) else b) 0 rw) row
          (maskedModules.getD row []))) := by
    funext m row
    rw [applyMask_row]
    exact congrArg (m.set row) (foldl_range_set
      (fun c b => if maskFlips maskPattern size row c then !b else b) false size (m.getD row []))
  rw [hinner]
  exact foldl_range_set (fun r rw => mapFrom (fun c b => if c < size then
    (if maskFlips maskPattern size r c then !b else b) else b) 0 rw) [] size modules

theorem applyMask_involutive (modules : List (List Bool)) (maskPattern size : Nat) :
    applyMask (applyMask modules maskPattern size) maskPattern size = modules := by
  rw [applyMask_eq_mapFrom, applyMask_eq_mapFrom]
  apply mapFrom_involutive
  intro r rw
  by_cases hr : r < size
  · simp only [hr, if_true]
    apply mapFrom_involutive
    intro c b
    by_cases hc : c < size
    · simp only [hc, if_true]
      cases maskFlips maskPattern size r c <;> simp
    · simp only [hc, if_false]
  · simp only [hr, if_false]
/-! ## Alphanumeric payload -/

theorem ALPHANUMERIC_CHARS_length : ALPHANUMERIC_CHARS.length = 45 := by decide

/-- The value the source gives a character: its index in the alphabet, or 0 for a character
outside the alphabet. -/
theorem alphanumericValue_eq (c : Char) :
    alphanumericValue c = if c ∈ ALPHANUMERIC_CHARS then alphabetIndex c else 0 := by
  unfold alphanumericValue alphabetIndex List.indexOf? List.indexOf
  by_cases h : c ∈ ALPHANUMERIC_CHARS
  · rw [if_pos h, List.findIdx?_eq_some_of_exists ⟨c, h, by simp⟩]
  · rw [if_neg h]
    have : ALPHANUMERIC_CHARS.findIdx? (fun x => x == c) = none := by
      rw [List.findIdx?_eq_none_iff]
      intro x hx
      simp only [beq_eq_false_iff_ne, ne_eq]
      rintro rfl
      exact h hx
    rw [this]

theorem alphabetIndex_lt {c : Char} (h : c ∈ ALPHANUMERIC_CHARS) : alphabetIndex c < 45 := by
  unfold alphabetIndex List.indexOf
  rw [← ALPHANUMERIC_CHARS_length, List.findIdx_lt_length]
  exact ⟨c, h, by simp⟩

theorem alphanumericValue_lt (c : Char) : alphanumericValue c < 45 := by
  rw [alphanumericValue_eq]
  split
  · exact alphabetIndex_lt (by assumption)
  · omega

theorem encodeAlphanumericLoop_done (data : List Char) (n i : Nat) (bits : List Char)
    (h : data.length ≤ i) : encodeAlphanumericLoop data n i bits = bits := by
  cases n with
  | zero => rfl
  | succ n =>
    unfold encodeAlphanumericLoop
    rw [if_neg (by omega)]

theorem getD_length_append (pre : List Char) (c : Char) (rest : List Char) (d : Char) :
    (pre ++ c :: rest).getD pre.length d = c := by
  rw [List.getD_eq_getElem?_getD, List.getElem?_append_right (Nat.le_refl _)]
  simp

/-- The loop of `encodeAlphanumeric`, started behind the prefix `pre`, appends the payload
of the rest, with the values the source gives the characters. -/
theorem encodeAlphanumericLoop_spec (fuel : Nat) :
    ∀ (pre rest bits : List Char), rest.length ≤ fuel →
      encodeAlphanumericLoop (pre ++ rest) fuel pre.length bits =
        bits ++ alphanumericPayloadSpec alphanumericValue rest := by
  induction fuel with
  | zero =>
    intro pre rest bits hlen
    have : rest = [] := List.length_eq_zero.1 (by omega)
    subst this
    simp [encodeAlphanumericLoop, alphanumericPayloadSpec]
  | succ fuel ih =>
    intro pre rest bits hlen
    match rest, hlen with
    | [], _ =>
      rw [encodeAlphanumericLoop_done _ _ _ _ (by simp)]
      simp [alphanumericPayloadSpec]
    | [c], _ =>
      have hc := alphanumericValue_lt c
      rw [encodeAlphanumericLoop, if_pos (by simp), if_neg (by simp)]
      simp only []
      rw [getD_length_append, encodeAlphanumericLoop_done _ _ _ _ (by simp),
        padLeft_toBinary 6 _ (by omega) (by omega)]
      rfl
    | c1 :: c2 :: rest1, hlen =>
      have h1 := alphanumericValue_lt c1
      have h2 := alphanumericValue_lt c2
      rw [encodeAlphanumericLoop, if_pos (by simp), if_pos (by simp)]
      simp only []
      have e0 : pre ++ c1 :: c2 :: rest1 = (pre ++ [c1]) ++ c2 :: rest1 := by simp
      have e1 : pre.length + 1 = (pre ++ [c1]).length := by simp
      have hg2 : (pre ++ c1 :: c2 :: rest1).getD (pre.length + 1) '0' = c2 := by
        rw [e0, e1, getD_length_append]
      rw [getD_length_append, hg2]
      have e2 : pre ++ c1 :: c2 :: rest1 = (pre ++ [c1, c2]) ++ rest1 := by simp
      have e3 : pre.length + 2 = (pre ++ [c1, c2]).length := by simp
      rw [e2, e3, ih _ _ _ (by simp at hlen; omega)]
      rw [padLeft_toBinary 11 _ (by omega) (by omega), List.append_assoc]
      rfl

theorem encodeAlphanumeric_eq (data : List Char) :
    encodeAlphanumeric data = alphanumericPayloadSpec alphanumericValue data := by
  have := encodeAlphanumericLoop_spec data.length [] data [] (Nat.le_refl _)
  simpa [encodeAlphanumeric] using this

theorem alphanumericPayloadSpec_congr (f g : Char → Nat) (data : List Char)
    (h : ∀ c ∈ data, f c = g c) :
    alphanumericPayloadSpec f data = alphanumericPayloadSpec g data := by
  match data, h with
  | [], _ => rfl
  | [c], h => simp only [alphanumericPayloadSpec, h c (by simp)]
  | c1 :: c2 :: rest, h =>
    simp only [alphanumericPayloadSpec, h c1 (by simp), h c2 (by simp)]
    rw [alphanumericPayloadSpec_congr f g rest (fun c hc => h c (by simp [hc]))]

theorem alphanumericPayloadSpec_length (f : Char → Nat) (data : List Char) :
    (alphanumericPayloadSpec f data).length = 11 * (data.length / 2) + 6 * (data.length % 2) := by
  match data with
  | [] => rfl
  | [c] => simp [alphanumericPayloadSpec, bitsOfNat_length]
  | c1 :: c2 :: rest =>
    simp only [alphanumericPayloadSpec, List.length_append, bitsOfNat_length, List.length_cons]
    rw [alphanumericPayloadSpec_length f rest]
    omega

theorem alphanumericPayloadSpec_map (f : Char → Nat) (s : Char → Char) (data : List Char) :
    alphanumericPayloadSpec f (data.map s) = alphanumericPayloadSpec (fun c => f (s c)) data := by
  match data with
  | [] => rfl
  | [c] => rfl
  | c1 :: c2 :: rest =>
    simp only [List.map_cons, alphanumericPayloadSpec]
    rw [alphanumericPayloadSpec_map f s rest]
/-! ## Layout of `encode` and mode detection -/

theorem getCharacterCountLength_eq (mode version : Int) (hmode : mode = 1 ∨ mode = 2 ∨ mode = 4) :
    getCharacterCountLength mode version = countWidthSpec mode version := by
  unfold getCharacterCountLength countWidthSpec QR_MODE_NUMERIC QR_MODE_ALPHANUMERIC
    QR_MODE_BYTE CHARACTER_COUNT_LENGTHS
  rcases hmode with h | h | h <;> subst h <;>
    by_cases h9 : version ≤ 9 <;> by_cases h26 : version ≤ 26 <;> simp [h9, h26]

theorem countWidthSpec_pos (mode version : Int) : 1 ≤ countWidthSpec mode version := by
  unfold countWidthSpec
  split_ifs <;> omega

theorem stringToUtf8Bytes_length (data : List Char) :
    (stringToUtf8Bytes data).length = data.length := by
  simp [stringToUtf8Bytes]

theorem modeIndicator_eq (mode : Int) (hmode : mode = 1 ∨ mode = 2 ∨ mode = 4) :
    padLeft (toBinary mode) 4 = bitsOfNat 4 mode.toNat := by
  rcases hmode with h | h | h <;> subst h <;> decide

/-- With a character count that fits the count indicator, `encode` is the mode indicator,
the count in exactly `countWidthSpec` bits and the payload of the mode. -/
theorem encode_eq_layout (data : List Char) (mode version : Int)
    (hmode : mode = 1 ∨ mode = 2 ∨ mode = 4)
    (hcount : data.length < 2 ^ countWidthSpec mode version) :
    encode data mode version =
      match modePayload data mode with
      | .ok payload => .ok (bitsOfNat 4 mode.toNat ++
          bitsOfNat (countWidthSpec mode version) data.length ++ payload)
      | .error e => .error e := by
  unfold encode modePayload
  simp only [stringToUtf8Bytes_length, ite_self, getCharacterCountLength_eq mode version hmode,
    modeIndicator_eq mode hmode,
    padLeft_toBinary _ _ (countWidthSpec_pos mode version) hcount]
  by_cases h1 : mode = QR_MODE_NUMERIC
  · simp only [h1, if_true]
  · simp only [h1, if_false]
    by_cases h2 : mode = QR_MODE_ALPHANUMERIC
    · simp only [h2, if_true]
    · simp only [h2, if_false]

theorem isDigit_iff_not_outside (c : Char) :
    (!(decide (c < '0') || decide (c > '9'))) = true ↔ c.isDigit = true := by
  have h0 : '0'.val = 48 := rfl
  have h9 : '9'.val = 57 := rfl
  simp only [Char.isDigit, Bool.not_eq_true', Bool.or_eq_false_iff, decide_eq_false_iff_not,
    Bool.and_eq_true, decide_eq_true_eq, Char.lt_def, gt_iff_lt, h0, h9, UInt32.not_lt,
    ge_iff_le]

theorem indexOf?_isSome_iff (c : Char) :
    (ALPHANUMERIC_CHARS.indexOf? c).isSome = true ↔ c ∈ ALPHANUMERIC_CHARS := by
  unfold List.indexOf?
  rw [List.findIdx?_isSome, List.any_eq_true]
  constructor
  · rintro ⟨x, hx, hxc⟩
    have : x = c := by simpa using hxc
    exact this ▸ hx
  · intro h
    exact ⟨c, h, by simp⟩

/-- The three outcomes of `detectMode`. -/
theorem detectMode_eq (data : List Char) :
    detectMode data =
      if data ≠ [] ∧ ∀ c ∈ data, c.isDigit = true then QR_MODE_NUMERIC
      else if ∀ c ∈ data, c ∈ ALPHANUMERIC_CHARS then QR_MODE_ALPHANUMERIC
      else QR_MODE_BYTE := by
  unfold detectMode
  have hnum : (data.all (fun c => !(decide (c < '0') || decide (c > '9'))) && !data.isEmpty)
      = true ↔ (data ≠ [] ∧ ∀ c ∈ data, c.isDigit = true) := by
    rw [Bool.and_eq_true, List.all_eq_true]
    constructor
    · rintro ⟨h1, h2⟩
      refine ⟨?_, fun c hc => (isDigit_iff_not_outside c).1 (h1 c hc)⟩
      rintro rfl
      simp at h2
    · rintro ⟨h1, h2⟩
      refine ⟨fun c hc => (isDigit_iff_not_outside c).2 (h2 c hc), ?_⟩
      cases data with
      | nil => exact absurd rfl h1
      | cons a t => rfl
  have halpha : data.all (fun c => (ALPHANUMERIC_CHARS.indexOf? c).isSome) = true ↔
      ∀ c ∈ data, c ∈ ALPHANUMERIC_CHARS := by
    rw [List.all_eq_true]
    exact ⟨fun h c hc => (indexOf?_isSome_iff c).1 (h c hc),
      fun h c hc => (indexOf?_isSome_iff c).2 (h c hc)⟩
  simp only []
  by_cases h1 : data ≠ [] ∧ ∀ c ∈ data, c.isDigit = true
  · rw [if_pos (hnum.2 h1), if_pos h1]
  · rw [if_neg (fun h => h1 (hnum.1 h)), if_neg h1]
    by_cases h2 : ∀ c ∈ data, c ∈ ALPHANUMERIC_CHARS
    · rw [if_pos (halpha.2 h2), if_pos h2]
    · rw [if_neg (fun h => h2 (halpha.1 h)), if_neg h2]
/-! ## Rule 1 -/

/-- The penalty of a list of run lengths. -/
theorem rule1LineSpec_eq (line : List Bool) :
    rule1LineSpec line =
      ((runLengths line).map (fun (k : Nat) => rule1RunPenalty (k : Int))).sum := by
  unfold rule1LineSpec
  induction runLengths line with
  | nil => rfl
  | cons k ks ih =>
    rw [List.filter_cons]
    by_cases h : 5 ≤ k
    · have hp : rule1RunPenalty (k : Int) = 3 + ((k : Int) - 5) := by
        unfold rule1RunPenalty RULE1_MIN_CONSECUTIVE RULE1_BASE_PENALTY
        rw [if_pos (by omega)]
      simp only [h, decide_True, if_true, List.map_cons, List.sum_cons, ih, hp]
    · have hp : rule1RunPenalty (k : Int) = 0 := by
        unfold rule1RunPenalty RULE1_MIN_CONSECUTIVE
        rw [if_neg (by omega)]
      simp only [h, decide_False, Bool.false_eq_true, if_false, List.map_cons, List.sum_cons,
        ih, hp, Int.zero_add]

theorem runLengths_cons_same (b : Bool) (l : List Bool) (k : Nat) (ks : List Nat)
    (h : runLengths (b :: l) = k :: ks) :
    runLengths (b :: b :: l) = (k + 1) :: ks := by
  rw [runLengths, if_pos rfl, h]

theorem runLengths_replicate (n : Nat) (b : Bool) :
    runLengths (List.replicate (n + 1) b) = [n + 1] := by
  induction n with
  | zero => rfl
  | succ n ih =>
    rw [List.replicate_succ]
    rw [List.replicate_succ] at ih ⊢
    exact runLengths_cons_same b _ _ _ ih

theorem runLengths_replicate_append (n : Nat) (b c : Bool) (rest : List Bool) (h : c ≠ b) :
    runLengths (List.replicate (n + 1) b ++ c :: rest) = (n + 1) :: runLengths (c :: rest) := by
  induction n with
  | zero =>
    show runLengths (b :: c :: rest) = _
    rw [runLengths, if_neg (fun e => h e.symm)]
  | succ n ih =>
    rw [List.replicate_succ, List.cons_append]
    rw [List.replicate_succ, List.cons_append] at ih ⊢
    exact runLengths_cons_same b _ _ _ ih

/-- The scan of `evaluateRule1` over the rest `tl` of a line, from a run of `n + 1` modules
`prev`, scores the runs of the whole line. -/
theorem rule1_scan (tl : List Bool) :
    ∀ (pen : Int) (n : Nat) (prev : Bool),
      (tl.foldl rule1Step (pen, ((n + 1 : Nat) : Int), prev)).1 +
          rule1RunPenalty (tl.foldl rule1Step (pen, ((n + 1 : Nat) : Int), prev)).2.1 =
        pen + rule1LineSpec (List.replicate (n + 1) prev ++ tl) := by
  induction tl with
  | nil =>
    intro pen n prev
    rw [List.append_nil, rule1LineSpec_eq, runLengths_replicate]
    simp
  | cons c tl ih =>
    intro pen n prev
    rw [List.foldl_cons]
    by_cases h : c = prev
    · subst h
      have e : rule1Step (pen, ((n + 1 : Nat) : Int), c) c = (pen, ((n + 1 + 1 : Nat) : Int), c) := by
        simp [rule1Step]
      have e2 : List.replicate (n + 1) c ++ c :: tl = List.replicate (n + 1 + 1) c ++ tl := by
        rw [List.replicate_succ' (n + 1), List.append_assoc]
        rfl
      rw [e, e2, ih]
    · have e : rule1Step (pen, ((n + 1 : Nat) : Int), prev) c =
          (pen + rule1RunPenalty ((n + 1 : Nat) : Int), ((0 + 1 : Nat) : Int), c) := by
        simp [rule1Step, h]
      rw [e, ih, rule1LineSpec_eq, rule1LineSpec_eq, runLengths_replicate_append n prev c tl h]
      simp only [List.replicate_succ, List.replicate_zero, List.cons_append, List.nil_append,
        List.map_cons, List.sum_cons]
      omega

theorem range_map_succ (line : Nat → Bool) (n : Nat) :
    (List.range (n + 1)).map line = line 0 :: (List.range n).map (fun k0 => line (k0 + 1)) := by
  rw [List.range_succ_eq_map, List.map_cons, List.map_map]
  rfl

/-- One line of `evaluateRule1` scores the maximal runs of the line. -/
theorem rule1Line_eq_spec (line : Nat → Bool) (size : Nat) (hsize : 1 ≤ size) :
    rule1Line line size = rule1LineSpec ((List.range size).map line) := by
  obtain ⟨n, rfl⟩ : ∃ n, size = n + 1 := ⟨size - 1, by omega⟩
  have hfold : (List.range (n + 1 - 1)).foldl
      (fun (st : Int × Int × Bool) k0 =>
        let k := k0 + 1
        if line k == st.2.2 then (st.1, st.2.1 + 1, st.2.2)
        else (st.1 + rule1RunPenalty st.2.1, 1, line k))
      ((0 : Int), (1 : Int), line 0) =
      ((List.range n).map (fun k0 => line (k0 + 1))).foldl rule1Step
        ((0 : Int), ((0 + 1 : Nat) : Int), line 0) := by
    rw [List.foldl_map, Nat.add_sub_cancel]
    rfl
  unfold rule1Line
  simp only []
  rw [hfold, rule1_scan, range_map_succ]
  simp

theorem foldl_add_eq_sum (f : Nat → Int) (l : List Nat) (init : Int) :
    l.foldl (fun penalty k => penalty + f k) init = init + (l.map f).sum := by
  induction l generalizing init with
  | nil => simp
  | cons a l ih =>
    rw [List.foldl_cons, ih, List.map_cons, List.sum_cons]
    omega

theorem range_map_getD (l : List Bool) :
    (List.range l.length).map (fun k => l.getD k false) = l := by
  apply List.ext_getElem
  · simp
  · intro i h1 h2
    simp [List.getD_eq_getElem?_getD, List.getElem?_eq_getElem h2]

theorem moduleAt_column (grid : List (List Bool)) (row col : Nat) :
    moduleAt grid row col = (columnOf grid col).getD row false := by
  unfold moduleAt columnOf
  rw [List.getD_eq_getElem?_getD (List.map _ _), List.getElem?_map,
    List.getD_eq_getElem?_getD grid]
  cases grid[row]? <;> rfl

/-- The function `evaluateRule1` on a square grid sums the penalties of the rows and of
the columns. -/
theorem evaluateRule1_eq_spec (grid : List (List Bool)) (size : Nat) (hsize : 1 ≤ size)
    (hrows : grid.length = size) (hcols : ∀ row ∈ grid, row.length = size) :
    evaluateRule1 grid size = rule1Spec grid size := by
  unfold evaluateRule1 rule1Spec
  simp only []
  rw [foldl_add_eq_sum, foldl_add_eq_sum, Int.zero_add]
  congr 1
  · have hg : grid = (List.range size).map (fun row => grid.getD row []) := by
      apply List.ext_getElem
      · simp [hrows]
      · intro i h1 h2
        simp [List.getD_eq_getElem?_getD, List.getElem?_eq_getElem h1]
    conv_rhs => rw [hg]
    rw [List.map_map]
    apply congrArg
    apply List.map_congr_left
    intro row hrow
    rw [List.mem_range] at hrow
    rw [rule1Line_eq_spec _ _ hsize]
    simp only [Function.comp]
    have hlen : (grid.getD row []).length = size := by
      apply hcols
      rw [List.getD_eq_getElem?_getD, List.getElem?_eq_getElem (by omega)]
      exact List.getElem_mem _
    have := range_map_getD (grid.getD row [])
    rw [hlen] at this
    exact congrArg rule1LineSpec this
  · apply congrArg
    apply List.map_congr_left
    intro col _
    rw [rule1Line_eq_spec _ _ hsize]
    have hlen : (columnOf grid col).length = size := by simp [columnOf, hrows]
    have := range_map_getD (columnOf grid col)
    rw [hlen] at this
    rw [← this]
    congr 1
    apply List.map_congr_left
    intro row _
    exact moduleAt_column grid row col
/-! ## Rule 3 -/

theorem all_range7_eq_decide (f : Nat → Bool) (p : List Bool) (hp : p.length = 7) :
    (List.range 7).all (fun i => f i == p.getD i false) =
      decide ((List.range 7).map f = p) := by
  obtain ⟨p0, p1, p2, p3, p4, p5, p6, rfl⟩ :
      ∃ p0 p1 p2 p3 p4 p5 p6, p = [p0, p1, p2, p3, p4, p5, p6] := by
    match p, hp with
    | [p0, p1, p2, p3, p4, p5, p6], _ => exact ⟨p0, p1, p2, p3, p4, p5, p6, rfl⟩
  have hr : List.range 7 = [0, 1, 2, 3, 4, 5, 6] := by decide
  rw [hr]
  rw [Bool.eq_iff_iff]
  simp [List.getD_cons_zero, List.getD_cons_succ]

/-- The pattern test of `evaluateRule3` compares the window with the two patterns. -/
theorem rule3_matches_eq (line : Nat → Bool) (pos : Nat) :
    ((List.range RULE3_PATTERN_LENGTH).all
        (fun i => line (pos + i) == rule3Pattern1.getD i false) ||
      (List.range RULE3_PATTERN_LENGTH).all
        (fun i => line (pos + i) == rule3Pattern2.getD i false)) =
      rule3Matches line pos := by
  unfold rule3Matches
  have h1 := all_range7_eq_decide (fun i => line (pos + i)) rule3Pattern1 rfl
  have h2 := all_range7_eq_decide (fun i => line (pos + i)) rule3Pattern2 rfl
  show ((List.range 7).all (fun i => line (pos + i) == rule3Pattern1.getD i false) ||
      (List.range 7).all (fun i => line (pos + i) == rule3Pattern2.getD i false)) = _
  rw [h1, h2]
  rfl

/-- The loop over the modules before the window finds no dark module exactly when each
of the up to 4 modules of the line before the window is light. -/
theorem rule3_left_padding (line : Nat → Bool) (pos : Nat) :
    (List.range' (pos - RULE3_LIGHT_PADDING) (pos - (pos - RULE3_LIGHT_PADDING))).all
        (fun i => !line i) =
      (List.range 4).all (fun j => decide (j < pos → line (pos - 1 - j) = false)) := by
  rw [Bool.eq_iff_iff]
  simp only [List.all_eq_true, List.mem_range'_1, List.mem_range, decide_eq_true_eq,
    Bool.not_eq_true', RULE3_LIGHT_PADDING]
  constructor
  · intro h j hj hjp
    exact h (pos - 1 - j) ⟨by omega, by omega⟩
  · intro h i hi
    have := h (pos - 1 - i) (by omega) (by omega)
    have e : pos - 1 - (pos - 1 - i) = i := by omega
    rw [e] at this
    exact this

/-- The loop over the modules after the window finds no dark module exactly when each
of the up to 4 modules of the line after the window is light. -/
theorem rule3_right_padding (line : Nat → Bool) (size pos : Nat) :
    (List.range' (pos + RULE3_PATTERN_LENGTH)
        (min size (pos + RULE3_PATTERN_LENGTH + RULE3_LIGHT_PADDING) -
          (pos + RULE3_PATTERN_LENGTH))).all (fun i => !line i) =
      (List.range 4).all (fun j => decide (pos + 7 + j < size → line (pos + 7 + j) = false)) := by
  rw [Bool.eq_iff_iff]
  simp only [List.all_eq_true, List.mem_range'_1, List.mem_range, decide_eq_true_eq,
    Bool.not_eq_true', RULE3_LIGHT_PADDING, RULE3_PATTERN_LENGTH]
  constructor
  · intro h j hj hjp
    exact h (pos + 7 + j) ⟨by omega, by omega⟩
  · intro h i hi
    have := h (i - (pos + 7)) (by omega) (by omega)
    have e : pos + 7 + (i - (pos + 7)) = i := by omega
    rw [e] at this
    exact this

/-- The window test of `evaluateRule3` is the test with positions outside the line counted
as light. -/
theorem rule3Window_eq_clipped (line : Nat → Bool) (size pos : Nat) :
    rule3Window line size pos = rule3WindowClipped line size pos := by
  unfold rule3Window rule3WindowClipped
  simp only []
  rw [rule3_matches_eq, rule3_left_padding, rule3_right_padding]
  cases rule3Matches line pos <;> simp

theorem foldl_count_eq (p : Nat → Bool) (c : Int) (l : List Nat) (init : Int) :
    l.foldl (fun penalty pos => if p pos then penalty + c else penalty) init =
      init + c * ((l.filter p).length : Int) := by
  induction l generalizing init with
  | nil => simp
  | cons a l ih =>
    rw [List.foldl_cons, ih, List.filter_cons]
    by_cases h : p a
    · simp only [h, if_true, List.length_cons]
      push_cast
      ring
    · simp only [h, Bool.false_eq_true, if_false]

/-- One line of `evaluateRule3` is 40 times the number of its counting windows. -/
theorem rule3Line_eq (line : Nat → Bool) (size : Nat) :
    rule3Line line size =
      40 * ((((List.range (size + 1 - 7)).filter
        (fun pos => rule3WindowClipped line size pos)).length : Nat) : Int) := by
  unfold rule3Line
  rw [foldl_count_eq (fun pos => rule3Window line size pos), Int.zero_add]
  have hw : (fun pos => rule3Window line size pos) =
      (fun pos => rule3WindowClipped line size pos) :=
    funext (fun pos => rule3Window_eq_clipped line size pos)
  rw [hw]
  rfl

theorem sum_map_mul (f : Nat → Nat) (l : List Nat) :
    (l.map (fun k => (40 : Int) * ((f k : Nat) : Int))).sum = 40 * (((l.map f).sum : Nat) : Int) := by
  induction l with
  | nil => simp
  | cons a l ih =>
    rw [List.map_cons, List.sum_cons, ih, List.map_cons, List.sum_cons]
    push_cast
    ring

/-- The function `evaluateRule3` is 40 times the number of counting windows along the rows
and the columns, with positions outside the grid counted as light. -/
theorem evaluateRule3_eq_spec (grid : List (List Bool)) (size : Nat) :
    evaluateRule3 grid size = rule3Spec rule3WindowClipped grid size := by
  unfold evaluateRule3 rule3Spec
  simp only []
  rw [foldl_add_eq_sum, foldl_add_eq_sum, Int.zero_add]
  have hrow : (fun row => rule3Line (fun col => moduleAt grid row col) size) =
      (fun row => (40 : Int) * ((((List.range (size + 1 - 7)).filter
        (fun pos => rule3WindowClipped (fun col => moduleAt grid row col) size pos)).length
          : Nat) : Int)) :=
    funext (fun row => rule3Line_eq _ size)
  have hcol : (fun col => rule3Line (fun row => moduleAt grid row col) size) =
      (fun col => (40 : Int) * ((((List.range (size + 1 - 7)).filter
        (fun pos => rule3WindowClipped (fun row => moduleAt grid row col) size pos)).length
          : Nat) : Int)) :=
    funext (fun col => rule3Line_eq _ size)
  rw [hrow, hcol, sum_map_mul, sum_map_mul]
  push_cast
  ring
/-! ## The modules of a masked grid -/

theorem mapFrom_getElem? {α : Type} (f : Nat → α → α) (l : List α) :
    ∀ (k j : Nat), (mapFrom f k l)[j]? = (l[j]?).map (f (k + j)) := by
  induction l with
  | nil => intro k j; rfl
  | cons x xs ih =>
    intro k j
    cases j with
    | zero => simp [mapFrom]
    | succ j =>
      simp only [mapFrom, List.getElem?_cons_succ]
      rw [ih (k + 1) j, Nat.add_right_comm k 1 j, Nat.add_assoc k j 1]

theorem mapFrom_mem_length {α : Type} (f : Nat → List α → List α) (l : List (List α))
    (n : Nat) (hf : ∀ r x, (f r x).length = x.length) (hl : ∀ x ∈ l, x.length = n) :
    ∀ (k : Nat), ∀ x ∈ mapFrom f k l, x.length = n := by
  induction l with
  | nil => intro k x hx; cases hx
  | cons y ys ih =>
    intro k x hx
    simp only [mapFrom, List.mem_cons] at hx
    rcases hx with rfl | hx
    · rw [hf]
      exact hl y (List.mem_cons_self _ _)
    · exact ih (fun z hz => hl z (List.mem_cons_of_mem _ hz)) (k + 1) x hx

/-- The function `isReservedModule` holds exactly at the reserved positions of the
specification: its third test adds nothing to the first two. -/
theorem isReservedModule_iff (r c size : Nat) :
    isReservedModule r c size = true ↔ reservedSpec r c size := by
  unfold isReservedModule reservedSpec
  by_cases h1 : r < 9 <;> by_cases h2 : c < 9 <;>
    by_cases h3 : (c : Int) ≥ (size : Int) - 8 <;>
    by_cases h4 : (r : Int) ≥ (size : Int) - 8 <;>
    by_cases h5 : (r : Int) ≥ (size : Int) - 7 <;>
    by_cases h6 : r = 6 <;> by_cases h7 : c = 6 <;>
    simp [h1, h2, h3, h4, h5, h6, h7] <;> omega

/-- The entries of the table `patterns` are the predicates of the specification. -/
theorem patterns_iff (i r c : Nat) (hi : i < 8) :
    (MaskPatterns.patterns.getD i (fun _ _ => false)) r c = true ↔ maskPredicateSpec i r c := by
  have h : i = 0 ∨ i = 1 ∨ i = 2 ∨ i = 3 ∨ i = 4 ∨ i = 5 ∨ i = 6 ∨ i = 7 := by omega
  rcases h with rfl | rfl | rfl | rfl | rfl | rfl | rfl | rfl <;>
    simp [MaskPatterns.patterns, maskPredicateSpec, MaskPatterns.pattern0,
      MaskPatterns.pattern1, MaskPatterns.pattern2, MaskPatterns.pattern3,
      MaskPatterns.pattern4, MaskPatterns.pattern5, MaskPatterns.pattern6,
      MaskPatterns.pattern7]

/-- The test of `applyMask` at a position, in the words of the specification. -/
theorem maskFlips_iff (i size r c : Nat) (hi : i < 8) :
    maskFlips i size r c = true ↔ ¬ reservedSpec r c size ∧ maskPredicateSpec i r c := by
  unfold maskFlips
  rw [Bool.and_eq_true, patterns_iff i r c hi, ← isReservedModule_iff]
  simp

/-- The module of `applyMask(modules, maskPattern, size)` at a position inside the grid. -/
theorem moduleAt_applyMask (modules : List (List Bool)) (maskPattern size r c : Nat)
    (hrows : modules.length = size) (hcols : ∀ row ∈ modules, row.length = size)
    (hr : r < size) (hc : c < size) :
    moduleAt (applyMask modules maskPattern size) r c =
      (if maskFlips maskPattern size r c then !moduleAt modules r c
        else moduleAt modules r c) := by
  rw [applyMask_eq_mapFrom]
  unfold moduleAt
  have hrow : modules[r]? = some (modules.get ⟨r, by omega⟩) :=
    List.getElem?_eq_getElem (by omega)
  have hlen : (modules.get ⟨r, by omega⟩).length = size :=
    hcols _ (List.get_mem _ _ _)
  have hcell : (modules.get ⟨r, by omega⟩)[c]? =
      some ((modules.get ⟨r, by omega⟩).get ⟨c, by omega⟩) :=
    List.getElem?_eq_getElem (by omega)
  rw [List.getD_eq_getElem?_getD (mapFrom _ _ _), mapFrom_getElem?, Nat.zero_add,
    List.getD_eq_getElem?_getD modules, hrow]
  simp only [Option.map_some', Option.getD_some, if_pos hr]
  rw [List.getD_eq_getElem?_getD (mapFrom _ _ _), mapFrom_getElem?, Nat.zero_add,
    List.getD_eq_getElem?_getD (modules.get _), hcell]
  simp only [Option.map_some', Option.getD_some, if_pos hc]

/-- The grid `applyMask(modules, maskPattern, size)` has the rows and columns of `modules`. -/
theorem applyMask_dimensions (modules : List (List Bool)) (maskPattern size n : Nat)
    (hrows : modules.length = n) (hcols : ∀ row ∈ modules, row.length = n) :
    (applyMask modules maskPattern size).length = n ∧
      ∀ row ∈ applyMask modules maskPattern size, row.length = n := by
  rw [applyMask_eq_mapFrom]
  refine ⟨by rw [mapFrom_length, hrows], ?_⟩
  apply mapFrom_mem_length _ _ _ _ hcols
  intro r x
  by_cases h : r < size
  · rw [if_pos h, mapFrom_length]
  · rw [if_neg h]
/-! ## Rounding to `double` -/

theorem roundHalfEven_intCast (m : Int) : roundHalfEven (m : ℚ) = m := by
  unfold roundHalfEven
  rw [Int.floor_intCast]
  simp

theorem roundHalfEven_mono {q q' : ℚ} (h : q ≤ q') : roundHalfEven q ≤ roundHalfEven q' := by
  have hf : ⌊q⌋ ≤ ⌊q'⌋ := Int.floor_mono h
  rcases lt_or_eq_of_le hf with hlt | heq
  · have h1 : roundHalfEven q ≤ ⌊q⌋ + 1 := by
      unfold roundHalfEven
      split_ifs <;> omega
    have h2 : ⌊q'⌋ ≤ roundHalfEven q' := by
      unfold roundHalfEven
      split_ifs <;> omega
    omega
  · have hr : q - ⌊q⌋ ≤ q' - ⌊q⌋ := by linarith
    unfold roundHalfEven
    rw [← heq]
    by_cases a1 : q - ⌊q⌋ < 1 / 2
    · rw [if_pos a1]
      split_ifs <;> omega
    · rw [if_neg a1]
      have b1 : ¬ q' - ⌊q⌋ < 1 / 2 := fun hb => a1 (lt_of_le_of_lt hr hb)
      rw [if_neg b1]
      by_cases a2 : q - ⌊q⌋ = 1 / 2
      · rw [if_pos a2]
        split_ifs <;> omega
      · rw [if_neg a2]
        have b2 : ¬ q' - ⌊q⌋ = 1 / 2 := fun hb =>
          a2 (le_antisymm (by linarith) (not_lt.mp a1))
        rw [if_neg b2]

theorem two_zpow_pos (e : Int) : (0 : ℚ) < (2 : ℚ) ^ e :=
  zpow_pos (by norm_num) e

/-- A positive number of the binade `[2^e, 2^(e+1)]` is rounded into this binade. -/
theorem roundDoublePositive_bounds {x : ℚ} (hx : 0 < x) :
    (2 : ℚ) ^ Int.log 2 x ≤ roundDoublePositive x ∧
      roundDoublePositive x ≤ (2 : ℚ) ^ (Int.log 2 x + 1) := by
  have hlo : (2 : ℚ) ^ Int.log 2 x ≤ x := by
    have := Int.zpow_log_le_self (b := 2) (by norm_num) hx
    simpa using this
  have hhi : x < (2 : ℚ) ^ (Int.log 2 x + 1) := by
    have := Int.lt_zpow_succ_log_self (b := 2) (by norm_num) x
    simpa using this
  have hu := two_zpow_pos (Int.log 2 x - 52)
  have e1 : (((2 : Int) ^ 52 : Int) : ℚ) * (2 : ℚ) ^ (Int.log 2 x - 52) =
      (2 : ℚ) ^ Int.log 2 x := by
    have : (((2 : Int) ^ 52 : Int) : ℚ) = (2 : ℚ) ^ (52 : Int) := by norm_num
    rw [this, ← zpow_add₀ (by norm_num : (2 : ℚ) ≠ 0)]
    congr 1
    omega
  have e2 : (((2 : Int) ^ 53 : Int) : ℚ) * (2 : ℚ) ^ (Int.log 2 x - 52) =
      (2 : ℚ) ^ (Int.log 2 x + 1) := by
    have : (((2 : Int) ^ 53 : Int) : ℚ) = (2 : ℚ) ^ (53 : Int) := by norm_num
    rw [this, ← zpow_add₀ (by norm_num : (2 : ℚ) ≠ 0)]
    congr 1
    omega
  unfold roundDoublePositive
  constructor
  · rw [← e1]
    apply mul_le_mul_of_nonneg_right _ (le_of_lt hu)
    have h : roundHalfEven (((2 : Int) ^ 52 : Int) : ℚ) ≤
        roundHalfEven (x / (2 : ℚ) ^ (Int.log 2 x - 52)) :=
      roundHalfEven_mono (by
        rw [le_div_iff₀ hu, e1]
        exact hlo)
    rw [roundHalfEven_intCast] at h
    exact_mod_cast h
  · rw [← e2]
    apply mul_le_mul_of_nonneg_right _ (le_of_lt hu)
    have h : roundHalfEven (x / (2 : ℚ) ^ (Int.log 2 x - 52)) ≤
        roundHalfEven (((2 : Int) ^ 53 : Int) : ℚ) :=
      roundHalfEven_mono (by
        rw [div_le_iff₀ hu, e2]
        exact le_of_lt hhi)
    rw [roundHalfEven_intCast] at h
    exact_mod_cast h

theorem roundDoublePositive_pos {x : ℚ} (hx : 0 < x) : 0 < roundDoublePositive x :=
  lt_of_lt_of_le (two_zpow_pos _) (roundDoublePositive_bounds hx).1

theorem roundDoublePositive_mono {x y : ℚ} (hx : 0 < x) (h : x ≤ y) :
    roundDoublePositive x ≤ roundDoublePositive y := by
  have hy : 0 < y := lt_of_lt_of_le hx h
  have hlog : Int.log 2 x ≤ Int.log 2 y := Int.log_mono_right hx h
  rcases lt_or_eq_of_le hlog with hlt | heq
  · calc roundDoublePositive x ≤ (2 : ℚ) ^ (Int.log 2 x + 1) := (roundDoublePositive_bounds hx).2
      _ ≤ (2 : ℚ) ^ Int.log 2 y := zpow_le_zpow_right₀ (by norm_num) (by omega)
      _ ≤ roundDoublePositive y := (roundDoublePositive_bounds hy).1
  · unfold roundDoublePositive
    rw [← heq]
    have hu := two_zpow_pos (Int.log 2 x - 52)
    apply mul_le_mul_of_nonneg_right _ (le_of_lt hu)
    have := roundHalfEven_mono (div_le_div_of_nonneg_right h (le_of_lt hu))
    exact_mod_cast this

/-- Rounding to `double` is monotone. -/
theorem roundDouble_mono {x y : ℚ} (h : x ≤ y) : roundDouble x ≤ roundDouble y := by
  unfold roundDouble
  by_cases hx : 0 < x
  · have hy : 0 < y := lt_of_lt_of_le hx h
    rw [if_pos hx, if_pos hy]
    exact roundDoublePositive_mono hx h
  · rw [if_neg hx]
    by_cases hx2 : x < 0
    · rw [if_pos hx2]
      have hneg : -roundDoublePositive (-x) < 0 :=
        neg_neg_of_pos (roundDoublePositive_pos (by linarith))
      by_cases hy : 0 < y
      · rw [if_pos hy]
        exact le_of_lt (lt_trans hneg (roundDoublePositive_pos hy))
      · rw [if_neg hy]
        by_cases hy2 : y < 0
        · rw [if_pos hy2]
          exact neg_le_neg (roundDoublePositive_mono (by linarith) (by linarith))
        · rw [if_neg hy2]
          exact le_of_lt hneg
    · rw [if_neg hx2]
      have hx0 : x = 0 := le_antisymm (not_lt.mp hx) (not_lt.mp hx2)
      by_cases hy : 0 < y
      · rw [if_pos hy]
        exact le_of_lt (roundDoublePositive_pos hy)
      · rw [if_neg hy, if_neg (by linarith)]

/-- A positive multiple `m / 2^j` of a power of two with `m < 2^53` is a `double`: rounding
leaves it as it is. -/
theorem roundDoublePositive_exact (m j : Nat) (hm0 : 0 < m) (hm : m < 2 ^ 53) :
    roundDoublePositive ((m : ℚ) / (2 : ℚ) ^ j) = (m : ℚ) / (2 : ℚ) ^ j := by
  have h2 : (2 : ℚ) ≠ 0 := by norm_num
  have hpj : (0 : ℚ) < (2 : ℚ) ^ j := pow_pos (by norm_num) j
  have hx : (0 : ℚ) < (m : ℚ) / (2 : ℚ) ^ j := div_pos (by exact_mod_cast hm0) hpj
  have hlt : (m : ℚ) / (2 : ℚ) ^ j < ((2 : ℕ) : ℚ) ^ ((53 : Int) - (j : Int)) := by
    rw [zpow_sub₀ (by norm_num), zpow_natCast]
    apply div_lt_div_of_pos_right _ hpj
    have h53 : ((2 : ℕ) : ℚ) ^ (53 : Int) = ((2 ^ 53 : ℕ) : ℚ) := by norm_num
    rw [h53]
    exact_mod_cast hm
  have hlog : Int.log 2 ((m : ℚ) / (2 : ℚ) ^ j) < (53 : Int) - (j : Int) :=
    (Int.lt_zpow_iff_log_lt (by norm_num) hx).1 hlt
  obtain ⟨c, hc⟩ : ∃ c : Nat, (c : Int) = 52 - (j : Int) - Int.log 2 ((m : ℚ) / (2 : ℚ) ^ j) :=
    ⟨(52 - (j : Int) - Int.log 2 ((m : ℚ) / (2 : ℚ) ^ j)).toNat, Int.toNat_of_nonneg (by omega)⟩
  have hu : (2 : ℚ) ^ (Int.log 2 ((m : ℚ) / (2 : ℚ) ^ j) - 52) =
      1 / ((2 : ℚ) ^ j * (2 : ℚ) ^ c) := by
    have e : Int.log 2 ((m : ℚ) / (2 : ℚ) ^ j) - 52 = -((j : Int) + (c : Int)) := by omega
    rw [e, zpow_neg, zpow_add₀ h2, zpow_natCast, zpow_natCast, one_div]
  unfold roundDoublePositive
  rw [hu]
  have hpc : (0 : ℚ) < (2 : ℚ) ^ c := pow_pos (by norm_num) c
  have hq : (m : ℚ) / (2 : ℚ) ^ j / (1 / ((2 : ℚ) ^ j * (2 : ℚ) ^ c)) =
      (((m * 2 ^ c : Nat) : Int) : ℚ) := by
    push_cast
    field_simp
    ring
  rw [hq, roundHalfEven_intCast]
  push_cast
  field_simp
  ring

/-- A multiple `m / 2^j` of a power of two with `|m| < 2^53` is a `double`. -/
theorem roundDouble_exact (m : Int) (j : Nat) (hlo : -(2 ^ 53) < m) (hhi : m < 2 ^ 53) :
    roundDouble ((m : ℚ) / (2 : ℚ) ^ j) = (m : ℚ) / (2 : ℚ) ^ j := by
  have hpj : (0 : ℚ) < (2 : ℚ) ^ j := pow_pos (by norm_num) j
  unfold roundDouble
  rcases lt_trichotomy m 0 with hneg | hzero | hpos
  · have hx : (m : ℚ) / (2 : ℚ) ^ j < 0 := div_neg_of_neg_of_pos (by exact_mod_cast hneg) hpj
    rw [if_neg (by linarith), if_pos hx]
    have e : -((m : ℚ) / (2 : ℚ) ^ j) = (((-m).toNat : Nat) : ℚ) / (2 : ℚ) ^ j := by
      have : (((-m).toNat : Nat) : Int) = -m := Int.toNat_of_nonneg (by omega)
      have h3 : (((-m).toNat : Nat) : ℚ) = -(m : ℚ) := by exact_mod_cast this
      rw [h3, neg_div]
    rw [e, roundDoublePositive_exact _ _ (by omega) (by omega), ← e, neg_neg]
  · subst hzero
    simp
  · have hx : 0 < (m : ℚ) / (2 : ℚ) ^ j := div_pos (by exact_mod_cast hpos) hpj
    rw [if_pos hx]
    have e : (m : ℚ) / (2 : ℚ) ^ j = ((m.toNat : Nat) : ℚ) / (2 : ℚ) ^ j := by
      have : ((m.toNat : Nat) : Int) = m := Int.toNat_of_nonneg (by omega)
      have h3 : ((m.toNat : Nat) : ℚ) = (m : ℚ) := by exact_mod_cast this
      rw [h3]
    rw [e, roundDoublePositive_exact _ _ (by omega) (by omega)]

theorem roundDouble_int (m : Int) (hlo : -(2 ^ 53) < m) (hhi : m < 2 ^ 53) :
    roundDouble (m : ℚ) = (m : ℚ) := by
  have := roundDouble_exact m 0 hlo hhi
  simpa using this

/-- A number that is at most a `double` is rounded to at most this `double`. -/
theorem roundDouble_le (x : ℚ) (m : Int) (j : Nat) (hlo : -(2 ^ 53) < m) (hhi : m < 2 ^ 53)
    (h : x ≤ (m : ℚ) / (2 : ℚ) ^ j) : roundDouble x ≤ (m : ℚ) / (2 : ℚ) ^ j := by
  have := roundDouble_mono h
  rwa [roundDouble_exact m j hlo hhi] at this

/-- A number that is at least a `double` is rounded to at least this `double`. -/
theorem le_roundDouble (x : ℚ) (m : Int) (j : Nat) (hlo : -(2 ^ 53) < m) (hhi : m < 2 ^ 53)
    (h : (m : ℚ) / (2 : ℚ) ^ j ≤ x) : (m : ℚ) / (2 : ℚ) ^ j ≤ roundDouble x := by
  have := roundDouble_mono h
  rwa [roundDouble_exact m j hlo hhi] at this

/-! ## Rule 4 -/

theorem roundDouble_le_int (x : ℚ) (m : Int) (hlo : -(2 ^ 53) < m) (hhi : m < 2 ^ 53)
    (h : x ≤ (m : ℚ)) : roundDouble x ≤ (m : ℚ) := by
  have := roundDouble_mono h
  rwa [roundDouble_int m hlo hhi] at this

theorem le_roundDouble_int (x : ℚ) (m : Int) (hlo : -(2 ^ 53) < m) (hhi : m < 2 ^ 53)
    (h : (m : ℚ) ≤ x) : (m : ℚ) ≤ roundDouble x := by
  have := roundDouble_mono h
  rwa [roundDouble_int m hlo hhi] at this

/-- Just below an integer `B` of moderate size lies the `double` `B - 2^-j`. -/
theorem roundDouble_le_sub (x : ℚ) (B : Int) (j : Nat) (hlo : -(2 ^ 53) < B * 2 ^ j - 1)
    (hhi : B * 2 ^ j - 1 < 2 ^ 53) (h : x ≤ (B : ℚ) - 1 / (2 : ℚ) ^ j) :
    roundDouble x ≤ (B : ℚ) - 1 / (2 : ℚ) ^ j := by
  have hpj : (0 : ℚ) < (2 : ℚ) ^ j := pow_pos (by norm_num) j
  have e : (B : ℚ) - 1 / (2 : ℚ) ^ j = ((B * 2 ^ j - 1 : Int) : ℚ) / (2 : ℚ) ^ j := by
    push_cast
    field_simp
  rw [e] at h ⊢
  exact roundDouble_le x _ j hlo hhi h

/-- Just above an integer `B` of moderate size lies the `double` `B + 2^-j`. -/
theorem le_roundDouble_add (x : ℚ) (B : Int) (j : Nat) (hlo : -(2 ^ 53) < B * 2 ^ j + 1)
    (hhi : B * 2 ^ j + 1 < 2 ^ 53) (h : (B : ℚ) + 1 / (2 : ℚ) ^ j ≤ x) :
    (B : ℚ) + 1 / (2 : ℚ) ^ j ≤ roundDouble x := by
  have hpj : (0 : ℚ) < (2 : ℚ) ^ j := pow_pos (by norm_num) j
  have e : (B : ℚ) + 1 / (2 : ℚ) ^ j = ((B * 2 ^ j + 1 : Int) : ℚ) / (2 : ℚ) ^ j := by
    push_cast
    field_simp
  rw [e] at h ⊢
  exact le_roundDouble x _ j hlo hhi h

/-- A percentage `t = 100 * d / n` with `n ≤ 2^31` that is below an integer `B` is below
it by at least `2^-31`. -/
theorem percentage_gap_lt (d n : Nat) (hn : 1 ≤ n) (hn2 : n ≤ 2 ^ 31) (B : Int)
    (h : (d : ℚ) * 100 / (n : ℚ) < (B : ℚ)) :
    (d : ℚ) * 100 / (n : ℚ) ≤ (B : ℚ) - 1 / (2 : ℚ) ^ 31 := by
  have hnq : (0 : ℚ) < (n : ℚ) := by exact_mod_cast hn
  have hn31 : (n : ℚ) ≤ (2 : ℚ) ^ 31 := by exact_mod_cast hn2
  have h1 : (d : ℚ) * 100 < (B : ℚ) * (n : ℚ) := by rwa [div_lt_iff₀ hnq] at h
  have h2 : (d : Int) * 100 < B * (n : Int) := by exact_mod_cast h1
  have h3 : (d : Int) * 100 + 1 ≤ B * (n : Int) := Int.add_one_le_iff.mpr h2
  have h4 : (d : ℚ) * 100 + 1 ≤ (B : ℚ) * (n : ℚ) := by exact_mod_cast h3
  have h6 : 1 / (2 : ℚ) ^ 31 ≤ 1 / (n : ℚ) := one_div_le_one_div_of_le hnq hn31
  have h7 : (d : ℚ) * 100 / (n : ℚ) + 1 / (n : ℚ) ≤ (B : ℚ) := by
    rw [← add_div, div_le_iff₀ hnq]
    exact h4
  linarith

/-- A percentage `t = 100 * d / n` with `n ≤ 2^31` that is above an integer `B` is above
it by at least `2^-31`. -/
theorem percentage_gap_gt (d n : Nat) (hn : 1 ≤ n) (hn2 : n ≤ 2 ^ 31) (B : Int)
    (h : (B : ℚ) < (d : ℚ) * 100 / (n : ℚ)) :
    (B : ℚ) + 1 / (2 : ℚ) ^ 31 ≤ (d : ℚ) * 100 / (n : ℚ) := by
  have hnq : (0 : ℚ) < (n : ℚ) := by exact_mod_cast hn
  have hn31 : (n : ℚ) ≤ (2 : ℚ) ^ 31 := by exact_mod_cast hn2
  have h1 : (B : ℚ) * (n : ℚ) < (d : ℚ) * 100 := by rwa [lt_div_iff₀ hnq] at h
  have h2 : B * (n : Int) < (d : Int) * 100 := by exact_mod_cast h1
  have h3 : B * (n : Int) + 1 ≤ (d : Int) * 100 := Int.add_one_le_iff.mpr h2
  have h4 : (B : ℚ) * (n : ℚ) + 1 ≤ (d : ℚ) * 100 := by exact_mod_cast h3
  have h6 : 1 / (2 : ℚ) ^ 31 ≤ 1 / (n : ℚ) := one_div_le_one_div_of_le hnq hn31
  have h7 : (B : ℚ) + 1 / (n : ℚ) ≤ (d : ℚ) * 100 / (n : ℚ) := by
    rw [le_div_iff₀ hnq, add_mul, one_div, inv_mul_cancel₀ (ne_of_gt hnq)]
    exact h4
  linarith

/-- The deviation computed in `double` lies in the same interval `[5k, 5k + 5)` as the
exact deviation, and stays `2^-31` away from its upper end. -/
theorem rule4_deviation (d n : Nat) (hn : 1 ≤ n) (hn2 : n ≤ 2 ^ 31) (hd : d ≤ n) (k : Int)
    (hk1 : (k : ℚ) ≤ |(d : ℚ) * 100 / (n : ℚ) - 50| / 5)
    (hk2 : |(d : ℚ) * 100 / (n : ℚ) - 50| / 5 < (k : ℚ) + 1) (hk0 : 0 ≤ k) (hk10 : k ≤ 10) :
    ((5 * k : Int) : ℚ) ≤ |roundDouble (roundDouble ((d : ℚ) * 100 / (n : ℚ)) - 50)| ∧
      |roundDouble (roundDouble ((d : ℚ) * 100 / (n : ℚ)) - 50)| ≤
        ((5 * k + 5 : Int) : ℚ) - 1 / (2 : ℚ) ^ 31 := by
  have _ := hd
  have glt := percentage_gap_lt d n hn hn2
  have ggt := percentage_gap_gt d n hn hn2
  generalize (d : ℚ) * 100 / (n : ℚ) = t at hk1 hk2 glt ggt ⊢
  by_cases h50 : 50 ≤ t
  · rw [abs_of_nonneg (by linarith)] at hk1 hk2
    have pl : ((50 + 5 * k : Int) : ℚ) ≤ roundDouble t :=
      le_roundDouble_int t _ (by omega) (by omega) (by push_cast; linarith)
    have pu : roundDouble t ≤ ((55 + 5 * k : Int) : ℚ) - 1 / (2 : ℚ) ^ 31 :=
      roundDouble_le_sub t _ 31 (by omega) (by omega)
        (glt _ (by push_cast; linarith))
    have sl : ((5 * k : Int) : ℚ) ≤ roundDouble (roundDouble t - 50) :=
      le_roundDouble_int _ _ (by omega) (by omega) (by push_cast at pl ⊢; linarith)
    have su : roundDouble (roundDouble t - 50) ≤ ((5 * k + 5 : Int) : ℚ) - 1 / (2 : ℚ) ^ 31 :=
      roundDouble_le_sub _ _ 31 (by omega) (by omega) (by push_cast at pu ⊢; linarith)
    have hs0 : 0 ≤ roundDouble (roundDouble t - 50) := by
      have : (0 : ℚ) ≤ ((5 * k : Int) : ℚ) := by exact_mod_cast (by omega : 0 ≤ 5 * k)
      linarith
    rw [abs_of_nonneg hs0]
    exact ⟨sl, su⟩
  · have h50 : t < 50 := not_le.mp h50
    rw [abs_of_neg (by linarith)] at hk1 hk2
    have pu : roundDouble t ≤ ((50 - 5 * k : Int) : ℚ) :=
      roundDouble_le_int t _ (by omega) (by omega) (by push_cast; linarith)
    have pl : ((45 - 5 * k : Int) : ℚ) + 1 / (2 : ℚ) ^ 31 ≤ roundDouble t :=
      le_roundDouble_add t _ 31 (by omega) (by omega)
        (ggt _ (by push_cast; linarith))
    have su : roundDouble (roundDouble t - 50) ≤ ((-(5 * k) : Int) : ℚ) :=
      roundDouble_le_int _ _ (by omega) (by omega) (by push_cast at pu ⊢; linarith)
    have sl : ((-(5 * k + 5) : Int) : ℚ) + 1 / (2 : ℚ) ^ 31 ≤
        roundDouble (roundDouble t - 50) :=
      le_roundDouble_add _ _ 31 (by omega) (by omega) (by push_cast at pl ⊢; linarith)
    have hs0 : roundDouble (roundDouble t - 50) ≤ 0 := by
      have : ((-(5 * k) : Int) : ℚ) ≤ 0 := by exact_mod_cast (by omega : -(5 * k) ≤ 0)
      linarith
    rw [abs_of_nonpos hs0]
    push_cast at su sl ⊢
    constructor <;> linarith

/-- The quotient `deviation / 5` computed in `double` and truncated is the floor of the
exact quotient. -/
theorem rule4_quotient (d n : Nat) (hn : 1 ≤ n) (hn2 : n ≤ 2 ^ 31) (hd : d ≤ n) :
    truncateToInt (roundDouble (|roundDouble (roundDouble
        (roundDouble ((d : ℚ) * 100) / (n : ℚ)) - 50)| / 5)) =
      ⌊|100 * (d : ℚ) / (n : ℚ) - 50| / 5⌋ := by
  have hnq : (0 : ℚ) < (n : ℚ) := by exact_mod_cast hn
  have hdn : (d : ℚ) ≤ (n : ℚ) := by exact_mod_cast hd
  have hd0 : (0 : ℚ) ≤ (d : ℚ) := by exact_mod_cast Nat.zero_le d
  have e1 : roundDouble ((d : ℚ) * 100) = (d : ℚ) * 100 := by
    have := roundDouble_int ((d : Int) * 100) (by omega) (by omega)
    push_cast at this
    exact this
  have e2 : 100 * (d : ℚ) / (n : ℚ) = (d : ℚ) * 100 / (n : ℚ) := by ring
  rw [e1, e2]
  have ht0 : 0 ≤ (d : ℚ) * 100 / (n : ℚ) := div_nonneg (by linarith) (le_of_lt hnq)
  have ht100 : (d : ℚ) * 100 / (n : ℚ) ≤ 100 := by
    rw [div_le_iff₀ hnq]
    linarith
  have habs : |(d : ℚ) * 100 / (n : ℚ) - 50| ≤ 50 := abs_le.2 ⟨by linarith, by linarith⟩
  have hk1 := Int.floor_le (|(d : ℚ) * 100 / (n : ℚ) - 50| / 5)
  have hk2 := Int.lt_floor_add_one (|(d : ℚ) * 100 / (n : ℚ) - 50| / 5)
  have hk0 : 0 ≤ ⌊|(d : ℚ) * 100 / (n : ℚ) - 50| / 5⌋ :=
    Int.floor_nonneg.2 (div_nonneg (abs_nonneg _) (by norm_num))
  have hk10 : ⌊|(d : ℚ) * 100 / (n : ℚ) - 50| / 5⌋ ≤ 10 := by
    have : ((⌊|(d : ℚ) * 100 / (n : ℚ) - 50| / 5⌋ : Int) : ℚ) ≤ ((10 : Int) : ℚ) := by
      push_cast
      linarith
    exact_mod_cast this
  obtain ⟨wl, wu⟩ := rule4_deviation d n hn hn2 hd _ hk1 hk2 hk0 hk10
  generalize ⌊|(d : ℚ) * 100 / (n : ℚ) - 50| / 5⌋ = k at hk0 hk10 wl wu ⊢
  generalize |roundDouble (roundDouble ((d : ℚ) * 100 / (n : ℚ)) - 50)| = w at wl wu ⊢
  push_cast at wl wu
  have ql : (k : ℚ) ≤ roundDouble (w / 5) :=
    le_roundDouble_int _ _ (by omega) (by omega) (by linarith)
  have qu : roundDouble (w / 5) ≤ ((k + 1 : Int) : ℚ) - 1 / (2 : ℚ) ^ 34 :=
    roundDouble_le_sub _ _ 34 (by omega) (by omega) (by
      push_cast
      have e34 : (1 : ℚ) / (2 : ℚ) ^ 34 ≤ 1 / (2 : ℚ) ^ 31 / 5 := by norm_num
      linarith)
  have hq0 : 0 ≤ roundDouble (w / 5) := by
    have : (0 : ℚ) ≤ (k : ℚ) := by exact_mod_cast hk0
    linarith
  unfold truncateToInt
  rw [if_pos hq0, Int.floor_eq_iff]
  refine ⟨ql, ?_⟩
  have : (0 : ℚ) < 1 / (2 : ℚ) ^ 34 := by norm_num
  push_cast at qu
  linarith

/-- The two loops of `evaluateRule4` count the dark modules of a `size` x `size` grid. -/
theorem rule4DarkCount_eq (grid : List (List Bool)) (size : Nat)
    (hrows : grid.length = size) (hcols : ∀ row ∈ grid, row.length = size) :
    rule4DarkCount grid size = (darkModules grid : Int) := by
  unfold rule4DarkCount darkModules
  have hinner : (fun (darkCount : Int) (row : Nat) =>
      (List.range size).foldl
        (fun darkCount col => if moduleAt grid row col then darkCount + 1 else darkCount)
        darkCount) =
      (fun darkCount row => darkCount +
        ((((List.range size).filter (fun col => moduleAt grid row col)).length : Nat) : Int)) := by
    funext darkCount row
    rw [foldl_count_eq (fun col => moduleAt grid row col) 1, Int.one_mul]
  rw [hinner, foldl_add_eq_sum, Int.zero_add]
  have hg : grid = (List.range size).map (fun row => grid.getD row []) := by
    apply List.ext_getElem
    · simp [hrows]
    · intro i h1 h2
      simp [List.getD_eq_getElem?_getD, List.getElem?_eq_getElem h1]
  conv_rhs => rw [hg]
  rw [List.map_map]
  have hsum : ∀ (f : Nat → Nat) (l : List Nat),
      (l.map (fun k => ((f k : Nat) : Int))).sum = (((l.map f).sum : Nat) : Int) := by
    intro f l
    induction l with
    | nil => rfl
    | cons a l ih =>
      rw [List.map_cons, List.sum_cons, ih, List.map_cons, List.sum_cons]
      push_cast
      rfl
  rw [hsum]
  congr 2
  apply List.map_congr_left
  intro row hrow
  rw [List.mem_range] at hrow
  have hlen : (grid.getD row []).length = size := by
    apply hcols
    rw [List.getD_eq_getElem?_getD, List.getElem?_eq_getElem (by omega)]
    exact List.getElem_mem _
  have hrow2 := range_map_getD (grid.getD row [])
  rw [hlen] at hrow2
  simp only [Function.comp]
  conv_rhs => rw [← hrow2]
  rw [List.count, List.countP_eq_length_filter, List.filter_map, List.length_map]
  congr 1
  apply List.filter_congr
  intro col _
  simp [moduleAt]

theorem count_true_le_length (row : List Bool) : row.count true ≤ row.length :=
  List.count_le_length true row

/-- A `size` x `size` grid has at most `size * size` dark modules. -/
theorem darkModules_le (grid : List (List Bool)) (size : Nat)
    (hrows : grid.length = size) (hcols : ∀ row ∈ grid, row.length = size) :
    darkModules grid ≤ size * size := by
  unfold darkModules
  subst hrows
  induction grid with
  | nil => simp
  | cons row rest ih =>
    have hrow : row.length = (row :: rest).length := hcols row (List.mem_cons_self _ _)
    have hsum : ∀ (l : List (List Bool)) (n : Nat), (∀ r ∈ l, r.length = n) →
        (l.map (fun r => r.count true)).sum ≤ l.length * n := by
      intro l n hl
      induction l with
      | nil => simp
      | cons r l ihl =>
        rw [List.map_cons, List.sum_cons, List.length_cons, Nat.succ_mul]
        have h1 := ihl (fun r hr => hl r (List.mem_cons_of_mem _ hr))
        have h2 := count_true_le_length r
        have h3 := hl r (List.mem_cons_self _ _)
        omega
    exact hsum (row :: rest) _ hcols

/-- The function `evaluateRule4` computes in `double` the penalty that exact rational
arithmetic gives. -/
theorem evaluateRule4_eq_spec (grid : List (List Bool)) (size : Nat) (hsize : 1 ≤ size)
    (hint : ((size * size : Nat) : Int) ≤ INT_MAX)
    (hrows : grid.length = size) (hcols : ∀ row ∈ grid, row.length = size) :
    evaluateRule4 grid size = rule4Spec (darkModules grid) (size * size) := by
  have hn : 1 ≤ size * size := Nat.mul_pos hsize hsize
  have hn2 : size * size ≤ 2 ^ 31 := by
    unfold INT_MAX at hint
    omega
  have hd := darkModules_le grid size hrows hcols
  have h := rule4_quotient (darkModules grid) (size * size) hn hn2 hd
  unfold evaluateRule4 rule4Spec
  simp only []
  rw [rule4DarkCount_eq grid size hrows hcols]
  unfold OPTIMAL_DARK_PERCENTAGE RULE4_DEVIATION_STEP RULE4_PENALTY_STEP
  push_cast at h ⊢
  rw [h]

theorem rule4Spec_half (d n : Nat) (hn : 1 ≤ n) (h : 2 * d = n) : rule4Spec d n = 0 := by
  have hnq : (0 : ℚ) < (n : ℚ) := by exact_mod_cast hn
  have e : 100 * (d : ℚ) / (n : ℚ) = 50 := by
    have h2 : (n : ℚ) = 2 * (d : ℚ) := by exact_mod_cast h.symm
    rw [div_eq_iff (ne_of_gt hnq), h2]
    ring
  unfold rule4Spec
  rw [e]
  norm_num

theorem rule4Spec_all (n : Nat) (hn : 1 ≤ n) : rule4Spec n n = 100 := by
  have hnq : (0 : ℚ) < (n : ℚ) := by exact_mod_cast hn
  have e : 100 * (n : ℚ) / (n : ℚ) = 100 := by
    rw [div_eq_iff (ne_of_gt hnq)]
  unfold rule4Spec
  rw [e]
  norm_num

theorem rule4Spec_none (n : Nat) : rule4Spec 0 n = 100 := by
  unfold rule4Spec
  norm_num

/-! ## `addErrorCorrection` -/

/-- For a version in `1..15` the table entry read by `addErrorCorrection` is the entry of
the version and level, and the result is that of `encode` with its `eccPerBlock`. -/
theorem addErrorCorrection_eq (data : List Nat) (version : Int) (level : String)
    (h1 : 1 ≤ version) (h15 : version ≤ 15) :
    QRErrorCorrection.addErrorCorrection data version level =
      ReedSolomonEncoder.encode data (eccParamsSpec version level).eccPerBlock := by
  unfold QRErrorCorrection.addErrorCorrection eccParamsSpec
  rw [if_neg (by omega)]
  have e : (version - 1).toNat = version.toNat - 1 := by omega
  simp only [e]

theorem addErrorCorrection_unsupported (data : List Nat) (version : Int) (level : String)
    (h : version < 1 ∨ version > 15) :
    QRErrorCorrection.addErrorCorrection data version level =
      .error (.runtimeError "Unsupported QR version") := by
  unfold QRErrorCorrection.addErrorCorrection
  rw [if_pos h]

/-! ## The generator polynomial as a product -/

theorem rootProductSpec_succ (start x first count : Nat) :
    rootProductSpec start x first (count + 1) =
      rootProductSpec
        (GaloisField.initTables.multiply start (x ^^^ GaloisField.initTables.power 2 first))
        x (first + 1) count := by
  unfold rootProductSpec
  rw [List.range'_succ, List.foldl_cons]

/-- The value at `x` of the polynomial built by the loop of `generatePolynomial` is the
value of the polynomial it starts from times the factors `x - α^j` of its iterations. -/
theorem generateLoop_eval (n : Nat) :
    ∀ (i : Nat) (g : List Nat) (x : Nat), Bytes g → x < 256 →
      polyEval (ReedSolomonEncoder.generateLoop n i (1 :: g)) x =
        rootProductSpec (polyEval (1 :: g) x) x i n := by
  induction n with
  | zero =>
    intro i g x _ _
    rfl
  | succ n ih =>
    intro i g x hg hx
    unfold ReedSolomonEncoder.generateLoop
    have hp := power_two_lt i
    have hmul := multiplyPolynomials_linear (1 :: g) (ReedSolomonEncoder.gf.power 2 i)
    have hhead : scaleShift (ReedSolomonEncoder.gf.power 2 i) 0 (1 :: g) =
        1 :: scaleShift (ReedSolomonEncoder.gf.power 2 i)
          (GaloisField.initTables.multiply 1 (ReedSolomonEncoder.gf.power 2 i)) g := by
      rw [scaleShift, multiply_one_left (by omega), Nat.zero_xor]
    rw [hmul, hhead,
      ih (i + 1) _ x (scaleShift_bytes (ReedSolomonEncoder.gf.power 2 i) g _ (multiply_lt _ _)) hx,
      ← hhead, ← hmul,
      polyEval_multiplyPolynomials_linear _ _ _ (Bytes_cons.2 ⟨by omega, hg⟩) hp hx,
      rootProductSpec_succ]
    rfl

theorem polyEval_one (x : Nat) : polyEval [1] x = 1 := by
  unfold polyEval
  rw [horner_cons, horner_nil, multiply_zero_left]
  rfl

/-- The value of `generatePolynomial(n)` at `x` is the product of `x - α^j`, `j < n`. -/
theorem generatePolynomial_eval (n x : Nat) (hx : x < 256) :
    polyEval (ReedSolomonEncoder.generatePolynomial n) x = rootProductSpec 1 x 0 n := by
  unfold ReedSolomonEncoder.generatePolynomial
  rw [generateLoop_eval n 0 [] x Bytes_nil hx, polyEval_one]

/-- The loop of `generatePolynomial` with one more iteration multiplies its result by the
factor of the last iteration. -/
theorem generateLoop_succ_last (n : Nat) :
    ∀ (i : Nat) (g : List Nat),
      ReedSolomonEncoder.generateLoop (n + 1) i g =
        ReedSolomonEncoder.multiplyPolynomials (ReedSolomonEncoder.generateLoop n i g)
          [1, ReedSolomonEncoder.gf.power 2 (i + n)] := by
  induction n with
  | zero => intro i g; rfl
  | succ n ih =>
    intro i g
    rw [ReedSolomonEncoder.generateLoop, ih (i + 1), ReedSolomonEncoder.generateLoop,
      Nat.add_right_comm i 1 n, Nat.add_assoc i n 1]

/-! ## `power` as a repeated product -/

theorem power_eq (base exp : Nat) :
    GaloisField.initTables.power base exp =
      if base = 0 then 0
      else if exp = 0 then 1
      else expTableValues.getD ((logTableValues.getD base 0 * exp) % 255) 0 := by
  unfold GaloisField.power
  rw [initTables_eq]
  rfl

/-- For a non-zero byte, `power(base, e + 1) = multiply(base, power(base, e))`. -/
theorem power_succ (base e : Nat) (h0 : base ≠ 0) (hb : base < 256) :
    GaloisField.initTables.power base (e + 1) =
      GaloisField.initTables.multiply base (GaloisField.initTables.power base e) := by
  rw [power_eq, power_eq, if_neg h0, if_neg h0, if_neg (by omega)]
  by_cases he : e = 0
  · subst he
    rw [if_pos rfl, multiply_one_right hb, Nat.zero_add, Nat.mul_one,
      Nat.mod_eq_of_lt (log_lt hb), exp_log hb h0]
  · rw [if_neg he]
    have hk : (logTableValues.getD base 0 * e) % 255 < 255 := Nat.mod_lt _ (by omega)
    rw [multiply_eq, if_neg (fun h => h.elim h0 (exp_ne_zero hk)), log_exp hk]
    congr 1
    rw [Nat.mul_succ, Nat.add_comm, Nat.add_mod_mod]

/-- For a non-zero byte, `power` is the repeated product. -/
theorem power_eq_repeatedProduct (base e : Nat) (h0 : base ≠ 0) (hb : base < 256) :
    GaloisField.initTables.power base e = repeatedProductSpec base e := by
  induction e with
  | zero =>
    rw [power_eq, if_neg h0, if_pos rfl]
    rfl
  | succ e ih =>
    rw [power_succ base e h0 hb, ih]
    rfl

/-! ## The table-based product and the naive product -/

theorem shiftLeft_xor (b c i : Nat) : (b ^^^ c) <<< i = (b <<< i) ^^^ (c <<< i) := by
  apply Nat.eq_of_testBit_eq
  intro j
  simp only [Nat.testBit_xor, Nat.testBit_shiftLeft]
  cases decide (j ≥ i) <;> simp

theorem carryless_fold_xor (a c b : Nat) (l : List Nat) :
    ∀ (u v : Nat),
      l.foldl (fun acc i => if b.testBit i then acc ^^^ ((a ^^^ c) <<< i) else acc) (u ^^^ v) =
        l.foldl (fun acc i => if b.testBit i then acc ^^^ (a <<< i) else acc) u ^^^
          l.foldl (fun acc i => if b.testBit i then acc ^^^ (c <<< i) else acc) v := by
  induction l with
  | nil => intro u v; rfl
  | cons i l ih =>
    intro u v
    simp only [List.foldl_cons]
    by_cases h : b.testBit i
    · simp only [h, if_true]
      rw [← ih, shiftLeft_xor]
      congr 1
      ac_rfl
    · simp only [h, Bool.false_eq_true, if_false]
      exact ih u v

/-- The carry-less product is linear in its first operand. -/
theorem carrylessProduct_xor_left (a c b : Nat) :
    carrylessProduct (a ^^^ c) b = carrylessProduct a b ^^^ carrylessProduct c b := by
  unfold carrylessProduct
  have h := carryless_fold_xor a c b (List.range 8) 0 0
  rwa [Nat.xor_self] at h

theorem reduceStep_xor (x y i : Nat) :
    reduceStep (x ^^^ y) i = reduceStep x i ^^^ reduceStep y i := by
  unfold reduceStep
  rw [Nat.testBit_xor]
  cases x.testBit i <;> cases y.testBit i <;>
    simp only [Bool.xor_false, Bool.xor_true, Bool.not_true, Bool.not_false, Bool.false_eq_true,
      if_true, if_false]
  · ac_rfl
  · ac_rfl
  · rw [show x ^^^ 0x11D <<< (i - 8) ^^^ (y ^^^ 0x11D <<< (i - 8)) =
        x ^^^ y ^^^ (0x11D <<< (i - 8) ^^^ 0x11D <<< (i - 8)) by ac_rfl, Nat.xor_self,
      Nat.xor_zero]

/-- The reduction modulo the primitive polynomial is linear. -/
theorem reducePrimitive_xor (x y : Nat) :
    reducePrimitive (x ^^^ y) = reducePrimitive x ^^^ reducePrimitive y := by
  unfold reducePrimitive
  simp only [List.foldl_cons, List.foldl_nil, reduceStep_xor]

/-- The naive product is linear in its first operand. -/
theorem naiveProduct_xor_left (a c b : Nat) :
    naiveProduct (a ^^^ c) b = naiveProduct a b ^^^ naiveProduct c b := by
  unfold naiveProduct
  rw [carrylessProduct_xor_left, reducePrimitive_xor]

set_option maxRecDepth 100000 in
/-- On the powers of two the tables give the naive product. -/
theorem naiveProduct_basis : ∀ k < 8, ∀ b < 256,
    (if 2 ^ k = 0 ∨ b = 0 then 0
      else expTableValues.getD
        ((logTableValues.getD (2 ^ k) 0 + logTableValues.getD b 0) % 255) 0) =
      naiveProduct (2 ^ k) b := by
  decide!

set_option maxRecDepth 100000 in
theorem naiveProduct_zero_left : ∀ b < 256, naiveProduct 0 b = 0 := by
  decide!

set_option maxRecDepth 100000 in
theorem split_top_bit : ∀ k < 8, ∀ a < 256, 2 ^ k ≤ a → a < 2 ^ (k + 1) →
    (a - 2 ^ k) ^^^ 2 ^ k = a ∧ a - 2 ^ k < 2 ^ k := by
  decide!

theorem multiply_eq_naive_below (k : Nat) (hk : k ≤ 8) :
    ∀ a, a < 2 ^ k → ∀ b, b < 256 →
      GaloisField.initTables.multiply a b = naiveProduct a b := by
  induction k with
  | zero =>
    intro a ha b hb
    have h0 : a = 0 := by simpa using ha
    subst h0
    rw [multiply_zero_left, naiveProduct_zero_left b hb]
  | succ k ih =>
    intro a ha b hb
    have hk8 : k < 8 := by omega
    have hpow : 2 ^ k < 256 := by
      have : 2 ^ k < 2 ^ 8 := Nat.pow_lt_pow_right (by omega) hk8
      simpa using this
    by_cases hlt : a < 2 ^ k
    · exact ih (by omega) a hlt b hb
    · have ha256 : a < 256 := by
        have : 2 ^ (k + 1) ≤ 2 ^ 8 := Nat.pow_le_pow_right (by omega) (by omega)
        have h8 : (2 : Nat) ^ 8 = 256 := by decide
        omega
      obtain ⟨hsplit, hrest⟩ := split_top_bit k hk8 a ha256 (by omega) ha
      have hbasis := naiveProduct_basis k hk8 b hb
      rw [← multiply_eq] at hbasis
      rw [← hsplit, multiply_xor_left (by omega) hpow hb, naiveProduct_xor_left,
        ih (by omega) _ hrest b hb, hbasis]

/-- The table-based product is the naive product. -/
theorem multiply_eq_naive (a b : Nat) (ha : a < 256) (hb : b < 256) :
    GaloisField.initTables.multiply a b = naiveProduct a b :=
  multiply_eq_naive_below 8 (Nat.le_refl 8) a (by simpa using ha) b hb

/-! ## The failures of `encodeToBytes` -/

theorem stoi_error (str : List Char) (e : Error) (h : stoi str = .error e) :
    e = .invalidArgument := by
  unfold stoi at h
  simp only [] at h
  split_ifs at h <;> exact (Except.error.inj h).symm

theorem encodeNumericLoop_error (data : List Char) (n : Nat) :
    ∀ (i : Nat) (bits : List Char) (e : Error),
      encodeNumericLoop data n i bits = .error e → e = .invalidArgument := by
  induction n with
  | zero =>
    intro i bits e h
    simp [encodeNumericLoop] at h
  | succ n ih =>
    intro i bits e h
    unfold encodeNumericLoop at h
    split_ifs at h with hi
    simp only [] at h
    cases hst : stoi ((data.drop i).take 3) with
    | error e1 =>
      rw [hst] at h
      have := stoi_error _ _ hst
      rw [← Except.error.inj h, this]
    | ok value =>
      rw [hst] at h
      exact ih _ _ e h

/-- The function `encode` can only fail with the `std::invalid_argument` of `std::stoi`. -/
theorem encode_error (data : List Char) (mode version : Int) (e : Error)
    (h : encode data mode version = .error e) : e = .invalidArgument := by
  unfold encode at h
  simp only [] at h
  cases hn : encodeNumeric data with
  | error e1 =>
    rw [hn] at h
    have := encodeNumericLoop_error data data.length 0 [] e1 hn
    split_ifs at h <;> rw [← Except.error.inj h, this]
  | ok payload =>
    rw [hn] at h
    split_ifs at h

/-- The function `encodeToBytes` throws no error of its own: it can only end with the
`std::invalid_argument` of `std::stoi` or in the construction of a string of negative
length. -/
theorem encodeToBytes_error (data : List Char) (mode version : Int) (level : String)
    (e : Error) (h : encodeToBytes data mode version level = .error e) :
    e = .invalidArgument ∨ e = .negativeLength := by
  unfold encodeToBytes at h
  split_ifs at h
  cases henc : encode data mode version with
  | error e1 =>
    rw [henc] at h
    left
    rw [← Except.error.inj h]
    exact encode_error data mode version e1 henc
  | ok bits =>
    rw [henc] at h
    simp only [] at h
    split_ifs at h
    right
    exact (Except.error.inj h).symm

/-- The padded stream of the specification starts with the whole bit stream. -/
theorem prefix_paddedStreamSpec (bits : List Char) (count : Nat) :
    bits <+: paddedStreamSpec bits count := by
  unfold paddedStreamSpec
  simp only [List.append_assoc]
  exact List.prefix_append _ _

/-! ## The example grid -/

/-- The choice of `findBestMask` depends on the fourth rule through its values on the
eight masked grids only. -/
theorem findBestMask_congr (R S : List (List Bool) → Nat → Int) (grid : List (List Bool))
    (size : Nat)
    (h : ∀ j, j < 8 → R (applyMask grid j size) size = S (applyMask grid j size) size) :
    findBestMask R grid size = findBestMask S grid size := by
  unfold findBestMask
  have hr : List.range 8 = [0, 1, 2, 3, 4, 5, 6, 7] := by decide
  simp only [hr, List.foldl_cons, List.foldl_nil, evaluateMask,
    h 0 (by omega), h 1 (by omega), h 2 (by omega), h 3 (by omega), h 4 (by omega),
    h 5 (by omega), h 6 (by omega), h 7 (by omega)]

set_option maxRecDepth 100000 in
theorem exampleGrid_dimensions :
    exampleGrid.length = 21 ∧ ∀ row ∈ exampleGrid, row.length = 21 := by
  decide!

/-- On the eight masked example grids the rule 4 of the source is the exact one. -/
theorem exampleGrid_rule4 (j : Nat) :
    evaluateRule4 (applyMask exampleGrid j 21) 21 = rule4Exact (applyMask exampleGrid j 21) 21 := by
  have hd := applyMask_dimensions exampleGrid j 21 21 exampleGrid_dimensions.1
    exampleGrid_dimensions.2
  exact evaluateRule4_eq_spec _ 21 (by decide) (by decide) hd.1 hd.2

set_option maxRecDepth 100000 in
theorem exampleGrid_exact_penalties :
    (List.range 8).map (fun j => evaluateMask rule4Exact (applyMask exampleGrid j 21) 21) =
        [259, 312, 248, 270, 305, 304, 329, 293] ∧
      findBestMask rule4Exact exampleGrid 21 = 2 := by
  decide!

/-- The penalties of the eight masks on the example grid, and the best mask. -/
theorem exampleGrid_penalties :
    (List.range 8).map (fun j => evaluateMask evaluateRule4 (applyMask exampleGrid j 21) 21) =
        [259, 312, 248, 270, 305, 304, 329, 293] ∧
      findBestMask evaluateRule4 exampleGrid 21 = 2 := by
  have hmap : (List.range 8).map
      (fun j => evaluateMask evaluateRule4 (applyMask exampleGrid j 21) 21) =
      (List.range 8).map (fun j => evaluateMask rule4Exact (applyMask exampleGrid j 21) 21) := by
    apply List.map_congr_left
    intro j _
    unfold evaluateMask
    rw [exampleGrid_rule4]
  rw [hmap, findBestMask_congr evaluateRule4 rule4Exact exampleGrid 21
    (fun j _ => exampleGrid_rule4 j)]
  exact exampleGrid_exact_penalties

/-- The penalties of the eight masks on the example grid are `int` values. -/
theorem exampleGrid_penalties_int (j : Nat) (hj : j < 8) :
    evaluateMask evaluateRule4 (applyMask exampleGrid j 21) 21 ≤ INT_MAX := by
  have h := exampleGrid_penalties.1
  have hget := congrArg (fun l => l.getD j 0) h
  simp only [] at hget
  rw [List.getD_eq_getElem?_getD, List.getElem?_map,
    List.getElem?_range (by omega)] at hget
  simp only [Option.map_some', Option.getD_some] at hget
  rw [hget]
  have hj8 : j = 0 ∨ j = 1 ∨ j = 2 ∨ j = 3 ∨ j = 4 ∨ j = 5 ∨ j = 6 ∨ j = 7 := by omega
  rcases hj8 with rfl | rfl | rfl | rfl | rfl | rfl | rfl | rfl <;> decide

/-! ## Claims on the finite field and the Reed-Solomon encoder -/

/-- C1: for non-empty `data` of bytes and every `n` (so for `n ≥ 1`), `encode(data, n)`
returns `data` followed by `n` remainder bytes `r`; the polynomial over GF(256) with
coefficients `data ++ r` (highest degree first) evaluates to 0 at `power(2, i)` for every
`i < n`; and `data ++ r` is divisible by `generatePolynomial(n)`: it is the product, as
`multiplyPolynomials` computes it, of a quotient `q` and the generator. -/
theorem encode_systematic_codeword (data : List Nat) (n : Nat) (hdata : data ≠ [])
    (hbytes : ∀ b ∈ data, b < 256) :
    ∃ r, ReedSolomonEncoder.encode data n = .ok (data ++ r) ∧ r.length = n ∧
      (∀ b ∈ r, b < 256) ∧
      (∀ i, i < n → polyEval (data ++ r) (ReedSolomonEncoder.gf.power 2 i) = 0) ∧
      ∃ q, q.length = data.length ∧ (∀ b ∈ q, b < 256) ∧
        ReedSolomonEncoder.multiplyPolynomials q (ReedSolomonEncoder.generatePolynomial n) =
          data ++ r := by
  obtain ⟨r, h1, h2, h3, h4⟩ := encode_spec data n hdata hbytes
  obtain ⟨q, r1, k1, k2, k3, k4⟩ := encode_divisible data n hdata hbytes
  have hr : r1 = r := by
    rw [k1] at h1
    exact List.append_cancel_left (Except.ok.inj h1)
  rw [hr] at k4
  exact ⟨r, h1, h2, h3, h4, q, k2, k3, k4⟩

theorem encode_systematic_codeword_witness :
    ∃ r, ReedSolomonEncoder.encode [32, 91, 11] 2 = .ok ([32, 91, 11] ++ r) ∧ r.length = 2 ∧
      (∀ b ∈ r, b < 256) ∧
      (∀ i, i < 2 → polyEval ([32, 91, 11] ++ r) (ReedSolomonEncoder.gf.power 2 i) = 0) ∧
      ∃ q, q.length = [32, 91, 11].length ∧ (∀ b ∈ q, b < 256) ∧
        ReedSolomonEncoder.multiplyPolynomials q (ReedSolomonEncoder.generatePolynomial 2) =
          [32, 91, 11] ++ r :=
  encode_systematic_codeword [32, 91, 11] 2 (by decide) (by decide)

/-- C6: after `initTables()`, `expTable[logTable[x]] = x` for every `x` in `1..255` and
`logTable[expTable[i]] = i` for every `i` in `0..254`. -/
theorem initTables_exp_log_inverse (x i : Nat) (hx1 : 1 ≤ x) (hx2 : x ≤ 255) (hi : i ≤ 254) :
    GaloisField.initTables.expTable.getD (GaloisField.initTables.logTable.getD x 0) 0 = x ∧
      GaloisField.initTables.logTable.getD (GaloisField.initTables.expTable.getD i 0) 0 = i := by
  rw [initTables_eq]
  exact ⟨exp_log (by omega) (by omega), log_exp (by omega)⟩

theorem initTables_exp_log_inverse_witness :
    GaloisField.initTables.expTable.getD (GaloisField.initTables.logTable.getD 255 0) 0 = 255 ∧
      GaloisField.initTables.logTable.getD (GaloisField.initTables.expTable.getD 254 0) 0 = 254 :=
  initTables_exp_log_inverse 255 254 (by decide) (by decide) (by decide)

/-- C7: for every `a` in `1..255`, `divide(1, a)` returns a value `q` and
`multiply(a, q) = 1`. -/
theorem multiply_divide_one (a : Nat) (ha1 : 1 ≤ a) (ha2 : a ≤ 255) :
    ∃ q, GaloisField.initTables.divide 1 a = .ok q ∧ GaloisField.initTables.multiply a q = 1 := by
  have hlog := log_lt (x := a) (by omega)
  have h1 : logTableValues.getD 1 0 = 0 := by decide
  have h0 : expTableValues.getD 0 0 = 1 := by decide
  refine ⟨expTableValues.getD ((255 - logTableValues.getD a 0) % 255) 0, ?_, ?_⟩
  · unfold GaloisField.divide
    rw [initTables_eq]
    simp only [show (1 : Nat) ≠ 0 by omega, show a ≠ 0 by omega, if_false, h1,
      GaloisField.SIZE]
    congr 2
    omega
  · have hk : (255 - logTableValues.getD a 0) % 255 < 255 := Nat.mod_lt _ (by omega)
    rw [multiply_eq,
      if_neg (fun h => h.elim (fun h => by omega) (fun h => exp_ne_zero hk h)), log_exp hk]
    have e : (logTableValues.getD a 0 + (255 - logTableValues.getD a 0) % 255) % 255 = 0 := by
      omega
    rw [e, h0]

theorem multiply_divide_one_witness :
    ∃ q, GaloisField.initTables.divide 1 7 = .ok q ∧ GaloisField.initTables.multiply 7 q = 1 :=
  multiply_divide_one 7 (by decide) (by decide)

/-- C8 at the empty data sequence, with `n = 0` and with `n = 7`: the loop bound of
`dividePolynomials`, `remainder.size() - divisor.size()`, wraps around, the loop runs past
the end of `remainder` and reads outside it, so `encode` has no result where the claim
wants one of length `0 + n`. -/
theorem encode_empty_data_no_result :
    ReedSolomonEncoder.encode [] 0 = .error .outOfBounds ∧
      ReedSolomonEncoder.encode [] 7 = .error .outOfBounds := by
  decide!

/-- C9: for `k ≥ 1` and `n ≥ 0`, encoding `k` zero codewords yields `k + n` zeros: the
remainder is all-zero. -/
theorem encode_zeros (k n : Nat) (hk : 1 ≤ k) :
    ReedSolomonEncoder.encode (List.replicate k 0) n = .ok (List.replicate (k + n) 0) :=
  encode_zeros_spec k n hk

theorem encode_zeros_witness :
    ReedSolomonEncoder.encode (List.replicate 3 0) 4 = .ok (List.replicate (3 + 4) 0) :=
  encode_zeros 3 4 (by decide)

/-! ## Claims on the data encoder -/

/-- C2 at ten bytes of data in Byte mode, version 1, level H: the capacity is 9 codewords
and the bit stream has 92 bits, so the terminator length `min(4, 72 - 92)` is negative and
`encodeToBytes` has no result, where the claim wants 9 codewords. -/
theorem encodeToBytes_overlong_no_result :
    getDataCodewordsCount 1 "H" = 9 ∧
      (encode "AAAAAAAAAA".toList QR_MODE_BYTE 1).map List.length = .ok 92 ∧
      encodeToBytes "AAAAAAAAAA".toList QR_MODE_BYTE 1 "H" = .error .negativeLength := by
  decide!

/-- C3 as stated fails for "Test" in Byte mode at version 1, level H: the bit stream has
44 of the 72 bits of capacity, the general algorithm gives 40 45 46 57 37 40 EC 11 EC, and
`encodeToBytes` returns its hard-coded 12 59 31 AF 76 3F A8 5D 0A instead. -/
theorem encodeToBytes_test_hard_coded :
    encode "Test".toList QR_MODE_BYTE 1 =
        .ok "01000000010001010100011001010111001101110100".toList ∧
      getDataCodewordsCount 1 "H" = 9 ∧
      bitsToBytes (paddedStreamSpec "01000000010001010100011001010111001101110100".toList 9) =
        [0x40, 0x45, 0x46, 0x57, 0x37, 0x40, 0xEC, 0x11, 0xEC] ∧
      encodeToBytes "Test".toList QR_MODE_BYTE 1 "H" =
        .ok [0x12, 0x59, 0x31, 0xaf, 0x76, 0x3f, 0xa8, 0x5d, 0x0a] ∧
      encodeToBytes "Test".toList QR_MODE_BYTE 1 "H" ≠
        .ok (bitsToBytes
          (paddedStreamSpec "01000000010001010100011001010111001101110100".toList 9)) := by
  decide!

/-- C3, amended: unless the data is "Test" at version 1 and level H, whenever
`encode(data, mode, version)` returns a bit stream of at most
`8 * dataCodewordsCount(version, level)` bits, `encodeToBytes` returns the byte conversion
of that stream followed by a terminator of `min(4, remaining capacity)` zero bits, zero
bits to the next byte boundary and the bytes `0xEC`, `0x11` in turn up to the capacity. -/
theorem encodeToBytes_general_algorithm (data : List Char) (mode version : Int)
    (level : String) (bits : List Char)
    (hspecial : ¬(level = "H" ∧ data = "Test".toList ∧ version = 1))
    (henc : encode data mode version = .ok bits)
    (hfit : (bits.length : Int) ≤ 8 * getDataCodewordsCount version level) :
    encodeToBytes data mode version level =
      .ok (bitsToBytes (paddedStreamSpec bits (getDataCodewordsCount version level).toNat)) :=
  encodeToBytes_general data mode version level bits hspecial henc hfit

theorem encodeToBytes_general_algorithm_witness :
    encodeToBytes "HELLO WORLD".toList QR_MODE_ALPHANUMERIC 1 "Q" =
      .ok (bitsToBytes (paddedStreamSpec
        "00100000010110110000101101111000110100010111001011011100010011010100001101".toList
        (getDataCodewordsCount 1 "Q").toNat)) :=
  encodeToBytes_general_algorithm "HELLO WORLD".toList QR_MODE_ALPHANUMERIC 1 "Q"
    "00100000010110110000101101111000110100010111001011011100010011010100001101".toList
    (by decide) (by decide!) (by decide!)

/-- C10: for a string of decimal digits (non-empty or not), `encodeNumeric` returns the concatenation, over
the groups of up to 3 digits from the left, of each group's decimal value in exactly 10, 7
or 4 bits, and `encode` in Numeric mode returns the mode and count indicators followed by
this payload; for "01234567" the payload is 0000001100 0101011001 1000011. -/
theorem encodeNumeric_groups (data : List Char) (version : Int)
    (hdigits : ∀ c ∈ data, c.isDigit = true) :
    encodeNumeric data = .ok (numericPayloadSpec data) ∧
      encode data QR_MODE_NUMERIC version =
        .ok (padLeft (toBinary QR_MODE_NUMERIC) 4 ++
          padLeft (toBinary data.length) (getCharacterCountLength QR_MODE_NUMERIC version) ++
          numericPayloadSpec data) ∧
      numericPayloadSpec "01234567".toList = "000000110001010110011000011".toList := by
  have h := encodeNumeric_eq_spec data hdigits
  refine ⟨h, ?_, by decide⟩
  unfold encode
  simp only [h, show QR_MODE_NUMERIC ≠ QR_MODE_BYTE by decide, if_false, if_true]

theorem encodeNumeric_groups_witness :
    encodeNumeric "01234567".toList = .ok (numericPayloadSpec "01234567".toList) ∧
      encode "01234567".toList QR_MODE_NUMERIC 1 =
        .ok (padLeft (toBinary QR_MODE_NUMERIC) 4 ++
          padLeft (toBinary "01234567".toList.length)
            (getCharacterCountLength QR_MODE_NUMERIC 1) ++
          numericPayloadSpec "01234567".toList) ∧
      numericPayloadSpec "01234567".toList = "000000110001010110011000011".toList :=
  encodeNumeric_groups "01234567".toList 1 (by decide)

/-! ## Claims on masking -/

/-- C4: for a `size` x `size` grid and a mask index `i` in `0..7`, applying mask `i` twice
gives the grid back, so every module (reserved or not) has its first value. -/
theorem applyMask_self_inverse (grid : List (List Bool)) (i size : Nat) (hi : i < 8)
    (hrows : grid.length = size) (hcols : ∀ row ∈ grid, row.length = size) :
    applyMask (applyMask grid i size) i size = grid ∧
      ∀ r c, r < size → c < size →
        moduleAt (applyMask (applyMask grid i size) i size) r c = moduleAt grid r c := by
  have _ := hi
  have _ := hrows
  have _ := hcols
  have h := applyMask_involutive grid i size
  exact ⟨h, fun r c _ _ => by rw [h]⟩

set_option maxRecDepth 100000 in
theorem applyMask_self_inverse_witness :
    (applyMask exampleGrid 3 21 ≠ exampleGrid ∧
        moduleAt (applyMask exampleGrid 3 21) 12 15 = !moduleAt exampleGrid 12 15) ∧
      applyMask (applyMask exampleGrid 3 21) 3 21 = exampleGrid ∧
      ∀ r c, r < 21 → c < 21 →
        moduleAt (applyMask (applyMask exampleGrid 3 21) 3 21) r c =
          moduleAt exampleGrid r c :=
  ⟨by decide!, applyMask_self_inverse exampleGrid 3 21 (by decide) exampleGrid_dimensions.1
    exampleGrid_dimensions.2⟩

/-- C5: for a `size` x `size` grid with `size ≥ 1`, whatever function of the grid the
fourth rule is, and with penalties that fit an `int`, `findBestMask` returns an index `m`
in `0..7` whose masked grid has a penalty at most that of every mask `j` in `0..7` and
strictly below that of every `j < m`. Being a function of the grid alone, it gives the
same index on every call. -/
theorem findBestMask_lowest_penalty (evaluateRule4 : List (List Bool) → Nat → Int)
    (grid : List (List Bool)) (size : Nat) (hsize : 1 ≤ size)
    (hrows : grid.length = size) (hcols : ∀ row ∈ grid, row.length = size)
    (hint : ∀ j, j < 8 → evaluateMask evaluateRule4 (applyMask grid j size) size ≤ INT_MAX) :
    findBestMask evaluateRule4 grid size < 8 ∧
      (∀ j, j < 8 →
        evaluateMask evaluateRule4
            (applyMask grid (findBestMask evaluateRule4 grid size) size) size ≤
          evaluateMask evaluateRule4 (applyMask grid j size) size) ∧
      (∀ j, j < findBestMask evaluateRule4 grid size →
        evaluateMask evaluateRule4
            (applyMask grid (findBestMask evaluateRule4 grid size) size) size <
          evaluateMask evaluateRule4 (applyMask grid j size) size) := by
  have _ := hsize
  have _ := hrows
  have _ := hcols
  exact findBestMask_spec evaluateRule4 grid size hint

theorem findBestMask_lowest_penalty_witness :
    ((List.range 8).map (fun j => evaluateMask evaluateRule4 (applyMask exampleGrid j 21) 21) =
          [259, 312, 248, 270, 305, 304, 329, 293] ∧
        findBestMask evaluateRule4 exampleGrid 21 = 2) ∧
      findBestMask evaluateRule4 exampleGrid 21 < 8 ∧
      (∀ j, j < 8 →
        evaluateMask evaluateRule4
            (applyMask exampleGrid (findBestMask evaluateRule4 exampleGrid 21) 21) 21 ≤
          evaluateMask evaluateRule4 (applyMask exampleGrid j 21) 21) ∧
      (∀ j, j < findBestMask evaluateRule4 exampleGrid 21 →
        evaluateMask evaluateRule4
            (applyMask exampleGrid (findBestMask evaluateRule4 exampleGrid 21) 21) 21 <
          evaluateMask evaluateRule4 (applyMask exampleGrid j 21) 21) :=
  ⟨exampleGrid_penalties, findBestMask_lowest_penalty evaluateRule4 exampleGrid 21 (by decide)
    exampleGrid_dimensions.1 exampleGrid_dimensions.2 exampleGrid_penalties_int⟩
/-! ## More claims on the data encoder -/

/-- C11: for a string over the 45-symbol alphabet, `encodeAlphanumeric` returns the
concatenation, over the consecutive pairs `(c1, c2)`, of `value(c1) * 45 + value(c2)` in
exactly 11 bits, followed for an odd length by the value of the last character in exactly
6 bits, where the value is the index in the alphabet; the payload has
`11 * floor(n / 2) + 6 * (n mod 2)` bits for `n` characters. -/
theorem encodeAlphanumeric_pairs (data : List Char)
    (halphabet : ∀ c ∈ data, c ∈ ALPHANUMERIC_CHARS) :
    ALPHANUMERIC_CHARS.length = 45 ∧
      encodeAlphanumeric data = alphanumericPayloadSpec alphabetIndex data ∧
      (encodeAlphanumeric data).length = 11 * (data.length / 2) + 6 * (data.length % 2) := by
  have h : encodeAlphanumeric data = alphanumericPayloadSpec alphabetIndex data := by
    rw [encodeAlphanumeric_eq]
    apply alphanumericPayloadSpec_congr
    intro c hc
    rw [alphanumericValue_eq, if_pos (halphabet c hc)]
  exact ⟨ALPHANUMERIC_CHARS_length, h, by rw [h, alphanumericPayloadSpec_length]⟩

theorem encodeAlphanumeric_pairs_witness :
    ALPHANUMERIC_CHARS.length = 45 ∧
      encodeAlphanumeric "AC-42".toList = alphanumericPayloadSpec alphabetIndex "AC-42".toList ∧
      (encodeAlphanumeric "AC-42".toList).length =
        11 * ("AC-42".toList.length / 2) + 6 * ("AC-42".toList.length % 2) :=
  encodeAlphanumeric_pairs "AC-42".toList (by decide)

/-- C12 as stated fails for 256 bytes of data in Byte mode at version 1: the count
indicator should have 8 bits, but 256 takes 9 bits and `padLeft` only pads, so the bit
stream has 4 + 9 + 2048 bits, one more than `4 + w + (payload length)`. -/
theorem encode_count_wider_than_indicator :
    countWidthSpec QR_MODE_BYTE 1 = 8 ∧
      (encodeByte (List.replicate 256 'A')).length = 2048 ∧
      (encode (List.replicate 256 'A') QR_MODE_BYTE 1).map List.length = .ok (4 + 9 + 2048) := by
  decide!

/-- C12, amended: for a mode in {1, 2, 4} and data whose character count is below `2 ^ w`,
where `w` is the width 10/12/14, 9/11/13 or 8/16/16 of the mode at version up to 9 / up to
26 / above 26, `encode` returns the mode indicator in 4 bits, the count in exactly `w`
bits and the payload of the mode, so `4 + w + (payload length)` bits; it has no result
when the payload has none (`encodeNumeric` on a chunk without a digit). -/
theorem encode_indicator_layout (data : List Char) (mode version : Int)
    (hmode : mode = 1 ∨ mode = 2 ∨ mode = 4)
    (hcount : data.length < 2 ^ countWidthSpec mode version) :
    getCharacterCountLength mode version = countWidthSpec mode version ∧
      (∀ payload, modePayload data mode = .ok payload →
        encode data mode version = .ok (bitsOfNat 4 mode.toNat ++
          bitsOfNat (countWidthSpec mode version) data.length ++ payload) ∧
        (bitsOfNat 4 mode.toNat ++
          bitsOfNat (countWidthSpec mode version) data.length ++ payload).length =
            4 + countWidthSpec mode version + payload.length) ∧
      (∀ e, modePayload data mode = .error e → encode data mode version = .error e) := by
  have h := encode_eq_layout data mode version hmode hcount
  refine ⟨getCharacterCountLength_eq mode version hmode, fun payload hp => ?_, fun e he => ?_⟩
  · rw [hp] at h
    exact ⟨h, by simp only [List.length_append, bitsOfNat_length]⟩
  · rw [he] at h
    exact h

theorem encode_indicator_layout_witness :
    getCharacterCountLength 2 1 = countWidthSpec 2 1 ∧
      (∀ payload, modePayload "AC-42".toList 2 = .ok payload →
        encode "AC-42".toList 2 1 = .ok (bitsOfNat 4 (2 : Int).toNat ++
          bitsOfNat (countWidthSpec 2 1) "AC-42".toList.length ++ payload) ∧
        (bitsOfNat 4 (2 : Int).toNat ++
          bitsOfNat (countWidthSpec 2 1) "AC-42".toList.length ++ payload).length =
            4 + countWidthSpec 2 1 + payload.length) ∧
      (∀ e, modePayload "AC-42".toList 2 = .error e → encode "AC-42".toList 2 1 = .error e) :=
  encode_indicator_layout "AC-42".toList 2 1 (by decide) (by decide)

/-- C13: `detectMode(data)` returns Numeric (1) if and only if `data` is non-empty and made
of decimal digits; otherwise it returns Alphanumeric (2) if and only if every character
is in the 45-symbol alphabet, so the empty string is Alphanumeric; otherwise it returns
Byte (4). -/
theorem detectMode_cases (data : List Char) :
    (detectMode data = QR_MODE_NUMERIC ↔ (data ≠ [] ∧ ∀ c ∈ data, c.isDigit = true)) ∧
      (detectMode data = QR_MODE_ALPHANUMERIC ↔
        (¬(data ≠ [] ∧ ∀ c ∈ data, c.isDigit = true) ∧ ∀ c ∈ data, c ∈ ALPHANUMERIC_CHARS)) ∧
      (detectMode data = QR_MODE_BYTE ↔
        (¬(data ≠ [] ∧ ∀ c ∈ data, c.isDigit = true) ∧
          ¬(∀ c ∈ data, c ∈ ALPHANUMERIC_CHARS))) ∧
      detectMode [] = QR_MODE_ALPHANUMERIC ∧
      ALPHANUMERIC_CHARS = "0123456789ABCDEFGHIJKLMNOPQRSTUVWXYZ $%*+-./:".toList := by
  have h := detectMode_eq data
  have d12 : QR_MODE_NUMERIC ≠ QR_MODE_ALPHANUMERIC := by decide
  have d14 : QR_MODE_NUMERIC ≠ QR_MODE_BYTE := by decide
  have d24 : QR_MODE_ALPHANUMERIC ≠ QR_MODE_BYTE := by decide
  refine ⟨?_, ?_, ?_, by decide, rfl⟩
  · by_cases h1 : data ≠ [] ∧ ∀ c ∈ data, c.isDigit = true
    · rw [if_pos h1] at h
      exact ⟨fun _ => h1, fun _ => h⟩
    · rw [if_neg h1] at h
      refine ⟨fun hd => ?_, fun hn => absurd hn h1⟩
      rw [hd] at h
      split at h
      · exact absurd h d12
      · exact absurd h d14
  · by_cases h1 : data ≠ [] ∧ ∀ c ∈ data, c.isDigit = true
    · rw [if_pos h1] at h
      refine ⟨fun hd => ?_, fun hn => absurd h1 hn.1⟩
      rw [hd] at h
      exact absurd h.symm d12
    · rw [if_neg h1] at h
      by_cases h2 : ∀ c ∈ data, c ∈ ALPHANUMERIC_CHARS
      · rw [if_pos h2] at h
        exact ⟨fun _ => ⟨h1, h2⟩, fun _ => h⟩
      · rw [if_neg h2] at h
        refine ⟨fun hd => ?_, fun hn => absurd hn.2 h2⟩
        rw [hd] at h
        exact absurd h d24
  · by_cases h1 : data ≠ [] ∧ ∀ c ∈ data, c.isDigit = true
    · rw [if_pos h1] at h
      refine ⟨fun hd => ?_, fun hn => absurd h1 hn.1⟩
      rw [hd] at h
      exact absurd h.symm d14
    · rw [if_neg h1] at h
      by_cases h2 : ∀ c ∈ data, c ∈ ALPHANUMERIC_CHARS
      · rw [if_pos h2] at h
        refine ⟨fun hd => ?_, fun hn => absurd h2 hn.2⟩
        rw [hd] at h
        exact absurd h.symm d24
      · rw [if_neg h2] at h
        exact ⟨fun _ => ⟨h1, h2⟩, fun _ => h⟩

/-- C14 at 20 digits in Numeric mode, level H: version 1 has 9 data codewords, and
`9 * 2.4 = 21.6 >= 20`, so the claim wants version 1; the source multiplies by 2 (next to
its comment "~2.4 chars per byte"), finds `18 < 20` and returns version 2, whatever its
floating-point computations give. -/
theorem determineVersion_numeric_times_two (fp : FloatOps) :
    getDataCodewordsCount 1 "H" = 9 ∧
      (24 : Int) * getDataCodewordsCount 1 "H" ≥ 10 * 20 ∧
      estimatedCapacity fp QR_MODE_NUMERIC 1 "H" = 18 ∧
      determineVersion fp "12345678901234567890".toList QR_MODE_NUMERIC "H" = 2 :=
  ⟨by decide, by decide, rfl, rfl⟩

/-- C20 as stated fails for the string "a": the character is outside the alphabet, yet
`encode` in Alphanumeric mode returns a bit stream, with the character encoded as value 0
in the 6 payload bits, and `encodeToBytes` returns codewords. -/
theorem encode_alphanumeric_invalid_char_returns :
    'a' ∉ ALPHANUMERIC_CHARS ∧
      encode "a".toList QR_MODE_ALPHANUMERIC 1 = .ok "0010000000001000000".toList ∧
      encodeToBytes "a".toList QR_MODE_ALPHANUMERIC 1 "H" =
        .ok [0x20, 0x08, 0x00, 0xEC, 0x11, 0xEC, 0x11, 0xEC, 0x11] := by
  decide!

/-- C20, amended: for every data and version, `encode` in Alphanumeric mode returns a bit
stream and never fails: its payload is the one of the pairs and last single character in
which a character outside the 45-symbol alphabet has the value 0 and every other character
its index in the alphabet. -/
theorem encode_alphanumeric_substitutes_zero (data : List Char) (version : Int) :
    encodeAlphanumeric data =
        alphanumericPayloadSpec
          (fun c => if c ∈ ALPHANUMERIC_CHARS then alphabetIndex c else 0) data ∧
      encode data QR_MODE_ALPHANUMERIC version =
        .ok (padLeft (toBinary QR_MODE_ALPHANUMERIC) 4 ++
          padLeft (toBinary data.length)
            (getCharacterCountLength QR_MODE_ALPHANUMERIC version) ++
          encodeAlphanumeric data) := by
  constructor
  · rw [encodeAlphanumeric_eq]
    exact alphanumericPayloadSpec_congr _ _ _ (fun c _ => alphanumericValue_eq c)
  · unfold encode
    simp only [show QR_MODE_ALPHANUMERIC ≠ QR_MODE_BYTE by decide,
      show QR_MODE_ALPHANUMERIC ≠ QR_MODE_NUMERIC by decide, if_false, if_true]

/-! ## More claims on the finite field -/

/-- C15: for a `size` x `size` grid with `size ≥ 1`, `evaluateRule1` is the sum, over
every row and every column and over every maximal run of identical modules of length
`k ≥ 5` of that line, of `3 + (k - 5)`. A line of 7 modules that is a run of exactly 5
between two modules of the other colour scores 3, and a line that is a run of 8 scores 6. -/
theorem evaluateRule1_run_penalties (grid : List (List Bool)) (size : Nat) (hsize : 1 ≤ size)
    (hrows : grid.length = size) (hcols : ∀ row ∈ grid, row.length = size) :
    evaluateRule1 grid size = rule1Spec grid size ∧
      (∀ b : Bool,
        rule1Line (fun k => ((!b) :: List.replicate 5 b ++ [!b]).getD k false) 7 = 3) ∧
      (∀ b : Bool, rule1Line (fun k => (List.replicate 8 b).getD k false) 8 = 6) :=
  ⟨evaluateRule1_eq_spec grid size hsize hrows hcols, by decide, by decide⟩

theorem evaluateRule1_run_penalties_witness :
    evaluateRule1 (List.replicate 8 (List.replicate 8 true)) 8 =
        rule1Spec (List.replicate 8 (List.replicate 8 true)) 8 ∧
      (∀ b : Bool,
        rule1Line (fun k => ((!b) :: List.replicate 5 b ++ [!b]).getD k false) 7 = 3) ∧
      (∀ b : Bool, rule1Line (fun k => (List.replicate 8 b).getD k false) 8 = 6) :=
  evaluateRule1_run_penalties (List.replicate 8 (List.replicate 8 true)) 8 (by decide)
    (by decide) (by decide)

/-- C16: for a `size` x `size` grid with `size ≥ 1` (and `size * size` within `int`) that
has `d` dark modules, `evaluateRule4`, which computes in `double`, returns
`floor(|100 * d / size^2 - 50| / 5) * 10` as computed in exact rational arithmetic. A grid
with exactly half of its modules dark scores 0; an all-dark and an all-light grid score 100. -/
theorem evaluateRule4_exact_percentage (grid : List (List Bool)) (size : Nat)
    (hsize : 1 ≤ size) (hint : ((size * size : Nat) : Int) ≤ INT_MAX)
    (hrows : grid.length = size) (hcols : ∀ row ∈ grid, row.length = size) :
    evaluateRule4 grid size =
        ⌊|100 * (darkModules grid : ℚ) / ((size * size : Nat) : ℚ) - 50| / 5⌋ * 10 ∧
      (2 * darkModules grid = size * size → evaluateRule4 grid size = 0) ∧
      (darkModules grid = size * size → evaluateRule4 grid size = 100) ∧
      (darkModules grid = 0 → evaluateRule4 grid size = 100) := by
  have h := evaluateRule4_eq_spec grid size hsize hint hrows hcols
  have hn : 1 ≤ size * size := Nat.mul_pos hsize hsize
  refine ⟨h, ?_, ?_, ?_⟩
  · intro hhalf
    rw [h, rule4Spec_half _ _ hn hhalf]
  · intro hall
    rw [h, hall, rule4Spec_all _ hn]
  · intro hnone
    rw [h, hnone, rule4Spec_none]

theorem evaluateRule4_exact_percentage_witness :
    evaluateRule4 [[true, false, true], [false, true, false], [true, true, true]] 3 =
        ⌊|100 * (darkModules [[true, false, true], [false, true, false], [true, true, true]] : ℚ)
          / ((3 * 3 : Nat) : ℚ) - 50| / 5⌋ * 10 ∧
      (2 * darkModules [[true, false, true], [false, true, false], [true, true, true]] = 3 * 3 →
        evaluateRule4 [[true, false, true], [false, true, false], [true, true, true]] 3 = 0) ∧
      (darkModules [[true, false, true], [false, true, false], [true, true, true]] = 3 * 3 →
        evaluateRule4 [[true, false, true], [false, true, false], [true, true, true]] 3 = 100) ∧
      (darkModules [[true, false, true], [false, true, false], [true, true, true]] = 0 →
        evaluateRule4 [[true, false, true], [false, true, false], [true, true, true]] 3 = 100) :=
  evaluateRule4_exact_percentage
    [[true, false, true], [false, true, false], [true, true, true]] 3 (by decide) (by decide)
    (by decide) (by decide)

/-- C17 fails at the edge of the grid: in the 7 x 7 grid whose first row is 1011101 and
whose other modules are light, the window of the first row has no module on either side,
so it does not have 4 light modules next to it; `evaluateRule3` counts it all the same and
returns 40, where the count of the claim is 0. -/
theorem evaluateRule3_counts_window_at_edge :
    evaluateRule3
        ([true, false, true, true, true, false, true] ::
          List.replicate 6 (List.replicate 7 false)) 7 = 40 ∧
      rule3Spec rule3WindowStrict
        ([true, false, true, true, true, false, true] ::
          List.replicate 6 (List.replicate 7 false)) 7 = 0 := by
  decide

/-- C17 amended: for a `size` x `size` grid, `evaluateRule3` is 40 times the number of
windows of 7 modules, along every row and every column, that match 1011101 or 0100010 and
have, on one side at least, no dark module among the up to 4 modules of the line next to
the window; the positions beyond the edge of the grid count as light. -/
theorem evaluateRule3_clipped_padding (grid : List (List Bool)) (size : Nat)
    (hrows : grid.length = size) (hcols : ∀ row ∈ grid, row.length = size) :
    evaluateRule3 grid size = rule3Spec rule3WindowClipped grid size := by
  have _ := hrows
  have _ := hcols
  exact evaluateRule3_eq_spec grid size

theorem evaluateRule3_clipped_padding_witness :
    evaluateRule3
        ([true, false, true, true, true, false, true] ::
          List.replicate 6 (List.replicate 7 false)) 7 =
      rule3Spec rule3WindowClipped
        ([true, false, true, true, true, false, true] ::
          List.replicate 6 (List.replicate 7 false)) 7 :=
  evaluateRule3_clipped_padding
    ([true, false, true, true, true, false, true] ::
      List.replicate 6 (List.replicate 7 false)) 7 (by decide) (by decide)

/-- C18: for a `size` x `size` grid and a mask index `i` in `0..7`, `applyMask` returns a
grid of the same dimensions; its module at `(r, c)` with `r, c < size` is the negation of
the module of the grid when `(r, c)` is not reserved and the mask predicate `i` holds
there, and the module of the grid otherwise. In particular a reserved module is unchanged. -/
theorem applyMask_modules (grid : List (List Bool)) (i size : Nat) (hi : i < 8)
    (hrows : grid.length = size) (hcols : ∀ row ∈ grid, row.length = size) :
    ((applyMask grid i size).length = size ∧
        ∀ row ∈ applyMask grid i size, row.length = size) ∧
      (∀ r c, r < size → c < size →
        ((¬ reservedSpec r c size ∧ maskPredicateSpec i r c) →
          moduleAt (applyMask grid i size) r c = !moduleAt grid r c) ∧
        (¬ (¬ reservedSpec r c size ∧ maskPredicateSpec i r c) →
          moduleAt (applyMask grid i size) r c = moduleAt grid r c)) ∧
      (∀ r c, r < size → c < size → reservedSpec r c size →
        moduleAt (applyMask grid i size) r c = moduleAt grid r c) := by
  have hpoint : ∀ r c, r < size → c < size →
      ((¬ reservedSpec r c size ∧ maskPredicateSpec i r c) →
        moduleAt (applyMask grid i size) r c = !moduleAt grid r c) ∧
      (¬ (¬ reservedSpec r c size ∧ maskPredicateSpec i r c) →
        moduleAt (applyMask grid i size) r c = moduleAt grid r c) := by
    intro r c hr hc
    have h := moduleAt_applyMask grid i size r c hrows hcols hr hc
    constructor
    · intro hflip
      rw [h, if_pos ((maskFlips_iff i size r c hi).2 hflip)]
    · intro hkeep
      rw [h, if_neg (fun hf => hkeep ((maskFlips_iff i size r c hi).1 hf))]
  exact ⟨applyMask_dimensions grid i size size hrows hcols, hpoint,
    fun r c hr hc hres => (hpoint r c hr hc).2 (fun hf => hf.1 hres)⟩

theorem applyMask_modules_witness :
    ((applyMask (List.replicate 21 (List.replicate 21 false)) 0 21).length = 21 ∧
        ∀ row ∈ applyMask (List.replicate 21 (List.replicate 21 false)) 0 21,
          row.length = 21) ∧
      (∀ r c, r < 21 → c < 21 →
        ((¬ reservedSpec r c 21 ∧ maskPredicateSpec 0 r c) →
          moduleAt (applyMask (List.replicate 21 (List.replicate 21 false)) 0 21) r c =
            !moduleAt (List.replicate 21 (List.replicate 21 false)) r c) ∧
        (¬ (¬ reservedSpec r c 21 ∧ maskPredicateSpec 0 r c) →
          moduleAt (applyMask (List.replicate 21 (List.replicate 21 false)) 0 21) r c =
            moduleAt (List.replicate 21 (List.replicate 21 false)) r c)) ∧
      (∀ r c, r < 21 → c < 21 → reservedSpec r c 21 →
        moduleAt (applyMask (List.replicate 21 (List.replicate 21 false)) 0 21) r c =
          moduleAt (List.replicate 21 (List.replicate 21 false)) r c) :=
  applyMask_modules (List.replicate 21 (List.replicate 21 false)) 0 21 (by decide)
    (by decide) (by decide)
/-! ## Claims on capacity, error correction blocks and the field operations -/

/-- C21 fails on 26 letters in Alphanumeric mode at version 1, level L: the bit stream has
156 bits for a capacity of 152, and `encodeToBytes` does not end with an error of the
encoder (a `std::runtime_error`, which a capacity check would raise) but in the
construction of the terminator string with the negative length `min(4, 152 - 156)`. -/
theorem encodeToBytes_overlong_not_capacity_error :
    (encode "ABCDEFGHIJKLMNOPQRSTUVWXYZ".toList QR_MODE_ALPHANUMERIC 1).map List.length =
        .ok 156 ∧
      8 * getDataCodewordsCount 1 "L" = 152 ∧
      encodeToBytes "ABCDEFGHIJKLMNOPQRSTUVWXYZ".toList QR_MODE_ALPHANUMERIC 1 "L" =
        .error .negativeLength ∧
      ∀ msg : String,
        encodeToBytes "ABCDEFGHIJKLMNOPQRSTUVWXYZ".toList QR_MODE_ALPHANUMERIC 1 "L" ≠
          .error (.runtimeError msg) := by
  have h : encodeToBytes "ABCDEFGHIJKLMNOPQRSTUVWXYZ".toList QR_MODE_ALPHANUMERIC 1 "L" =
      .error .negativeLength := by
    decide!
  refine ⟨by decide!, by decide, h, ?_⟩
  intro msg hc
  rw [h] at hc
  cases hc

/-- C21 amended: `encodeToBytes` has no capacity check. For no data, mode, version and
level does it end with an error of its own (a `std::runtime_error`); and whenever the bit
stream of `encode` is within the capacity of `n` codewords (the hard-coded case apart),
nothing is cut: the result is the byte conversion of a stream of `8 * n` bits that starts
with the whole bit stream. -/
theorem encodeToBytes_no_capacity_check (data : List Char) (mode version : Int)
    (level : String) :
    (∀ msg : String, encodeToBytes data mode version level ≠ .error (.runtimeError msg)) ∧
      ∀ bits : List Char, ¬(level = "H" ∧ data = "Test".toList ∧ version = 1) →
        encode data mode version = .ok bits →
        (bits.length : Int) ≤ 8 * getDataCodewordsCount version level →
        encodeToBytes data mode version level =
            .ok (bitsToBytes
              (paddedStreamSpec bits (getDataCodewordsCount version level).toNat)) ∧
          bits <+: paddedStreamSpec bits (getDataCodewordsCount version level).toNat ∧
          (paddedStreamSpec bits (getDataCodewordsCount version level).toNat).length =
            8 * (getDataCodewordsCount version level).toNat := by
  constructor
  · intro msg h
    rcases encodeToBytes_error data mode version level _ h with h1 | h1 <;> cases h1
  · intro bits hspecial henc hfit
    refine ⟨encodeToBytes_general data mode version level bits hspecial henc hfit,
      prefix_paddedStreamSpec _ _, paddedStreamSpec_length _ _ ?_⟩
    have hnn := getDataCodewordsCount_nonneg version level
    omega

theorem encodeToBytes_no_capacity_check_witness :
    encodeToBytes "HELLO WORLD".toList QR_MODE_ALPHANUMERIC 1 "Q" =
        .ok (bitsToBytes (paddedStreamSpec
          "00100000010110110000101101111000110100010111001011011100010011010100001101".toList
          (getDataCodewordsCount 1 "Q").toNat)) ∧
      "00100000010110110000101101111000110100010111001011011100010011010100001101".toList <+:
        paddedStreamSpec
          "00100000010110110000101101111000110100010111001011011100010011010100001101".toList
          (getDataCodewordsCount 1 "Q").toNat ∧
      (paddedStreamSpec
          "00100000010110110000101101111000110100010111001011011100010011010100001101".toList
          (getDataCodewordsCount 1 "Q").toNat).length =
        8 * (getDataCodewordsCount 1 "Q").toNat :=
  (encodeToBytes_no_capacity_check "HELLO WORLD".toList QR_MODE_ALPHANUMERIC 1 "Q").2
    "00100000010110110000101101111000110100010111001011011100010011010100001101".toList
    (by decide) (by decide!) (by decide!)

/-- C22: for non-empty `data` of bytes and every level, `addErrorCorrection` fails with
"Unsupported QR version" exactly when `version < 1` or `version > 15`, and it fails in no
other case; for a version in `1..15` it returns what `encode(data, eccPerBlock)` returns,
with `eccPerBlock` of the table entry of the version and level: `data` followed by
`eccPerBlock` bytes. -/
theorem addErrorCorrection_version_range (data : List Nat) (version : Int) (level : String)
    (hdata : data ≠ []) (hbytes : ∀ b ∈ data, b < 256) :
    (QRErrorCorrection.addErrorCorrection data version level =
          .error (.runtimeError "Unsupported QR version") ↔ version < 1 ∨ version > 15) ∧
      ((∃ e, QRErrorCorrection.addErrorCorrection data version level = .error e) ↔
        version < 1 ∨ version > 15) ∧
      (1 ≤ version → version ≤ 15 →
        QRErrorCorrection.addErrorCorrection data version level =
            ReedSolomonEncoder.encode data (eccParamsSpec version level).eccPerBlock ∧
          ∃ r, QRErrorCorrection.addErrorCorrection data version level = .ok (data ++ r) ∧
            r.length = (eccParamsSpec version level).eccPerBlock) := by
  have hin : 1 ≤ version → version ≤ 15 →
      QRErrorCorrection.addErrorCorrection data version level =
          ReedSolomonEncoder.encode data (eccParamsSpec version level).eccPerBlock ∧
        ∃ r, QRErrorCorrection.addErrorCorrection data version level = .ok (data ++ r) ∧
          r.length = (eccParamsSpec version level).eccPerBlock := by
    intro h1 h15
    have heq := addErrorCorrection_eq data version level h1 h15
    obtain ⟨r, hr1, hr2, _, _⟩ :=
      encode_spec data (eccParamsSpec version level).eccPerBlock hdata hbytes
    exact ⟨heq, r, by rw [heq, hr1], hr2⟩
  have hfail : (∃ e, QRErrorCorrection.addErrorCorrection data version level = .error e) →
      version < 1 ∨ version > 15 := by
    rintro ⟨e, he⟩
    by_contra hcon
    obtain ⟨_, r, hr, _⟩ := hin (by omega) (by omega)
    rw [hr] at he
    cases he
  exact ⟨⟨fun h => hfail ⟨_, h⟩, addErrorCorrection_unsupported data version level⟩,
    ⟨hfail, fun h => ⟨_, addErrorCorrection_unsupported data version level h⟩⟩, hin⟩

theorem addErrorCorrection_version_range_witness :
    (QRErrorCorrection.addErrorCorrection [32, 91, 11] 1 "M" =
          .error (.runtimeError "Unsupported QR version") ↔ (1 : Int) < 1 ∨ (1 : Int) > 15) ∧
      ((∃ e, QRErrorCorrection.addErrorCorrection [32, 91, 11] 1 "M" = .error e) ↔
        (1 : Int) < 1 ∨ (1 : Int) > 15) ∧
      ((1 : Int) ≤ 1 → (1 : Int) ≤ 15 →
        QRErrorCorrection.addErrorCorrection [32, 91, 11] 1 "M" =
            ReedSolomonEncoder.encode [32, 91, 11] (eccParamsSpec 1 "M").eccPerBlock ∧
          ∃ r, QRErrorCorrection.addErrorCorrection [32, 91, 11] 1 "M" =
              .ok ([32, 91, 11] ++ r) ∧
            r.length = (eccParamsSpec 1 "M").eccPerBlock) :=
  addErrorCorrection_version_range [32, 91, 11] 1 "M" (by decide) (by decide)

/-- C23 fails at version 5, level Q, whose table entry has `numBlocks = 2`: for the data
32, 91, 11 `addErrorCorrection` returns a codeword sequence, the three data bytes
followed by `eccPerBlock = 72` bytes of one block, and no error. -/
theorem addErrorCorrection_multi_block_returns :
    (eccParamsSpec 5 "Q").numBlocks = 2 ∧ (eccParamsSpec 5 "Q").eccPerBlock = 72 ∧
      ∃ r, QRErrorCorrection.addErrorCorrection [32, 91, 11] 5 "Q" = .ok ([32, 91, 11] ++ r) ∧
        r.length = 72 := by
  refine ⟨by decide, by decide, ?_⟩
  obtain ⟨r, hr1, hr2, _, _⟩ := encode_spec [32, 91, 11] 72 (by decide)
    (show ∀ b ∈ [32, 91, 11], b < 256 by decide)
  refine ⟨r, ?_, hr2⟩
  rw [addErrorCorrection_eq _ _ _ (by decide) (by decide)]
  exact hr1

/-- C23 amended: for a version in `1..15` and a level whose table entry has
`numBlocks > 1`, and for non-empty `data` of bytes, `addErrorCorrection` returns the
codeword sequence of a single block, `encode(data, eccPerBlock)`: `data` followed by
`eccPerBlock` bytes `r` such that `data ++ r` has the roots `power(2, i)`,
`i < eccPerBlock`. The number of blocks is not looked at. -/
theorem addErrorCorrection_single_block (data : List Nat) (version : Int) (level : String)
    (h1 : 1 ≤ version) (h15 : version ≤ 15)
    (hblocks : 1 < (eccParamsSpec version level).numBlocks)
    (hdata : data ≠ []) (hbytes : ∀ b ∈ data, b < 256) :
    QRErrorCorrection.addErrorCorrection data version level =
        ReedSolomonEncoder.encode data (eccParamsSpec version level).eccPerBlock ∧
      ∃ r, QRErrorCorrection.addErrorCorrection data version level = .ok (data ++ r) ∧
        r.length = (eccParamsSpec version level).eccPerBlock ∧
        ∀ i, i < (eccParamsSpec version level).eccPerBlock →
          polyEval (data ++ r) (ReedSolomonEncoder.gf.power 2 i) = 0 := by
  have _ := hblocks
  have heq := addErrorCorrection_eq data version level h1 h15
  obtain ⟨r, hr1, hr2, _, hr4⟩ :=
    encode_spec data (eccParamsSpec version level).eccPerBlock hdata hbytes
  exact ⟨heq, r, by rw [heq, hr1], hr2, hr4⟩

theorem addErrorCorrection_single_block_witness :
    QRErrorCorrection.addErrorCorrection [32, 91, 11] 3 "H" =
        ReedSolomonEncoder.encode [32, 91, 11] (eccParamsSpec 3 "H").eccPerBlock ∧
      ∃ r, QRErrorCorrection.addErrorCorrection [32, 91, 11] 3 "H" = .ok ([32, 91, 11] ++ r) ∧
        r.length = (eccParamsSpec 3 "H").eccPerBlock ∧
        ∀ i, i < (eccParamsSpec 3 "H").eccPerBlock →
          polyEval ([32, 91, 11] ++ r) (ReedSolomonEncoder.gf.power 2 i) = 0 :=
  addErrorCorrection_single_block [32, 91, 11] 3 "H" (by decide) (by decide) (by decide)
    (by decide) (by decide)

/-- C24: for every `n`, `generatePolynomial(n)` has `n + 1` coefficients, the first of
which is 1; read as a polynomial over GF(256), highest degree first, it is 0 at
`power(2, i)` for every `i < n`. It is the product of the factors `x - power(2, i)`,
`i = 0, ..., n - 1`: `generatePolynomial(n + 1)` is `generatePolynomial(n)` multiplied by
`{1, power(2, n)}`, and the value at every byte `x` is the product of the values
`x - power(2, i)` (subtraction in GF(256) is XOR). -/
theorem generatePolynomial_monic_roots (n : Nat) :
    (ReedSolomonEncoder.generatePolynomial n).length = n + 1 ∧
      (ReedSolomonEncoder.generatePolynomial n).head? = some 1 ∧
      (∀ b ∈ ReedSolomonEncoder.generatePolynomial n, b < 256) ∧
      (∀ i, i < n →
        polyEval (ReedSolomonEncoder.generatePolynomial n)
          (ReedSolomonEncoder.gf.power 2 i) = 0) ∧
      ReedSolomonEncoder.generatePolynomial (n + 1) =
        ReedSolomonEncoder.multiplyPolynomials (ReedSolomonEncoder.generatePolynomial n)
          [1, ReedSolomonEncoder.gf.power 2 n] ∧
      ∀ x, x < 256 →
        polyEval (ReedSolomonEncoder.generatePolynomial n) x = rootProductSpec 1 x 0 n := by
  obtain ⟨g, h1, h2, h3, h4⟩ := generatePolynomial_spec n
  have hlast := generateLoop_succ_last n 0 [1]
  rw [Nat.zero_add] at hlast
  refine ⟨by rw [h1, List.length_cons, h2], by rw [h1]; rfl, ?_, ?_, hlast,
    fun x hx => generatePolynomial_eval n x hx⟩
  · rw [h1]
    exact Bytes_cons.2 ⟨by omega, h3⟩
  · intro i hi
    rw [h1]
    exact h4 i hi

/-- C26: for bytes `a` and `b`, the table-based `multiply(a, b)` is the naive product of
GF(256), the carry-less product of `a` and `b` reduced modulo `0x11D`; it is a byte, and
it is 0 only if `a` or `b` is 0. -/
theorem multiply_naive_product (a b : Nat) (ha : a < 256) (hb : b < 256) :
    GaloisField.initTables.multiply a b = naiveProduct a b ∧
      GaloisField.initTables.multiply a b < 256 ∧
      (GaloisField.initTables.multiply a b = 0 → a = 0 ∨ b = 0) := by
  refine ⟨multiply_eq_naive a b ha hb, multiply_lt a b, ?_⟩
  intro h
  by_contra hcon
  have ha0 : a ≠ 0 := fun h0 => hcon (Or.inl h0)
  have hb0 : b ≠ 0 := fun h0 => hcon (Or.inr h0)
  exact multiply_ne_zero ha0 hb0 h

theorem multiply_naive_product_witness :
    GaloisField.initTables.multiply 87 131 = naiveProduct 87 131 ∧
      GaloisField.initTables.multiply 87 131 < 256 ∧
      (GaloisField.initTables.multiply 87 131 = 0 → 87 = 0 ∨ 131 = 0) :=
  multiply_naive_product 87 131 (by decide) (by decide)

/-- C27 at 18 digits and level H: `detectMode` gives Numeric, the estimated capacity of
version 1 is `9 * 2 = 18` characters, so `determineVersion` returns 1 from its capacity
loop; but the bit stream of `encode` at version 1 has 74 bits for a capacity of
`8 * 9 = 72`, and `encodeToBytes` computes the terminator length `min(4, 72 - 74) < 0`
and has no result. This holds whatever the floating-point operations of the other modes
compute. -/
theorem determineVersion_numeric_does_not_fit (fp : FloatOps) :
    detectMode "123456789012345678".toList = QR_MODE_NUMERIC ∧
      (("123456789012345678".toList.length : Nat) : Int) ≤
        estimatedCapacity fp QR_MODE_NUMERIC 1 "H" ∧
      determineVersion fp "123456789012345678".toList
        (detectMode "123456789012345678".toList) "H" = 1 ∧
      (encode "123456789012345678".toList QR_MODE_NUMERIC 1).map List.length = .ok 74 ∧
      8 * getDataCodewordsCount 1 "H" = 72 ∧
      encodeToBytes "123456789012345678".toList QR_MODE_NUMERIC 1 "H" =
        .error .negativeLength :=
  ⟨by decide, le_of_eq rfl, rfl, by decide!, by decide, by decide!⟩

end QR
